import Mathlib

/-!
# Device-Reporter: a verification development

A shallow embedding of the ingestion pipeline of `kurochkinivan/Device-Reporter`
(packages `internal/domain`, `internal/pipeline`, `internal/repository/postgresql`,
the start-up of `internal/app` and the pagination of `internal/controller/http/v1`)
together with theorems about it.

Conventions of the embedding

* A Go `error` is represented by its message (`GoError := String`); the `nil`
  error is `none`.  `fmt.Errorf("prefix: %w", err)` is string concatenation.
* Go slices are lists; the nil slice and the empty slice are both `[]`.
* `time.Time` is a natural number read from a clock oracle.
* Stateful code is written in explicit state-passing style over `World`
  (committed database, open transaction, trace of observed calls).
* Everything outside the repository (the PostgreSQL driver, the file system,
  the clock) answers through the oracles of `Env`, which may fail at any call.
* Each stage is modelled on its own, driven by what its `select` picks; a send
  on a channel is taken to go through.  Where a send may have to wait, the
  stage is followed step by step between its blocking points (`Moment`, `At`).
* Calls of the logger change nothing in the pipeline and are left out.
* Unsigned 64-bit arithmetic is arithmetic on naturals modulo `2^64`.
-/

/-- A Go `error`, represented by the text `err.Error()` returns. -/
abbrev GoError := String

/-- A `time.Time` value. -/
abbrev Time := Nat

/-! ## Package `domain` -/

namespace domain

/-- The `domain.Status` string type. -/
abbrev Status := String

/-- Constant `domain.StatusPending`. -/
def StatusPending : Status := "pending"

/-- Constant `domain.StatusProcessing`. -/
def StatusProcessing : Status := "processing"

/-- Constant `domain.StatusDone`. -/
def StatusDone : Status := "done"

/-- Constant `domain.StatusError`. -/
def StatusError : Status := "error"

/-- The `domain.Device` record (`device.go`); `N` and `Level` are Go `int`s. -/
structure Device where
  N : Int
  MQTT : String
  InvID : String
  UnitGUID : String
  MsgID : String
  Text : String
  Context : String
  Class : String
  Level : Int
  Area : String
  Addr : String
  Block : String
  Type_ : String
  Bit : String
  InvertBit : String
deriving DecidableEq, Repr

/-- The method `(*Device).Validate` of `device.go`: `none` is the nil error. -/
def Device.Validate (d : Device) : Option GoError :=
  if d.UnitGUID == "" then
    some "unit_guid is required"
  else if d.N == 0 then
    some "n is required"
  else if d.Class == "" then
    some "class is required"
  else
    none

/-- The `domain.File` record (`files.go`); `ProcessedAt` is a nullable pointer. -/
structure File where
  Name : String
  Status : Status
  ErrorMessage : String
  ProcessedAt : Option Time
deriving DecidableEq, Repr

/-- The `domain.ParseResult` record (`parse_result.go`). -/
structure ParseResult where
  Filename : String
  Devices : List Device
  Error : Option GoError
deriving DecidableEq, Repr

end domain

/-! ## Package `pipeline`: the parser -/

namespace pipeline

open domain

/-- What one call of `dec.Decode(&device)` yields for one data row of the input:
either a decoding error or the decoded device. -/
inductive Row where
  | bad (err : GoError)
  | ok (device : Device)
deriving DecidableEq, Repr

/-- Specification: a row that makes the parse fail, that is, a row that does
not decode or whose device does not pass validation. -/
def Row.fails : Row → Bool
  | Row.bad _ => true
  | Row.ok device => device.Validate.isSome

/-- The state of a `csvutil.Decoder`: the data rows not yet consumed.  When the
list is empty `Decode` reports `io.EOF`. -/
abbrev Decoder := List Row

/-- The content handed to `parseRecords` as an `io.Reader`, as the CSV library
sees it: whether reading the header row fails (`csvutil.NewDecoder`), and the
data rows after the header. -/
structure Input where
  headerErr : Option GoError
  rows : List Row
deriving DecidableEq, Repr

/-- What `parseRecords` hands back: the device slice and the error. -/
structure Parsed where
  devices : List Device
  err : Option GoError
deriving DecidableEq, Repr

/-- The `for` loop of `Parser.parseRecords` (`parser.go`, lines 80-98).  The
first argument is the decoder, the second the local `devices`; the decoder left
behind is returned next to the function's result. -/
def Parser.parseRecords.loop : Decoder → List Device → Parsed × Decoder
  | [], devices => (⟨devices, none⟩, [])
  | Row.bad err :: dec, devices =>
      (⟨devices, some ("failed to decode device record: " ++ err)⟩, dec)
  | Row.ok device :: dec, devices =>
      match device.Validate with
      | some err =>
          (⟨[], some ("invalid device record #" ++ toString (devices.length + 1)
              ++ ": " ++ err)⟩, dec)
      | none => Parser.parseRecords.loop dec (devices ++ [device])

/-- The method `Parser.parseRecords` (`parser.go`). -/
def Parser.parseRecords (r : Input) : Parsed × Decoder :=
  match r.headerErr with
  | some err => (⟨[], some ("failed to create decoder: " ++ err)⟩, r.rows)
  | none => Parser.parseRecords.loop r.rows []

end pipeline

/-! ## The Go standard library functions the pipeline calls (`path/filepath`, Unix) -/

namespace filepath

/-- Split a byte sequence at every `/`; the result is never empty. -/
def splitSlash : List Char → List (List Char)
  | [] => [[]]
  | c :: cs =>
      match splitSlash cs with
      | [] => [[]]
      | e :: es => if c = '/' then [] :: e :: es else (c :: e) :: es

/-- The element-wise pass of `filepath.Clean`: `out` is the output built so far,
last element first.  Empty and `.` elements are skipped; a `..` element removes
the preceding real element, is dropped at the root, and is kept otherwise. -/
def cleanElems (rooted : Bool) : List (List Char) → List (List Char) → List (List Char)
  | out, [] => out.reverse
  | out, e :: es =>
      if e = [] ∨ e = ['.'] then cleanElems rooted out es
      else if e = ['.', '.'] then
        match out with
        | [] => if rooted then cleanElems rooted [] es else cleanElems rooted [e] es
        | top :: rest =>
            if top = ['.', '.'] then cleanElems rooted (e :: top :: rest) es
            else cleanElems rooted rest es
      else cleanElems rooted (e :: out) es

/-- Join path elements with `/` in between. -/
def joinSlash : List (List Char) → List Char
  | [] => []
  | [e] => e
  | e :: es => e ++ '/' :: joinSlash es

/-- The function `filepath.Clean` on character lists. -/
def cleanChars (path : List Char) : List Char :=
  match path with
  | [] => ['.']
  | c :: _ =>
      let rooted := decide (c = '/')
      let body := joinSlash (cleanElems rooted [] (splitSlash path))
      if rooted then '/' :: body else if body = [] then ['.'] else body

/-- The function `filepath.Clean`. -/
def Clean (path : String) : String := String.mk (cleanChars path.data)

/-- The function `filepath.Join` for two elements: leading empty elements are
ignored, the rest is joined with `/` and cleaned; all empty gives `""`. -/
def Join (a b : String) : String :=
  if a ≠ "" then Clean (a ++ "/" ++ b)
  else if b ≠ "" then Clean b
  else ""

/-- Drop the trailing `/` characters of a path given in reverse. -/
def dropSlashes : List Char → List Char
  | [] => []
  | c :: cs => if c = '/' then dropSlashes cs else c :: cs

/-- The function `filepath.Base`: the last element of the path, after removing
trailing slashes; `.` for the empty path and `/` for a path of slashes only. -/
def Base (path : String) : String :=
  if path = "" then "."
  else
    let stripped := dropSlashes path.data.reverse
    let last := (stripped.takeWhile (fun c => c != '/')).reverse
    if last = [] then "/" else String.mk last

/-- Specification: a name a directory entry can have, that is, a single path
element: not empty, without `/`, and neither `.` nor `..`. -/
def isEntryName (name : String) : Bool :=
  name.data != [] && !name.data.contains '/' && name.data != ['.'] && name.data != ['.', '.']

/-- The part of a path up to and including its last `/`; empty when the path
has no `/`. -/
def dirPrefix (path : List Char) : List Char :=
  (path.reverse.dropWhile (fun c => c != '/')).reverse

/-- The function `filepath.Dir`: the path up to and including its last `/`,
cleaned; the volume name is empty on Unix. -/
def Dir (path : String) : String :=
  Clean (String.mk (dirPrefix path.data))

/-- Specification: a path element that `Clean` keeps as it is: not empty,
without `/`, and neither `.` nor `..`. -/
def isRealElem (e : List Char) : Prop :=
  e ≠ [] ∧ '/' ∉ e ∧ e ≠ ['.'] ∧ e ≠ ['.', '.']


end filepath

/-! ## The world the pipeline runs in -/

open domain

/-- An `os.DirEntry`, as far as the scanner looks at it. -/
structure DirEntry where
  Name : String
  IsDir : Bool
deriving DecidableEq, Repr

/-- The calls and channel operations an observer of the pipeline sees, each
with the arguments it was made with and, for calls, the error it returned. -/
inductive Event where
  /-- Method `Transactor.WithTransaction` was entered. -/
  | WithTransaction
  /-- Call `pool.Begin(ctx)`. -/
  | Begin (err : Option GoError)
  /-- Call `tx.Commit(ctx)`. -/
  | Commit (err : Option GoError)
  /-- Call `tx.Rollback(ctx)`. -/
  | Rollback
  /-- Call `DevicesSaver.SaveDevices`; `inTx` tells whether the context carried
  the transaction. -/
  | SaveDevices (inTx : Bool) (devices : List Device) (err : Option GoError)
  /-- Call `FileUpdater.UpdateOrCreateFile`. -/
  | UpdateOrCreateFile (inTx : Bool) (file : File) (err : Option GoError)
  /-- Call `FilesProvider.Files`. -/
  | Files (inTx : Bool) (err : Option GoError)
  /-- Call `FilesRepository.ResetProcessingFiles`. -/
  | ResetProcessingFiles (inTx : Bool) (err : Option GoError)
  /-- Call `os.ReadDir`. -/
  | ReadDir (dir : String) (err : Option GoError)
  /-- Call `os.Open`. -/
  | Open (path : String) (err : Option GoError)
  /-- Call `f.Close()` on the file opened at `path`. -/
  | Close (path : String) (err : Option GoError)
  /-- Call `ReportGenerator.GenerateReport`. -/
  | GenerateReport (outputPath unitGUID sourceFile : String) (devices : List Device)
      (err : Option GoError)
  /-- Send on the `files` channel. -/
  | SendFile (path : String)
  /-- Send on the `parseResults` channel. -/
  | SendParseResult (result : ParseResult)
  /-- Send on the `reports` channel. -/
  | SendReport (result : ParseResult)
  /-- Statement `close(s.files)`. -/
  | CloseFiles
  /-- Statement `close(p.parseResults)`. -/
  | CloseParseResults
  /-- Statement `close(w.reports)`. -/
  | CloseReports
deriving DecidableEq, Repr

/-- The tables of the database. -/
structure DB where
  files : List File
  devices : List Device
deriving DecidableEq, Repr

/-- The state of the world: the committed database, the working copy of the
open transaction (if one is open), and the events observed so far, oldest
first. -/
structure World where
  db : DB
  tx : Option DB
  trace : List Event
deriving DecidableEq, Repr

/-- The two places where reading rows can fail: `db.Query` itself, and
`pgx.CollectRows` on its result. -/
inductive QueryFault where
  | query (err : GoError)
  | collect (err : GoError)
deriving DecidableEq, Repr

/-- Everything the pipeline does not control.  Each oracle is asked with the
events observed so far, so a collaborator may answer differently on every
call. -/
structure Env where
  /-- The error of `postgresql.NewConnection`: of creating the pool and of the
  pings it retries. -/
  pgConnect : List Event → Option GoError
  /-- The error of `pool.Begin`. -/
  pgBegin : List Event → Option GoError
  /-- The error of `tx.Commit`. -/
  pgCommit : List Event → Option GoError
  /-- The error of `db.Exec`. -/
  pgExec : List Event → Option GoError
  /-- The failure of `db.Query` or of collecting its rows, if any. -/
  pgQuery : List Event → Option QueryFault
  /-- The result of `db.CopyFrom`: an error or the number of rows copied. -/
  pgCopyFrom : List Event → List Device → Except GoError Nat
  /-- The result of `os.ReadDir`. -/
  readDir : List Event → String → Except GoError (List DirEntry)
  /-- The result of `os.Open`: an error, or the content of the file as the CSV
  library will see it. -/
  openFile : List Event → String → Except GoError pipeline.Input
  /-- The error of `f.Close()`. -/
  closeFile : List Event → String → Option GoError
  /-- The order in which a `range` statement visits the keys of a map, given
  the keys; Go leaves it unspecified. -/
  rangeOrder : List Event → List String → List String
  /-- The result of `time.Now`. -/
  now : List Event → Time
  /-- The error of `ReportGenerator.GenerateReport`. -/
  generate : List Event → String → String → String → List Device → Option GoError

/-- A computation with effects on the world. -/
abbrev M (α : Type) := World → α × World

/-- A `context.Context`, as far as the pipeline looks into it: whether
`ctx.Value(ctxKey{})` holds the transaction. -/
structure Ctx where
  tx : Bool
deriving DecidableEq, Repr

/-- The context `context.Background()`. -/
def Ctx.background : Ctx := ⟨false⟩

/-- Record an event. -/
def World.log (w : World) (e : Event) : World := { w with trace := w.trace ++ [e] }

/-- The events of `w'` that came after those of `w`. -/
def World.since (w' w : World) : List Event := w'.trace.drop w.trace.length

/-- The paths sent on the `files` channel, in order. -/
def sentFiles : List Event → List String
  | [] => []
  | Event.SendFile p :: es => p :: sentFiles es
  | _ :: es => sentFiles es

/-- The outcomes sent on the `reports` channel, in order. -/
def sentReports : List Event → List ParseResult
  | [] => []
  | Event.SendReport r :: es => r :: sentReports es
  | _ :: es => sentReports es

/-- The outcomes sent on the `parseResults` channel, in order. -/
def sentParseResults : List Event → List ParseResult
  | [] => []
  | Event.SendParseResult r :: es => r :: sentParseResults es
  | _ :: es => sentParseResults es

/-- The files handed to `UpdateOrCreateFile` with a context that carries no
transaction, in order. -/
def poolUpserts : List Event → List File
  | [] => []
  | Event.UpdateOrCreateFile false f _ :: es => f :: poolUpserts es
  | _ :: es => poolUpserts es

/-- The calls of `GenerateReport`, in order. -/
def generateCalls : List Event → List Event
  | [] => []
  | Event.GenerateReport p g f ds err :: es =>
      Event.GenerateReport p g f ds err :: generateCalls es
  | _ :: es => generateCalls es

/-- Specification: the order oracle of `range` is well behaved when it visits
every key of the map exactly once. -/
def Env.rangeOk (env : Env) : Prop :=
  ∀ trace keys, (env.rangeOrder trace keys).Perm keys

/-- Specification: no call to the store fails. -/
def Env.storeNeverFails (env : Env) : Prop :=
  (∀ trace, env.pgQuery trace = none) ∧ (∀ trace, env.pgExec trace = none) ∧
  (∀ trace, env.pgBegin trace = none) ∧ (∀ trace, env.pgCommit trace = none) ∧
  (∀ trace devices, env.pgCopyFrom trace devices = Except.ok devices.length)

/-- The function `errors.Join` for two errors: nil when both are nil, otherwise
the non-nil messages separated by a newline. -/
def errorsJoin (err closeErr : Option GoError) : Option GoError :=
  match err with
  | none => closeErr
  | some first =>
      match closeErr with
      | none => some first
      | some second => some (first ++ "\n" ++ second)

/-- The files handed to `UpdateOrCreateFile`, in order. -/
def upserts : List Event → List File
  | [] => []
  | Event.UpdateOrCreateFile _ f _ :: es => f :: upserts es
  | _ :: es => upserts es

/-- What the `select` statement of a stage picks in one iteration of its loop:
a value received from the input channel, the input channel found closed, or
`ctx.Done()` with the error `ctx.Err()` then returns. -/
inductive Select (α : Type) where
  | recv (x : α)
  | closed
  | done (err : GoError)
deriving DecidableEq, Repr

/-- How far `Run` of a stage got: it returned, or it is still waiting in its
`select` because the schedule has nothing more for it. -/
inductive RunResult where
  | returned (err : Option GoError)
  | waiting
deriving DecidableEq, Repr

/-! ## Package `postgresql` -/

namespace postgresql

/-- The interface `DBTX`: the pool or the transaction. -/
inductive DBTX where
  | pool
  | tx
deriving DecidableEq, Repr

/-- The function `extractDB` of `tx.go`. -/
def extractDB (ctx : Ctx) : DBTX :=
  if ctx.tx then DBTX.tx else DBTX.pool

/-- The tables a statement on `db` sees: those of the open transaction, or the
committed ones; `none` when the transaction is closed. -/
def DBTX.read (db : DBTX) (w : World) : Option DB :=
  match db with
  | DBTX.pool => some w.db
  | DBTX.tx => w.tx

/-- Store the tables a statement on `db` leaves behind. -/
def DBTX.write (db : DBTX) (t : DB) (w : World) : World :=
  match db with
  | DBTX.pool => { w with db := t }
  | DBTX.tx => { w with tx := some t }

/-- The error of a statement on a closed transaction (`pgx.ErrTxClosed`). -/
def ErrTxClosed : GoError := "tx is closed"

/-- The statement `INSERT ... ON CONFLICT (name) DO UPDATE SET ...` on the
table `files`: the row of that name is replaced, or the row is added. -/
def upsertRow (file : File) : List File → List File
  | [] => [file]
  | g :: gs => if g.Name = file.Name then file :: gs else g :: upsertRow file gs

/-- The statement `UPDATE files SET status = pending WHERE status = processing`. -/
def resetRows (files : List File) : List File :=
  files.map (fun f => if f.Status = StatusProcessing then { f with Status := StatusPending } else f)

/-- The function `createQueryError`. -/
def createQueryError (err : GoError) : GoError := "failed to create query: " ++ err

/-- The function `executeQueryError`. -/
def executeQueryError (err : GoError) : GoError := "failed to execute query: " ++ err

/-- The function `collectRowsError`. -/
def collectRowsError (err : GoError) : GoError := "failed to collect rows: " ++ err

/-- The error `FilesRepository.Files` returns for a failure of its query. -/
def wrapQueryFault : QueryFault → GoError
  | QueryFault.query err => executeQueryError err
  | QueryFault.collect err => collectRowsError err

/-- The method `FilesRepository.Files` (`files.go`).  The statement is built
from constants, so building it (`ToSql`) does not fail. -/
def FilesRepository.Files (env : Env) (ctx : Ctx) : M (Except GoError (List File)) := fun w =>
  let db := extractDB ctx
  match db.read w, env.pgQuery w.trace with
  | none, _ =>
      (Except.error (executeQueryError ErrTxClosed),
        w.log (Event.Files ctx.tx (some (executeQueryError ErrTxClosed))))
  | some _, some fault =>
      (Except.error (wrapQueryFault fault),
        w.log (Event.Files ctx.tx (some (wrapQueryFault fault))))
  | some t, none => (Except.ok t.files, w.log (Event.Files ctx.tx none))

/-- The method `FilesRepository.UpdateOrCreateFile` (`files.go`).  Building the
statement (`ToSql`) does not fail; `db.Exec` may. -/
def FilesRepository.UpdateOrCreateFile (env : Env) (ctx : Ctx) (file : File) :
    M (Option GoError) := fun w =>
  let db := extractDB ctx
  match db.read w, env.pgExec w.trace with
  | none, _ =>
      (some (executeQueryError ErrTxClosed),
        w.log (Event.UpdateOrCreateFile ctx.tx file (some (executeQueryError ErrTxClosed))))
  | some _, some err =>
      (some (executeQueryError err),
        w.log (Event.UpdateOrCreateFile ctx.tx file (some (executeQueryError err))))
  | some t, none =>
      (none, (db.write { t with files := upsertRow file t.files } w).log
        (Event.UpdateOrCreateFile ctx.tx file none))

/-- The method `FilesRepository.ResetProcessingFiles` (`files.go`).  Building
the statement (`ToSql`) does not fail; `db.Exec` may. -/
def FilesRepository.ResetProcessingFiles (env : Env) (ctx : Ctx) : M (Option GoError) := fun w =>
  let db := extractDB ctx
  match db.read w, env.pgExec w.trace with
  | none, _ =>
      (some (executeQueryError ErrTxClosed),
        w.log (Event.ResetProcessingFiles ctx.tx (some (executeQueryError ErrTxClosed))))
  | some _, some err =>
      (some (executeQueryError err),
        w.log (Event.ResetProcessingFiles ctx.tx (some (executeQueryError err))))
  | some t, none =>
      (none, (db.write { t with files := resetRows t.files } w).log
        (Event.ResetProcessingFiles ctx.tx none))

/-- The method `DevicesRepository.SaveDevices` (`devices.go`): `CopyFrom`
inserts the rows it reports as copied; a count other than `len(devices)` is an
error. -/
def DevicesRepository.SaveDevices (env : Env) (ctx : Ctx) (devices : List Device) :
    M (Option GoError) := fun w =>
  let db := extractDB ctx
  match db.read w, env.pgCopyFrom w.trace devices with
  | none, _ =>
      (some ("failed to save devices: " ++ ErrTxClosed),
        w.log (Event.SaveDevices ctx.tx devices (some ("failed to save devices: " ++ ErrTxClosed))))
  | some _, Except.error err =>
      (some ("failed to save devices: " ++ err),
        w.log (Event.SaveDevices ctx.tx devices (some ("failed to save devices: " ++ err))))
  | some t, Except.ok copied =>
      let w1 := db.write { t with devices := t.devices ++ devices.take copied } w
      if copied ≠ devices.length then
        let err := "failed to save devices: copied " ++ toString copied ++ " rows, expected "
          ++ toString devices.length
        (some err, w1.log (Event.SaveDevices ctx.tx devices (some err)))
      else
        (none, w1.log (Event.SaveDevices ctx.tx devices none))

/-- The call `pool.Begin(ctx)`: on success the transaction starts from the
committed tables. -/
def Begin (env : Env) : M (Option GoError) := fun w =>
  match env.pgBegin w.trace with
  | some err => (some err, w.log (Event.Begin (some err)))
  | none => (none, { w with tx := some w.db, trace := w.trace ++ [Event.Begin none] })

/-- The call `tx.Commit(ctx)`: on success the tables of the transaction become
the committed ones and the transaction is closed; on failure the transaction
is closed and its tables are dropped. -/
def Commit (env : Env) : M (Option GoError) := fun w =>
  match w.tx with
  | none => (some ErrTxClosed, w.log (Event.Commit (some ErrTxClosed)))
  | some t =>
      match env.pgCommit w.trace with
      | some err => (some err, { w with tx := none, trace := w.trace ++ [Event.Commit (some err)] })
      | none => (none, { db := t, tx := none, trace := w.trace ++ [Event.Commit none] })

/-- The call `tx.Rollback(ctx)`: an open transaction is closed and its tables
are dropped; on a closed transaction nothing happens. -/
def Rollback : World → World := fun w =>
  { w with tx := none, trace := w.trace ++ [Event.Rollback] }

/-- The world right after `WithTransaction` was entered and `pool.Begin`
succeeded: the transaction is open on a copy of the committed tables. -/
def txStart (w : World) : World :=
  { db := w.db, tx := some w.db, trace := w.trace ++ [Event.WithTransaction, Event.Begin none] }

/-- The method `TxManager.WithTransaction` (`tx.go`).  The deferred
`tx.Rollback` runs on every return after a successful `Begin`. -/
def TxManager.WithTransaction (env : Env) (_ctx : Ctx) (fn : Ctx → M (Option GoError)) :
    M (Option GoError) := fun w =>
  match Begin env (w.log Event.WithTransaction) with
  | (some err, w1) => (some ("failed to begin transaction: " ++ err), w1)
  | (none, w1) =>
      let ctx : Ctx := { tx := true }
      match fn ctx w1 with
      | (some err, w2) => (some ("rolled back due to err: " ++ err), Rollback w2)
      | (none, w2) =>
          match Commit env w2 with
          | (some err, w3) => (some ("failed to commit transaction: " ++ err), Rollback w3)
          | (none, w3) => (none, Rollback w3)

end postgresql

/-! ## Package `pipeline`: scanner and writer -/

namespace pipeline

/-- The interface `FilesProvider`. -/
abbrev FilesProvider := Ctx → M (Except GoError (List File))

/-- The interface `FileUpdater`. -/
abbrev FileUpdater := Ctx → File → M (Option GoError)

/-- The interface `DevicesSaver`. -/
abbrev DevicesSaver := Ctx → List Device → M (Option GoError)

/-- The interface `Transactor`. -/
abbrev Transactor := Ctx → (Ctx → M (Option GoError)) → M (Option GoError)

/-- A Go `map[string]domain.Status`. -/
abbrev StatusMap := String → Option Status

/-- The empty map `make(map[string]domain.Status, n)`. -/
def StatusMap.empty : StatusMap := fun _ => none

/-- The assignment `m[key] = value`. -/
def StatusMap.set (m : StatusMap) (key : String) (value : Status) : StatusMap :=
  fun k => if k = key then some value else m k

/-- The two-valued lookup `value, ok := m[key]`; a missing key gives the zero
value `""`. -/
def StatusMap.get (m : StatusMap) (key : String) : Status × Bool :=
  match m key with
  | some value => (value, true)
  | none => ("", false)

/-- The `Scanner` of `scanner.go`; the `files` channel is observed through the
`SendFile` events of the world. -/
structure Scanner where
  watchDir : String
  filesProvider : FilesProvider
  fileUpdater : FileUpdater

/-- The call `os.ReadDir(dir)`. -/
def ReadDir (env : Env) (dir : String) : M (Except GoError (List DirEntry)) := fun w =>
  match env.readDir w.trace dir with
  | Except.error err => (Except.error err, w.log (Event.ReadDir dir (some err)))
  | Except.ok entries => (Except.ok entries, w.log (Event.ReadDir dir none))

/-- The `for _, file := range files` loop of `Scanner.extractFilesFromDB`,
started on the empty map. -/
def Scanner.extractFilesFromDB.loop (files : List File) : StatusMap :=
  files.foldl (fun filesMap file => filesMap.set file.Name file.Status) StatusMap.empty

/-- The method `Scanner.extractFilesFromDB`. -/
def Scanner.extractFilesFromDB (s : Scanner) (ctx : Ctx) : M (Except GoError StatusMap) := fun w =>
  match s.filesProvider ctx w with
  | (Except.error err, w1) => (Except.error ("failed to get files: " ++ err), w1)
  | (Except.ok files, w1) => (Except.ok (Scanner.extractFilesFromDB.loop files), w1)

/-- The method `Scanner.processEntry`.  The send on `files` is taken to go
through (the channel has room or the parser is receiving). -/
def Scanner.processEntry (s : Scanner) (ctx : Ctx) (entry : DirEntry) (filesMap : StatusMap) :
    M (Option GoError) := fun w =>
  if entry.IsDir then (none, w)
  else
    let (status, ok) := filesMap.get entry.Name
    if ok && status != StatusPending then (none, w)
    else
      let file : File :=
        { Name := entry.Name, Status := StatusProcessing, ErrorMessage := "", ProcessedAt := none }
      match s.fileUpdater ctx file w with
      | (some err, w1) => (some ("failed to update file status: " ++ err), w1)
      | (none, w1) => (none, w1.log (Event.SendFile (filepath.Join s.watchDir entry.Name)))

/-- The `for _, entry := range entries` loop of `Scanner.scanFiles`: an entry
whose processing fails is logged and skipped. -/
def Scanner.scanFiles.loop (s : Scanner) (ctx : Ctx) (filesMap : StatusMap) :
    List DirEntry → World → World
  | [], w => w
  | entry :: entries, w =>
      Scanner.scanFiles.loop s ctx filesMap entries (s.processEntry ctx entry filesMap w).2

/-- The method `Scanner.scanFiles`.  The `%q` verb is rendered as plain double
quotes around the directory. -/
def Scanner.scanFiles (env : Env) (s : Scanner) (ctx : Ctx) : M (Option GoError) := fun w =>
  match s.extractFilesFromDB ctx w with
  | (Except.error err, w1) => (some err, w1)
  | (Except.ok filesMap, w1) =>
      match ReadDir env s.watchDir w1 with
      | (Except.error _, w2) => (some ("failed to read directory \"" ++ s.watchDir ++ "\""), w2)
      | (Except.ok entries, w2) => (none, Scanner.scanFiles.loop s ctx filesMap entries w2)

/-- Specification: the status recorded for a file name in a list of file
records, that is, the status of the last record of that name, if there is
one. -/
def recordedStatus : List File → String → Option Status
  | [], _ => none
  | file :: files, name =>
      match recordedStatus files name with
      | some status => some status
      | none => if file.Name = name then some file.Status else none

/-- Specification: a directory entry the scanner is to claim, given the file
records fetched: it is not a directory and its name is not recorded or is
recorded as pending. -/
def claimable (files : List File) (entry : DirEntry) : Bool :=
  !entry.IsDir &&
    match recordedStatus files entry.Name with
    | none => true
    | some status => status == StatusPending

/-- The file record the scanner upserts when it claims an entry. -/
def processingFile (entry : DirEntry) : File :=
  { Name := entry.Name, Status := StatusProcessing, ErrorMessage := "", ProcessedAt := none }

/-- Specification: the events of the scanner for a list of entries when every
upsert succeeds: for each claimable entry, in order, the upsert as
`processing` and then the send of its path. -/
def claimEvents (watchDir : String) (files : List File) (entries : List DirEntry) :
    List Event :=
  (entries.filter (claimable files)).flatMap (fun e =>
    [Event.UpdateOrCreateFile false (processingFile e) none,
      Event.SendFile (filepath.Join watchDir e.Name)])

/-- An environment like `env`, except that the one call of `db.Exec` made when
exactly the events `trace` have been observed fails with `err`. -/
def failExecAt (env : Env) (trace : List Event) (err : GoError) : Env :=
  { env with pgExec := fun t => if t = trace then some err else env.pgExec t }

/-- The `Writer` of `writer.go`; its channels are the schedule given to `Run`
and the `SendReport` events of the world. -/
structure Writer where
  fileUpdater : FileUpdater
  devicesSaver : DevicesSaver
  transactor : Transactor

/-- The file record `saveResult` upserts for an outcome, given the time read. -/
def doneFile (result : ParseResult) (now : Time) : File :=
  { Name := filepath.Base result.Filename, Status := StatusDone, ErrorMessage := "",
    ProcessedAt := some now }

/-- The function literal passed to `WithTransaction` in `Writer.saveResult`. -/
def Writer.saveResult.func1 (env : Env) (wr : Writer) (result : ParseResult) (ctx : Ctx) :
    M (Option GoError) := fun w =>
  match wr.devicesSaver ctx result.Devices w with
  | (some err, w1) => (some ("failed to save devices: " ++ err), w1)
  | (none, w1) =>
      let now := env.now w1.trace
      let file : File :=
        { Name := filepath.Base result.Filename, Status := StatusDone, ErrorMessage := "",
          ProcessedAt := some now }
      match wr.fileUpdater ctx file w1 with
      | (some err, w2) => (some ("failed to update file status: " ++ err), w2)
      | (none, w2) => (none, w2)

/-- The method `Writer.saveResult`. -/
def Writer.saveResult (env : Env) (wr : Writer) (ctx : Ctx) (result : ParseResult) :
    M (Option GoError) :=
  wr.transactor ctx (Writer.saveResult.func1 env wr result)

/-- The method `Writer.processParseResult`. -/
def Writer.processParseResult (env : Env) (wr : Writer) (ctx : Ctx) (result : ParseResult) :
    M (Option GoError) := fun w =>
  match result.Error with
  | none =>
      match wr.saveResult env ctx result w with
      | (some err, w1) => (some ("failed to save result: " ++ err), w1)
      | (none, w1) => (none, w1)
  | some resultError =>
      let now := env.now w.trace
      let file : File :=
        { Name := filepath.Base result.Filename, Status := StatusError,
          ErrorMessage := resultError, ProcessedAt := some now }
      match wr.fileUpdater ctx file w with
      | (some err, w1) => (some ("failed to save parse result: " ++ err), w1)
      | (none, w1) => (none, w1)

/-- Specification: the persistence steps the writer takes for the outcomes it
receives, in arrival order.  Each outcome is paired with the error its own
persistence step (`processParseResult`) returned in the world its predecessors
left behind, an outcome whose step returned nil having been sent on `reports`
before the next one is handled. -/
def Writer.persistAll (env : Env) (wr : Writer) (ctx : Ctx) :
    List ParseResult → World → List (ParseResult × Option GoError)
  | [], _ => []
  | result :: rest, w =>
      let step := wr.processParseResult env ctx result w
      (result, step.1) ::
        Writer.persistAll env wr ctx rest
          (if step.1 = none then step.2.log (Event.SendReport result) else step.2)

/-- The `for`/`select` loop of `Writer.Run`, driven by what each `select` picks.
An outcome whose processing fails is logged and skipped (`continue`); the send
on `reports` is taken to go through. -/
def Writer.Run.loop (env : Env) (wr : Writer) (ctx : Ctx) :
    List (Select ParseResult) → M RunResult
  | [], w => (RunResult.waiting, w)
  | Select.closed :: _, w => (RunResult.returned none, w)
  | Select.done err :: _, w => (RunResult.returned (some err), w)
  | Select.recv result :: rest, w =>
      match wr.processParseResult env ctx result w with
      | (some _, w1) => Writer.Run.loop env wr ctx rest w1
      | (none, w1) => Writer.Run.loop env wr ctx rest (w1.log (Event.SendReport result))

/-- The method `Writer.Run`: the deferred `close(w.reports)` runs when the loop
returns. -/
def Writer.Run (env : Env) (wr : Writer) (ctx : Ctx) (schedule : List (Select ParseResult)) :
    M RunResult := fun w =>
  match Writer.Run.loop env wr ctx schedule w with
  | (RunResult.returned err, w1) => (RunResult.returned err, w1.log Event.CloseReports)
  | (RunResult.waiting, w1) => (RunResult.waiting, w1)

/-- The method `Parser.parseRecordsFromFile` (`parser.go`).  When `os.Open`
fails nothing else happens; otherwise the deferred function joins the error of
`parseRecords` with that of `f.Close()`, and the devices are those
`parseRecords` returned. -/
def Parser.parseRecordsFromFile (env : Env) (filename : String) : M Parsed := fun w =>
  match env.openFile w.trace filename with
  | Except.error err => (⟨[], some err⟩, w.log (Event.Open filename (some err)))
  | Except.ok f =>
      let w1 := w.log (Event.Open filename none)
      let parsed := (Parser.parseRecords f).1
      let closeErr := env.closeFile w1.trace filename
      (⟨parsed.devices, errorsJoin parsed.err closeErr⟩, w1.log (Event.Close filename closeErr))

/-- The `for`/`select` loop of `Parser.Run`, driven by what each `select`
picks.  A failed parse is logged and its outcome is sent like any other; the
send on `parseResults` is taken to go through. -/
def Parser.Run.loop (env : Env) (ctx : Ctx) : List (Select String) → M RunResult
  | [], w => (RunResult.waiting, w)
  | Select.closed :: _, w => (RunResult.returned none, w)
  | Select.done err :: _, w => (RunResult.returned (some err), w)
  | Select.recv filename :: rest, w =>
      match Parser.parseRecordsFromFile env filename w with
      | (parsed, w1) =>
          Parser.Run.loop env ctx rest
            (w1.log (Event.SendParseResult
              { Filename := filename, Devices := parsed.devices, Error := parsed.err }))

/-- The method `Parser.Run`: the deferred `close(p.parseResults)` runs when the
loop returns. -/
def Parser.Run (env : Env) (ctx : Ctx) (schedule : List (Select String)) : M RunResult :=
  fun w =>
    match Parser.Run.loop env ctx schedule w with
    | (RunResult.returned err, w1) => (RunResult.returned err, w1.log Event.CloseParseResults)
    | (RunResult.waiting, w1) => (RunResult.waiting, w1)

/-- The interface `ReportGenerator`. -/
abbrev ReportGenerator := String → String → String → List Device → M (Option GoError)

/-- The `Reporter` of `reporter.go`; its channel is the schedule given to
`Run`. -/
structure Reporter where
  outputDir : String
  reportGenerator : ReportGenerator

/-- A Go `map[string][]*domain.Device`: the keys in the order in which they
were first assigned, each with its slice. -/
abbrev DeviceMap := List (String × List Device)

/-- The lookup `m[key]`; a missing key gives the nil slice. -/
def DeviceMap.get (m : DeviceMap) (key : String) : List Device :=
  match m with
  | [] => []
  | (k, ds) :: rest => if k = key then ds else DeviceMap.get rest key

/-- The assignment `m[key] = value`. -/
def DeviceMap.set (m : DeviceMap) (key : String) (value : List Device) : DeviceMap :=
  match m with
  | [] => [(key, value)]
  | (k, ds) :: rest => if k = key then (k, value) :: rest else (k, ds) :: DeviceMap.set rest key value

/-- The first loop of `Reporter.processResult`:
`byGUID[d.UnitGUID] = append(byGUID[d.UnitGUID], d)` for every device. -/
def Reporter.processResult.group : List Device → DeviceMap → DeviceMap
  | [], byGUID => byGUID
  | d :: ds, byGUID =>
      Reporter.processResult.group ds (byGUID.set d.UnitGUID (byGUID.get d.UnitGUID ++ [d]))

/-- The second loop of `Reporter.processResult`, over the keys in the order in
which `range` visits them: the first failing call ends the loop with its
error. -/
def Reporter.processResult.loop (r : Reporter) (result : ParseResult) (byGUID : DeviceMap) :
    List String → M (Option GoError)
  | [], w => (none, w)
  | guid :: guids, w =>
      let path := filepath.Join r.outputDir (guid ++ ".pdf")
      match r.reportGenerator path guid result.Filename (byGUID.get guid) w with
      | (some err, w1) => (some ("guid " ++ guid ++ ": " ++ err), w1)
      | (none, w1) => Reporter.processResult.loop r result byGUID guids w1

/-- The method `Reporter.processResult`. -/
def Reporter.processResult (env : Env) (r : Reporter) (result : ParseResult) :
    M (Option GoError) := fun w =>
  let byGUID := Reporter.processResult.group result.Devices []
  Reporter.processResult.loop r result byGUID
    (env.rangeOrder w.trace (byGUID.map Prod.fst)) w

/-- The `for`/`select` loop of `Reporter.Run`, driven by what each `select`
picks: a failed outcome is logged and the loop goes on. -/
def Reporter.Run.loop (env : Env) (r : Reporter) : List (Select ParseResult) → M RunResult
  | [], w => (RunResult.waiting, w)
  | Select.closed :: _, w => (RunResult.returned none, w)
  | Select.done err :: _, w => (RunResult.returned (some err), w)
  | Select.recv result :: rest, w =>
      Reporter.Run.loop env r rest (r.processResult env result w).2

/-- The method `Reporter.Run`; the reporter has no channel to close. -/
def Reporter.Run (env : Env) (r : Reporter) (schedule : List (Select ParseResult)) :
    M RunResult :=
  Reporter.Run.loop env r schedule

/-- What the `select` statement of `Scanner.Run` picks in one iteration of its
loop: a tick of the ticker, or `ctx.Done()` with the error `ctx.Err()` then
returns.  The channel of a `time.Ticker` is never closed. -/
inductive Tick where
  | tick
  | done (err : GoError)
deriving DecidableEq, Repr

/-- The `for`/`select` loop of `Scanner.Run`, driven by what each `select`
picks.  The error of a scan cycle is logged and the loop goes on. -/
def Scanner.Run.loop (env : Env) (s : Scanner) (ctx : Ctx) : List Tick → M RunResult
  | [], w => (RunResult.waiting, w)
  | Tick.done err :: _, w => (RunResult.returned (some err), w)
  | Tick.tick :: rest, w =>
      Scanner.Run.loop env s ctx rest (Scanner.scanFiles env s ctx w).2

/-- The method `Scanner.Run`: the deferred `close(s.files)` runs when the loop
returns. -/
def Scanner.Run (env : Env) (s : Scanner) (ctx : Ctx) (ticks : List Tick) : M RunResult :=
  fun w =>
    match Scanner.Run.loop env s ctx ticks w with
    | (RunResult.returned err, w1) => (RunResult.returned err, w1.log Event.CloseFiles)
    | (RunResult.waiting, w1) => (RunResult.waiting, w1)

/-- Specification: the world after the parser has handled one received path:
the file is parsed and its outcome is sent on `parseResults`. -/
def Parser.handled (env : Env) (w : World) (filename : String) : World :=
  let out := Parser.parseRecordsFromFile env filename w
  out.2.log (Event.SendParseResult
    { Filename := filename, Devices := out.1.devices, Error := out.1.err })

/-- Specification: the world after the writer has handled one received outcome:
the persistence step is taken, and the outcome is sent on `reports` when the
step returned nil. -/
def Writer.handled (env : Env) (wr : Writer) (ctx : Ctx) (w : World) (result : ParseResult) :
    World :=
  let out := wr.processParseResult env ctx result w
  if out.1 = none then out.2.log (Event.SendReport result) else out.2

/-- Specification: the world after the reporter has handled one received
outcome. -/
def Reporter.handled (env : Env) (r : Reporter) (w : World) (result : ParseResult) : World :=
  (r.processResult env result w).2


/-! ### The stages between their blocking points

`Run` of a stage blocks in its `select` and in the send on its output
channel.  The definitions below follow the same methods as the loops above,
one step from a blocking point to the next, given what the stage finds when it
gets there. -/

/-- What a stage finds at a blocking point. -/
structure Moment (α : Type) where
  /-- The input channel (for the scanner, the channel of the ticker): `none`
  when nothing can be received, `some none` when it is closed and drained,
  `some (some x)` when `x` is the next value to receive. -/
  input : Option (Option α)
  /-- Whether a send on the output channel can proceed: its buffer has room or
  a receiver is waiting. -/
  outputReady : Bool
  /-- The value of `ctx.Err()`: nil until the context is cancelled, and then
  `ctx.Done()` is closed. -/
  ctxErr : Option GoError
  /-- The case Go picks, at random, when both cases of the `select` can
  proceed: whether it is the receive. -/
  pickRecv : Bool
deriving DecidableEq, Repr

/-- The `select` statement of the stages, with its receive case and its
`ctx.Done()` case: the case that proceeds, `none` while neither can. -/
def Moment.select {α : Type} (m : Moment α) : Option (Select α) :=
  match m.input, m.ctxErr with
  | none, none => none
  | none, some err => some (Select.done err)
  | some (some x), none => some (Select.recv x)
  | some none, none => some Select.closed
  | some (some x), some err => if m.pickRecv then some (Select.recv x) else some (Select.done err)
  | some none, some err => if m.pickRecv then some Select.closed else some (Select.done err)

/-- Where `Run` of a stage stands: in its `select`, in the send of a value on
its output channel, or returned. -/
inductive At (β : Type) where
  | select
  | send (y : β)
  | returned (err : Option GoError)
deriving DecidableEq, Repr

/-- A stage over a sequence of moments: it takes a step whenever it can and
stays where it is while it is blocked. -/
def runMoments {α σ : Type} (step : Moment α → σ → World → Option (σ × World)) :
    List (Moment α) → σ → World → σ × World
  | [], pos, w => (pos, w)
  | m :: ms, pos, w =>
      match step m pos w with
      | none => runMoments step ms pos w
      | some (pos1, w1) => runMoments step ms pos1 w1


/-- Specification: the moments that let a stage do, without delay, what one
`select` pick of a schedule says: for a received value, a moment at which the
value can be received and then one at which the output channel is ready. -/
def Select.moments {α : Type} : Select α → List (Moment α)
  | Select.recv x =>
      [{ input := some (some x), outputReady := true, ctxErr := none, pickRecv := true },
        { input := none, outputReady := true, ctxErr := none, pickRecv := true }]
  | Select.closed =>
      [{ input := some none, outputReady := true, ctxErr := none, pickRecv := true }]
  | Select.done err =>
      [{ input := none, outputReady := true, ctxErr := some err, pickRecv := false }]

/-- Specification: where a stage stands after a run over a schedule: in its
`select` when it is still waiting, returned otherwise. -/
def RunResult.position {β : Type} : RunResult → At β
  | RunResult.waiting => At.select
  | RunResult.returned err => At.returned err


/-- One step of `Parser.Run`, from a blocking point to the next; `none` while
the stage stays blocked (and once it has returned). -/
def Parser.Run.step (env : Env) (m : Moment String) :
    At ParseResult → World → Option (At ParseResult × World)
  | At.select, w =>
      match m.select with
      | none => none
      | some Select.closed => some (At.returned none, w.log Event.CloseParseResults)
      | some (Select.done err) => some (At.returned (some err), w.log Event.CloseParseResults)
      | some (Select.recv filename) =>
          match Parser.parseRecordsFromFile env filename w with
          | (parsed, w1) =>
              some (At.send { Filename := filename, Devices := parsed.devices, Error := parsed.err },
                w1)
  | At.send result, w =>
      if m.outputReady then some (At.select, w.log (Event.SendParseResult result)) else none
  | At.returned _, _ => none

/-- One step of `Writer.Run`, from a blocking point to the next; `none` while
the stage stays blocked (and once it has returned). -/
def Writer.Run.step (env : Env) (wr : Writer) (ctx : Ctx) (m : Moment ParseResult) :
    At ParseResult → World → Option (At ParseResult × World)
  | At.select, w =>
      match m.select with
      | none => none
      | some Select.closed => some (At.returned none, w.log Event.CloseReports)
      | some (Select.done err) => some (At.returned (some err), w.log Event.CloseReports)
      | some (Select.recv result) =>
          match wr.processParseResult env ctx result w with
          | (some _, w1) => some (At.select, w1)
          | (none, w1) => some (At.send result, w1)
  | At.send result, w =>
      if m.outputReady then some (At.select, w.log (Event.SendReport result)) else none
  | At.returned _, _ => none

/-- One step of `Reporter.Run`, from a blocking point to the next; the
reporter sends nothing, so its only blocking point is the `select`. -/
def Reporter.Run.step (env : Env) (r : Reporter) (m : Moment ParseResult) :
    At Empty → World → Option (At Empty × World)
  | At.select, w =>
      match m.select with
      | none => none
      | some Select.closed => some (At.returned none, w)
      | some (Select.done err) => some (At.returned (some err), w)
      | some (Select.recv result) => some (At.select, (r.processResult env result w).2)
  | At.send y, _ => nomatch y
  | At.returned _, _ => none

/-- Where `Scanner.Run` stands: in its `select`, in the send of `processEntry`
(with the path being sent, the entries of the cycle still to visit and the map
of the cycle), or returned. -/
inductive Scanner.At where
  | select
  | send (path : String) (entries : List DirEntry) (filesMap : StatusMap)
  | returned (err : Option GoError)

/-- The loop of `Scanner.scanFiles` over the entries still to visit, up to its
next blocking point: the send on `files` in `processEntry`, or the `select`
of `Run` when the entries are exhausted. -/
def Scanner.scanFiles.upToSend (s : Scanner) (ctx : Ctx) (filesMap : StatusMap) :
    List DirEntry → World → Scanner.At × World
  | [], w => (Scanner.At.select, w)
  | entry :: entries, w =>
      if entry.IsDir then Scanner.scanFiles.upToSend s ctx filesMap entries w
      else
        let (status, ok) := filesMap.get entry.Name
        if ok && status != StatusPending then Scanner.scanFiles.upToSend s ctx filesMap entries w
        else
          let file : File :=
            { Name := entry.Name, Status := StatusProcessing, ErrorMessage := "",
              ProcessedAt := none }
          match s.fileUpdater ctx file w with
          | (some _, w1) => Scanner.scanFiles.upToSend s ctx filesMap entries w1
          | (none, w1) =>
              (Scanner.At.send (filepath.Join s.watchDir entry.Name) entries filesMap, w1)

/-- One step of `Scanner.Run`, from a blocking point to the next; `none` while
the stage stays blocked (and once it has returned).  A receive from the ticker
starts a scan cycle, whose error is logged. -/
def Scanner.Run.step (env : Env) (s : Scanner) (ctx : Ctx) (m : Moment Unit) :
    Scanner.At → World → Option (Scanner.At × World)
  | Scanner.At.select, w =>
      match m.select with
      | none => none
      | some (Select.done err) => some (Scanner.At.returned (some err), w.log Event.CloseFiles)
      | some _ =>
          match s.extractFilesFromDB ctx w with
          | (Except.error _, w1) => some (Scanner.At.select, w1)
          | (Except.ok filesMap, w1) =>
              match ReadDir env s.watchDir w1 with
              | (Except.error _, w2) => some (Scanner.At.select, w2)
              | (Except.ok entries, w2) =>
                  some (Scanner.scanFiles.upToSend s ctx filesMap entries w2)
  | Scanner.At.send path entries filesMap, w =>
      if m.outputReady then
        some (Scanner.scanFiles.upToSend s ctx filesMap entries (w.log (Event.SendFile path)))
      else none
  | Scanner.At.returned _, _ => none

/-- Whether the scanner has returned, and with which error. -/
def Scanner.At.result : Scanner.At → Option (Option GoError)
  | Scanner.At.returned err => some err
  | _ => none


end pipeline

/-! ## Package `app`: the wiring of `startPipeline` -/

namespace app

open pipeline postgresql

/-- The scanner built in `App.startPipeline`: the files repository is both its
`FilesProvider` and its `FileUpdater`. -/
def scanner (env : Env) (watchDir : String) : Scanner :=
  { watchDir := watchDir
    filesProvider := FilesRepository.Files env
    fileUpdater := FilesRepository.UpdateOrCreateFile env }

/-- The writer built in `App.startPipeline`: files repository, devices
repository and transaction manager over one pool. -/
def writer (env : Env) : Writer :=
  { fileUpdater := FilesRepository.UpdateOrCreateFile env
    devicesSaver := DevicesRepository.SaveDevices env
    transactor := TxManager.WithTransaction env }

/-- The report generator, a collaborator outside the pipeline: every call is
observed, and the environment decides whether it fails. -/
def reportGenerator (env : Env) : ReportGenerator := fun outputPath unitGUID sourceFile devices w =>
  let err := env.generate w.trace outputPath unitGUID sourceFile devices
  (err, w.log (Event.GenerateReport outputPath unitGUID sourceFile devices err))

/-- The reporter built in `App.startPipeline`. -/
def reporter (env : Env) (outputDir : String) : Reporter :=
  { outputDir := outputDir, reportGenerator := reportGenerator env }

/-- The method `App.Run` (`app.go`): the connection is established, the files
left at `processing` are reset, and then the pipeline is started.
`startPipeline` stands for the method `App.startPipeline`, called with the
repositories over the pool. -/
def App.Run (env : Env) (ctx : Ctx) (startPipeline : Ctx → M (Option GoError)) :
    M (Option GoError) := fun w =>
  match env.pgConnect w.trace with
  | some err => (some ("failed to create db connection: " ++ err), w)
  | none =>
      match FilesRepository.ResetProcessingFiles env ctx w with
      | (some err, w1) => (some ("failed to reset processing files: " ++ err), w1)
      | (none, w1) => startPipeline ctx w1

/-- One step of the running pipeline that touches the file records: a scan
cycle of the scanner, or the writer handling one outcome. -/
inductive Step where
  | scan
  | write (result : ParseResult)
deriving DecidableEq, Repr

/-- The world after one step of the pipeline over the watch directory. -/
def runStep (env : Env) (watchDir : String) : Step → World → World
  | Step.scan, w => (Scanner.scanFiles env (scanner env watchDir) Ctx.background w).2
  | Step.write result, w =>
      (Writer.processParseResult env (writer env) Ctx.background result w).2

/-- The world after a sequence of steps of the pipeline. -/
def runSteps (env : Env) (watchDir : String) : List Step → World → World
  | [], w => w
  | step :: steps, w => runSteps env watchDir steps (runStep env watchDir step w)

/-- The world after the scanner's cycle of a complete sequential run. -/
def runOnce.scanned (env : Env) (watchDir : String) (w : World) : World :=
  (Scanner.scanFiles env (scanner env watchDir) Ctx.background w).2

/-- The world after the parser has handled every path the scan cycle sent and
found `files` closed. -/
def runOnce.parsed (env : Env) (watchDir : String) (w : World) : World :=
  (Parser.Run env Ctx.background
    ((sentFiles ((runOnce.scanned env watchDir w).since w)).map Select.recv ++ [Select.closed])
    (runOnce.scanned env watchDir w)).2

/-- The world after the writer has handled every outcome the parser sent and
found `parseResults` closed. -/
def runOnce.written (env : Env) (watchDir : String) (w : World) : World :=
  (Writer.Run env (writer env) Ctx.background
    ((sentParseResults ((runOnce.parsed env watchDir w).since
      (runOnce.scanned env watchDir w))).map Select.recv ++ [Select.closed])
    (runOnce.parsed env watchDir w)).2

/-- A complete sequential run of the pipeline: one scan cycle, then the parser
on every path sent, then the writer on every outcome sent, then the reporter
on every outcome forwarded, each stage ending when it finds its input channel
closed. -/
def runOnce (env : Env) (watchDir outputDir : String) (w : World) : World :=
  (Reporter.Run env (reporter env outputDir)
    ((sentReports ((runOnce.written env watchDir w).since
      (runOnce.parsed env watchDir w))).map Select.recv ++ [Select.closed])
    (runOnce.written env watchDir w)).2

end app

/-! ## Package `v1`: the query API, up to the call of the repository -/

namespace strconv

/-- The largest `uint64`. -/
def maxUint64 : Nat := 2 ^ 64 - 1

/-- The loop of `strconv.ParseUint(s, 10, 64)` over the bytes of `s`, `n` being
the value read so far: a byte that is not a decimal digit is a syntax error, a
value above the largest `uint64` a range error. -/
def ParseUint.loop (s : String) : List Char → Nat → Except GoError Nat
  | [], n => Except.ok n
  | c :: cs, n =>
      if c.isDigit then
        if n * 10 + (c.toNat - '0'.toNat) > maxUint64 then
          Except.error ("strconv.ParseUint: parsing \"" ++ s ++ "\": value out of range")
        else ParseUint.loop s cs (n * 10 + (c.toNat - '0'.toNat))
      else Except.error ("strconv.ParseUint: parsing \"" ++ s ++ "\": invalid syntax")

/-- The call `strconv.ParseUint(s, 10, 64)`. -/
def ParseUint (s : String) : Except GoError Nat :=
  if s = "" then Except.error ("strconv.ParseUint: parsing \"" ++ s ++ "\": invalid syntax")
  else ParseUint.loop s s.data 0

end strconv

namespace v1

/-- The query parameters of a request as `r.URL.Query().Get` returns them: the
empty string for a parameter that is absent. -/
structure Query where
  page : String
  limit : String
deriving DecidableEq, Repr

/-- The difference `a - b` of two `uint64`. -/
def subUint64 (a b : Nat) : Nat := (a + 2 ^ 64 - b) % 2 ^ 64

/-- The product `a * b` of two `uint64`. -/
def mulUint64 (a b : Nat) : Nat := (a * b) % 2 ^ 64

/-- The first `if` of `DevicesHandler.parsePagination`: the page, or `none`
where the method returns the error `invalid page`. -/
def DevicesHandler.parsePagination.page (q : Query) : Option Nat :=
  if q.page ≠ "" then
    match strconv.ParseUint q.page with
    | Except.error _ => none
    | Except.ok page => if page = 0 then none else some page
  else some 1

/-- The second `if` of `DevicesHandler.parsePagination`: the limit, or `none`
where the method returns the error `invalid limit, must be in [1;100]`. -/
def DevicesHandler.parsePagination.limit (q : Query) : Option Nat :=
  if q.limit ≠ "" then
    match strconv.ParseUint q.limit with
    | Except.error _ => none
    | Except.ok limit => if limit < 1 ∨ limit > 100 then none else some limit
  else some 10

/-- The method `DevicesHandler.parsePagination` (`handler.go`): page, limit and
error. -/
def DevicesHandler.parsePagination (q : Query) : Nat × Nat × Option GoError :=
  match DevicesHandler.parsePagination.page q with
  | none => (0, 0, some "invalid page")
  | some page =>
      match DevicesHandler.parsePagination.limit q with
      | none => (0, 0, some "invalid limit, must be in [1;100]")
      | some limit => (page, limit, none)

/-- The arguments `DevicesByGUID` is called with by a handler. -/
structure DevicesByGUIDArgs where
  guid : String
  limit : Nat
  offset : Nat
deriving DecidableEq, Repr

/-- The method `DevicesHandler.GetDevicesByUnitGUID` (`handler.go`) up to its
call of the repository: the arguments of `DevicesByGUID`, or the error that is
answered with status 400. -/
def DevicesHandler.GetDevicesByUnitGUID (unitGUID : String) (q : Query) :
    Except GoError DevicesByGUIDArgs :=
  match DevicesHandler.parsePagination q with
  | (_, _, some err) => Except.error err
  | (page, limit, none) =>
      let offset := mulUint64 (subUint64 page 1) limit
      Except.ok { guid := unitGUID, limit := limit, offset := offset }

end v1


/-! ## Sample data (from the tests and the scenarios of the specification) -/

namespace sample

open domain pipeline

/-- The device of `TestParser_Run_HappyPath` and `TestWriter_Run_ErrorIsNil`. -/
def device1 : Device :=
  { N := 1, MQTT := "", InvID := "G-044322", UnitGUID := "01749246-95f6-57db-b7c3-2ae0e8be671f",
    MsgID := "cold7_Defrost_status", Text := "Разморозка", Context := "", Class := "waiting",
    Level := 100, Area := "LOCAL", Addr := "cold7_status.Defrost_status", Block := "",
    Type_ := "", Bit := "", InvertBit := "" }

/-- A second valid device, of unit `U1`. -/
def device2 : Device :=
  { device1 with N := 2, UnitGUID := "U1", MsgID := "cold7_VentSK_status" }

/-- The row of the scenario file `c.tsv`: sequence number `0`. -/
def deviceZero : Device := { device1 with N := 0 }

/-- A device with a negative sequence number. -/
def deviceNegative : Device := { device1 with N := -1 }

/-- An environment in which no collaborator fails.  The watch directory holds
`a.tsv` (one valid row), `b.tsv` (header only), `c.tsv` (one row with sequence
number `0`) and a sub-directory; `range` visits the keys of a map in the order
of their first assignment; the clock shows the number of events observed. -/
def env : Env :=
  { pgConnect := fun _ => none
    pgBegin := fun _ => none
    pgCommit := fun _ => none
    pgExec := fun _ => none
    pgQuery := fun _ => none
    pgCopyFrom := fun _ devices => Except.ok devices.length
    readDir := fun _ _ =>
      Except.ok [⟨"a.tsv", false⟩, ⟨"b.tsv", false⟩, ⟨"c.tsv", false⟩, ⟨"old", true⟩]
    openFile := fun _ path =>
      if path = "watch/a.tsv" then Except.ok ⟨none, [pipeline.Row.ok device1]⟩
      else if path = "watch/b.tsv" then Except.ok ⟨none, []⟩
      else if path = "watch/c.tsv" then Except.ok ⟨none, [pipeline.Row.ok deviceZero]⟩
      else Except.error ("open " ++ path ++ ": no such file or directory")
    closeFile := fun _ _ => none
    rangeOrder := fun _ keys => keys
    now := fun trace => trace.length
    generate := fun _ _ _ _ _ => none }

/-- An environment in which every statement on the database fails. -/
def envDown : Env :=
  { env with
    pgExec := fun _ => some "connection refused"
    pgCopyFrom := fun _ _ => Except.error "connection refused" }

/-- A world with empty tables, no open transaction and nothing observed yet. -/
def world : World := { db := { files := [], devices := [] }, tx := none, trace := [] }

/-- A world in which `b.tsv` is recorded as done and `c.tsv` as pending. -/
def worldSeen : World :=
  { db := { files := [⟨"b.tsv", "done", "", some 1⟩, ⟨"c.tsv", "pending", "", none⟩],
            devices := [] },
    tx := none, trace := [] }

/-- A world in which the scanner has claimed `a.tsv`. -/
def worldClaimed : World :=
  { db := { files := [⟨"a.tsv", "processing", "", none⟩], devices := [] },
    tx := none, trace := [] }

/-- The outcome of `TestWriter_Run_ErrorIsNil`, with two devices. -/
def resultOk : ParseResult :=
  { Filename := "watch/a.tsv", Devices := [device1, device2], Error := none }

/-- A third valid device, of the same unit as `device1`. -/
def device3 : Device := { device1 with N := 3, MsgID := "cold7_Door_status" }

/-- An outcome with devices of two units, the first unit occurring twice. -/
def resultTwoUnits : ParseResult :=
  { Filename := "watch/a.tsv", Devices := [device1, device2, device3], Error := none }

/-- The outcome of a file with no data rows. -/
def resultEmpty : ParseResult :=
  { Filename := "watch/b.tsv", Devices := [], Error := none }

/-- An environment in which the report generator fails for unit `U1`. -/
def envGenFails : Env :=
  { env with
    generate := fun _ _ unitGUID _ _ => if unitGUID = "U1" then some "disk full" else none
    rangeOrder := fun _ keys => keys.reverse }

/-- An environment whose watch directory holds the single file `d.tsv`: one
valid row followed by a row with too few fields. -/
def envBrokenFile : Env :=
  { env with
    readDir := fun _ _ => Except.ok [⟨"d.tsv", false⟩]
    openFile := fun _ _ =>
      Except.ok ⟨none, [pipeline.Row.ok device1, pipeline.Row.bad "wrong number of fields"]⟩ }

/-- An environment in which every commit fails. -/
def envCommitFails : Env :=
  { env with pgCommit := fun _ => some "connection lost" }

/-- The outcome of `TestWriter_Run_ErrorIsNotNil`. -/
def resultErr : ParseResult :=
  { Filename := "watch/c.tsv", Devices := [], Error := some "parse error" }

/-- An environment in which every query on the database fails. -/
def envQueryFails : Env :=
  { env with pgQuery := fun _ => some (QueryFault.query "connection refused") }

/-- An environment in which the watch directory cannot be listed. -/
def envNoDir : Env :=
  { env with readDir := fun _ dir => Except.error ("open " ++ dir ++ ": no such file or directory") }


/-- A moment after cancellation at which nothing can be received and the
output channel is full. -/
def momentCancelledFull (α : Type) : Moment α :=
  { input := none, outputReady := false, ctxErr := some "context canceled", pickRecv := false }

/-- A moment after cancellation at which the empty outcome can be received,
and Go picks the receive. -/
def momentCancelledPending : Moment ParseResult :=
  { input := some (some resultEmpty), outputReady := true, ctxErr := some "context canceled",
    pickRecv := true }


/-- A moment before cancellation at which the path of `a.tsv` can be
received. -/
def momentPath : Moment String :=
  { input := some (some "watch/a.tsv"), outputReady := true, ctxErr := none, pickRecv := true }


/-- An environment in which no transaction can be begun. -/
def envBeginFails : Env :=
  { env with pgBegin := fun _ => some "connection refused" }


/-- A world in which `a.tsv` is recorded as processing, `b.tsv` as done and
`c.tsv` as error. -/
def worldCrashed : World :=
  { db := { files := [⟨"a.tsv", "processing", "", none⟩, ⟨"b.tsv", "done", "", some 1⟩,
                      ⟨"c.tsv", "error", "parse error", some 2⟩],
            devices := [] },
    tx := none, trace := [] }

/-- A device that passes validation and whose unit identifier leads out of a
directory. -/
def deviceEscaping : Device := { device1 with UnitGUID := "../U1" }

/-- An outcome with the escaping device. -/
def resultEscaping : ParseResult :=
  { Filename := "watch/a.tsv", Devices := [deviceEscaping], Error := none }


end sample

/-! # Theorems -/

/-! ## Device validation -/

namespace domain

/-- C7: `Device.Validate` returns an error exactly when the sequence number is
zero, the class is empty or the unit identifier is empty, and returns nil
exactly when all three are populated; no other field is looked at. -/
theorem Device.Validate_error_iff (d : Device) :
    (d.Validate ≠ none ↔ (d.N = 0 ∨ d.Class = "" ∨ d.UnitGUID = "")) ∧
    (d.Validate = none ↔ (d.N ≠ 0 ∧ d.Class ≠ "" ∧ d.UnitGUID ≠ "")) := by
  unfold Device.Validate
  by_cases hu : d.UnitGUID = "" <;> by_cases hn : d.N = 0 <;> by_cases hc : d.Class = "" <;>
    simp [hu, hn, hc]

/-- C8 (as stated, refuted): a device with sequence number `-1` is accepted by
`Device.Validate`, although its sequence number is not positive. -/
theorem Device.Validate_accepts_negative :
    ¬ (∀ d : Device, d.Validate = none → d.N > 0) := by
  intro h
  have := h sample.deviceNegative (by decide)
  exact absurd this (by decide)

/-- C8 (amended): every device accepted by `Device.Validate` has a sequence
number different from zero. -/
theorem Device.Validate_accepts_nonzero (d : Device) (h : d.Validate = none) : d.N ≠ 0 := by
  intro hn
  unfold Device.Validate at h
  by_cases hu : d.UnitGUID = "" <;> simp [hu, hn] at h

/-- Witness for C8 (amended): the device of the writer test is accepted and its
sequence number `1` is not zero. -/
theorem Device.Validate_accepts_nonzero_witness :
    sample.device1.Validate = none ∧ sample.device1.N ≠ 0 :=
  ⟨by decide, Device.Validate_accepts_nonzero sample.device1 (by decide)⟩

end domain

/-! ## The parser -/

namespace pipeline

open domain

/-- Rows that decode to valid devices are consumed one by one and appended to
`devices`; the loop then goes on with what follows them. -/
theorem Parser.parseRecords.loop_valid_prefix (ds : List Device)
    (hvalid : ∀ d ∈ ds, d.Validate = none) (rest : Decoder) (devices : List Device) :
    Parser.parseRecords.loop (ds.map Row.ok ++ rest) devices =
      Parser.parseRecords.loop rest (devices ++ ds) := by
  induction ds generalizing devices with
  | nil => simp
  | cons d ds ih =>
      have hd : d.Validate = none := hvalid d (List.mem_cons_self d ds)
      have hds : ∀ x ∈ ds, x.Validate = none := fun x hx => hvalid x (List.mem_cons_of_mem d hx)
      have step : Parser.parseRecords.loop (Row.ok d :: (ds.map Row.ok ++ rest)) devices =
          Parser.parseRecords.loop (ds.map Row.ok ++ rest) (devices ++ [d]) := by
        simp only [Parser.parseRecords.loop, hd]
      rw [List.map_cons, List.cons_append, step, ih hds (devices ++ [d])]
      simp

/-- C9: when the header is read and it is followed by `N >= 0` rows that each
decode to a device passing validation, `parseRecords` returns a nil error and
exactly those `N` devices in row order, having consumed every row; a
header-only input gives no devices and no error. -/
theorem Parser.parseRecords_all_valid (ds : List Device)
    (hvalid : ∀ d ∈ ds, d.Validate = none) :
    Parser.parseRecords ⟨none, ds.map Row.ok⟩ = (⟨ds, none⟩, []) ∧
    (Parser.parseRecords ⟨none, ds.map Row.ok⟩).1.devices.length = ds.length ∧
    Parser.parseRecords ⟨none, []⟩ = (⟨[], none⟩, []) := by
  have h := Parser.parseRecords.loop_valid_prefix ds hvalid [] []
  simp only [List.append_nil, List.nil_append] at h
  have h1 : Parser.parseRecords ⟨none, ds.map Row.ok⟩ = (⟨ds, none⟩, []) := by
    simp [Parser.parseRecords, h, Parser.parseRecords.loop]
  refine ⟨h1, ?_, ?_⟩
  · rw [h1]
  · simp [Parser.parseRecords, Parser.parseRecords.loop]

/-- Witness for C9: two valid rows give the two devices in row order. -/
theorem Parser.parseRecords_all_valid_witness :
    (∀ d ∈ [sample.device1, sample.device2], d.Validate = none) ∧
    Parser.parseRecords ⟨none, [Row.ok sample.device1, Row.ok sample.device2]⟩ =
      (⟨[sample.device1, sample.device2], none⟩, []) :=
  ⟨by decide, (Parser.parseRecords_all_valid [sample.device1, sample.device2] (by decide)).1⟩

/-- C10: when the rows before row `k` all decode and pass validation and row
`k` fails to decode or fails validation, `parseRecords` returns a non-nil
error, leaves every row after row `k` unread in the decoder, and its result
does not depend on those rows. -/
theorem Parser.parseRecords_fail_fast (pre : List Device)
    (hvalid : ∀ d ∈ pre, d.Validate = none) (bad : Row) (hbad : bad.fails = true)
    (post : List Row) :
    (Parser.parseRecords ⟨none, pre.map Row.ok ++ bad :: post⟩).1.err ≠ none ∧
    (Parser.parseRecords ⟨none, pre.map Row.ok ++ bad :: post⟩).2 = post ∧
    (Parser.parseRecords ⟨none, pre.map Row.ok ++ bad :: post⟩).1 =
      (Parser.parseRecords ⟨none, pre.map Row.ok ++ [bad]⟩).1 := by
  have h := fun rest => Parser.parseRecords.loop_valid_prefix pre hvalid rest []
  simp only [Parser.parseRecords, h, List.nil_append]
  cases bad with
  | bad err => simp [Parser.parseRecords.loop]
  | ok device =>
      cases hv : device.Validate with
      | none => simp [Row.fails, hv] at hbad
      | some err => simp [Parser.parseRecords.loop, hv]

/-- Witness for C10: a valid row, then the row with sequence number `0`, then
a row that does not decode: the parse fails and the third row is left unread. -/
theorem Parser.parseRecords_fail_fast_witness :
    (Parser.parseRecords ⟨none, [Row.ok sample.device1, Row.ok sample.deviceZero,
      Row.bad "wrong number of fields"]⟩).1.err ≠ none ∧
    (Parser.parseRecords ⟨none, [Row.ok sample.device1, Row.ok sample.deviceZero,
      Row.bad "wrong number of fields"]⟩).2 = [Row.bad "wrong number of fields"] :=
  have h := Parser.parseRecords_fail_fast [sample.device1] (by decide)
    (Row.ok sample.deviceZero) (by decide) [Row.bad "wrong number of fields"]
  ⟨h.1, h.2.1⟩

end pipeline

/-! ## The store -/

namespace postgresql
open domain

@[simp] theorem World.log_trace (w : World) (e : Event) : (w.log e).trace = w.trace ++ [e] := rfl

@[simp] theorem World.log_db (w : World) (e : Event) : (w.log e).db = w.db := rfl

@[simp] theorem World.log_tx (w : World) (e : Event) : (w.log e).tx = w.tx := rfl

@[simp] theorem DBTX.write_trace (db : DBTX) (t : DB) (w : World) :
    (db.write t w).trace = w.trace := by
  cases db <;> rfl

/-- Every call of `UpdateOrCreateFile` is observed as one event that carries the
context's transaction flag, the file and the error returned. -/
theorem FilesRepository.UpdateOrCreateFile_trace (env : Env) (ctx : Ctx) (file : File)
    (w : World) :
    (FilesRepository.UpdateOrCreateFile env ctx file w).2.trace =
      w.trace ++ [Event.UpdateOrCreateFile ctx.tx file
        (FilesRepository.UpdateOrCreateFile env ctx file w).1] := by
  simp only [FilesRepository.UpdateOrCreateFile]
  split <;> simp

/-- Every call of `SaveDevices` is observed as one event that carries the
context's transaction flag, the devices and the error returned. -/
theorem DevicesRepository.SaveDevices_trace (env : Env) (ctx : Ctx) (devices : List Device)
    (w : World) :
    (DevicesRepository.SaveDevices env ctx devices w).2.trace =
      w.trace ++ [Event.SaveDevices ctx.tx devices
        (DevicesRepository.SaveDevices env ctx devices w).1] := by
  simp only [DevicesRepository.SaveDevices]
  split
  · simp
  · simp
  · split <;> simp

/-- Inside an open transaction `SaveDevices` leaves the committed tables alone
and keeps the transaction open; when it succeeds the transaction holds the
devices in addition. -/
theorem DevicesRepository.SaveDevices_inTx (env : Env) (devices : List Device) (w : World)
    (t : DB) (htx : w.tx = some t) :
    (DevicesRepository.SaveDevices env ⟨true⟩ devices w).2.db = w.db ∧
    ∃ t', (DevicesRepository.SaveDevices env ⟨true⟩ devices w).2.tx = some t' ∧
      t'.files = t.files ∧
      ((DevicesRepository.SaveDevices env ⟨true⟩ devices w).1 = none →
        t'.devices = t.devices ++ devices) := by
  unfold DevicesRepository.SaveDevices
  simp only [extractDB, DBTX.read, htx, if_true]
  cases env.pgCopyFrom w.trace devices with
  | error err => simp [htx]
  | ok copied =>
      by_cases h : copied = devices.length
      · simp [h, DBTX.write]
      · simp [h, DBTX.write]

/-- Inside an open transaction `UpdateOrCreateFile` leaves the committed tables
alone and keeps the transaction open; when it succeeds the transaction holds
the upserted row. -/
theorem FilesRepository.UpdateOrCreateFile_inTx (env : Env) (file : File) (w : World)
    (t : DB) (htx : w.tx = some t) :
    (FilesRepository.UpdateOrCreateFile env ⟨true⟩ file w).2.db = w.db ∧
    ∃ t', (FilesRepository.UpdateOrCreateFile env ⟨true⟩ file w).2.tx = some t' ∧
      t'.devices = t.devices ∧
      ((FilesRepository.UpdateOrCreateFile env ⟨true⟩ file w).1 = none →
        t'.files = upsertRow file t.files) := by
  unfold FilesRepository.UpdateOrCreateFile
  simp only [extractDB, DBTX.read, htx, if_true]
  cases env.pgExec w.trace with
  | some err => simp [htx]
  | none => simp [DBTX.write]

/-- Outside a transaction `UpdateOrCreateFile` writes to the committed tables:
the row is upserted when the call succeeds, nothing changes when it fails. -/
theorem FilesRepository.UpdateOrCreateFile_pool (env : Env) (file : File) (w : World) :
    (FilesRepository.UpdateOrCreateFile env ⟨false⟩ file w).2.tx = w.tx ∧
    ((FilesRepository.UpdateOrCreateFile env ⟨false⟩ file w).1 = none →
      (FilesRepository.UpdateOrCreateFile env ⟨false⟩ file w).2.db =
        { w.db with files := upsertRow file w.db.files }) ∧
    ((FilesRepository.UpdateOrCreateFile env ⟨false⟩ file w).1 ≠ none →
      (FilesRepository.UpdateOrCreateFile env ⟨false⟩ file w).2.db = w.db) := by
  unfold FilesRepository.UpdateOrCreateFile
  simp only [extractDB, DBTX.read]
  cases env.pgExec w.trace with
  | some err => simp
  | none => simp [DBTX.write]

end postgresql

/-! ## The writer -/

namespace pipeline
open domain postgresql

/-- The function literal of `saveResult`, run inside an open transaction: the
committed tables stay as they are, and the call goes one of three ways: the
device save fails (nothing else is called), the status upsert fails, or both
succeed and the transaction holds the devices and the `done` row. -/
theorem Writer.saveResult.func1_inTx (env : Env) (result : ParseResult) (w : World) (t : DB)
    (htx : w.tx = some t) :
    (Writer.saveResult.func1 env (app.writer env) result ⟨true⟩ w).2.db = w.db ∧
    ((∃ err,
        (Writer.saveResult.func1 env (app.writer env) result ⟨true⟩ w).1 =
          some ("failed to save devices: " ++ err) ∧
        (Writer.saveResult.func1 env (app.writer env) result ⟨true⟩ w).2.trace =
          w.trace ++ [Event.SaveDevices true result.Devices (some err)]) ∨
     (∃ now err,
        (Writer.saveResult.func1 env (app.writer env) result ⟨true⟩ w).1 =
          some ("failed to update file status: " ++ err) ∧
        (Writer.saveResult.func1 env (app.writer env) result ⟨true⟩ w).2.trace =
          w.trace ++ [Event.SaveDevices true result.Devices none,
            Event.UpdateOrCreateFile true (doneFile result now) (some err)]) ∨
     (∃ now,
        (Writer.saveResult.func1 env (app.writer env) result ⟨true⟩ w).1 = none ∧
        (Writer.saveResult.func1 env (app.writer env) result ⟨true⟩ w).2.trace =
          w.trace ++ [Event.SaveDevices true result.Devices none,
            Event.UpdateOrCreateFile true (doneFile result now) none] ∧
        (Writer.saveResult.func1 env (app.writer env) result ⟨true⟩ w).2.tx =
          some { files := upsertRow (doneFile result now) t.files,
                 devices := t.devices ++ result.Devices })) := by
  have hs_tr := DevicesRepository.SaveDevices_trace env ⟨true⟩ result.Devices w
  obtain ⟨hs_db, t1, hs_tx, hs_files, hs_dev⟩ :=
    DevicesRepository.SaveDevices_inTx env result.Devices w t htx
  simp only [Writer.saveResult.func1, app.writer]
  generalize DevicesRepository.SaveDevices env ⟨true⟩ result.Devices w = s at *
  obtain ⟨r, w1⟩ := s
  cases r with
  | some err =>
      refine ⟨hs_db, Or.inl ⟨err, rfl, hs_tr⟩⟩
  | none =>
      simp only at hs_tr hs_db hs_tx hs_dev ⊢
      have hu_tr := FilesRepository.UpdateOrCreateFile_trace env ⟨true⟩
        (doneFile result (env.now w1.trace)) w1
      obtain ⟨hu_db, t2, hu_tx, hu_dev, hu_files⟩ :=
        FilesRepository.UpdateOrCreateFile_inTx env (doneFile result (env.now w1.trace)) w1 t1 hs_tx
      simp only [doneFile] at hu_tr hu_db hu_tx hu_files
      generalize FilesRepository.UpdateOrCreateFile env ⟨true⟩ _ w1 = u at *
      obtain ⟨r2, w2⟩ := u
      simp only at hu_tr hu_db hu_tx hu_files
      cases r2 with
      | some err =>
          refine ⟨hu_db.trans hs_db, Or.inr (Or.inl ⟨env.now w1.trace, err, rfl, ?_⟩)⟩
          simp [hu_tr, hs_tr, doneFile]
      | none =>
          refine ⟨hu_db.trans hs_db, Or.inr (Or.inr ⟨env.now w1.trace, rfl, ?_, ?_⟩)⟩
          · simp [hu_tr, hs_tr, doneFile]
          · have h1 := hu_files rfl
            have h2 := hs_dev trivial
            rw [hu_tx]
            cases t2
            simp only [doneFile] at *
            simp [h1, hu_dev, h2, hs_files]

end pipeline

namespace postgresql
open domain

/-- When `pool.Begin` fails, `WithTransaction` returns the wrapped error
without calling `fn`. -/
theorem TxManager.WithTransaction_begin_failed (env : Env) (ctx : Ctx)
    (fn : Ctx → M (Option GoError)) (w : World) (err : GoError)
    (hb : env.pgBegin (w.trace ++ [Event.WithTransaction]) = some err) :
    TxManager.WithTransaction env ctx fn w =
      (some ("failed to begin transaction: " ++ err),
        { w with trace := w.trace ++ [Event.WithTransaction, Event.Begin (some err)] }) := by
  simp [TxManager.WithTransaction, Begin, World.log, hb]

/-- When `pool.Begin` succeeds, `WithTransaction` calls `fn` once, with the
context that carries the transaction, then commits or rolls back. -/
theorem TxManager.WithTransaction_begun (env : Env) (ctx : Ctx)
    (fn : Ctx → M (Option GoError)) (w : World)
    (hb : env.pgBegin (w.trace ++ [Event.WithTransaction]) = none) :
    TxManager.WithTransaction env ctx fn w =
      match fn ⟨true⟩ (txStart w) with
      | (some err, w2) => (some ("rolled back due to err: " ++ err), Rollback w2)
      | (none, w2) =>
          match Commit env w2 with
          | (some err, w3) => (some ("failed to commit transaction: " ++ err), Rollback w3)
          | (none, w3) => (none, Rollback w3) := by
  simp [TxManager.WithTransaction, Begin, World.log, hb, txStart]

end postgresql

namespace pipeline
open domain postgresql

/-- The five ways `saveResult` can go, each with the error returned, the
events observed and the committed tables left behind. -/
theorem Writer.saveResult_cases (env : Env) (ctx : Ctx) (w : World) (result : ParseResult) :
    (∃ err, (Writer.saveResult env (app.writer env) ctx result w).1 =
          some ("failed to begin transaction: " ++ err) ∧
        (Writer.saveResult env (app.writer env) ctx result w).2.trace = w.trace ++
          [Event.WithTransaction, Event.Begin (some err)] ∧
        (Writer.saveResult env (app.writer env) ctx result w).2.db = w.db) ∨
    (∃ err, (Writer.saveResult env (app.writer env) ctx result w).1 =
          some ("rolled back due to err: " ++ ("failed to save devices: " ++ err)) ∧
        (Writer.saveResult env (app.writer env) ctx result w).2.trace = w.trace ++
          [Event.WithTransaction, Event.Begin none,
            Event.SaveDevices true result.Devices (some err), Event.Rollback] ∧
        (Writer.saveResult env (app.writer env) ctx result w).2.db = w.db) ∨
    (∃ now err, (Writer.saveResult env (app.writer env) ctx result w).1 =
          some ("rolled back due to err: " ++ ("failed to update file status: " ++ err)) ∧
        (Writer.saveResult env (app.writer env) ctx result w).2.trace = w.trace ++
          [Event.WithTransaction, Event.Begin none,
            Event.SaveDevices true result.Devices none,
            Event.UpdateOrCreateFile true (doneFile result now) (some err), Event.Rollback] ∧
        (Writer.saveResult env (app.writer env) ctx result w).2.db = w.db) ∨
    (∃ now err, (Writer.saveResult env (app.writer env) ctx result w).1 =
          some ("failed to commit transaction: " ++ err) ∧
        (Writer.saveResult env (app.writer env) ctx result w).2.trace = w.trace ++
          [Event.WithTransaction, Event.Begin none,
            Event.SaveDevices true result.Devices none,
            Event.UpdateOrCreateFile true (doneFile result now) none,
            Event.Commit (some err), Event.Rollback] ∧
        (Writer.saveResult env (app.writer env) ctx result w).2.db = w.db) ∨
    (∃ now, (Writer.saveResult env (app.writer env) ctx result w).1 = none ∧
        (Writer.saveResult env (app.writer env) ctx result w).2.trace = w.trace ++
          [Event.WithTransaction, Event.Begin none,
            Event.SaveDevices true result.Devices none,
            Event.UpdateOrCreateFile true (doneFile result now) none,
            Event.Commit none, Event.Rollback] ∧
        (Writer.saveResult env (app.writer env) ctx result w).2.db =
          { files := upsertRow (doneFile result now) w.db.files,
            devices := w.db.devices ++ result.Devices } ∧
        (Writer.saveResult env (app.writer env) ctx result w).2.tx = none) := by
  have hsave : Writer.saveResult env (app.writer env) ctx result w =
      TxManager.WithTransaction env ctx (Writer.saveResult.func1 env (app.writer env) result) w :=
    rfl
  rw [hsave]
  cases hb : env.pgBegin (w.trace ++ [Event.WithTransaction]) with
  | some err =>
      rw [TxManager.WithTransaction_begin_failed env ctx _ w err hb]
      exact Or.inl ⟨err, rfl, rfl, rfl⟩
  | none =>
      rw [TxManager.WithTransaction_begun env ctx _ w hb]
      obtain ⟨hdb, hbody⟩ := Writer.saveResult.func1_inTx env result (txStart w) w.db rfl
      generalize Writer.saveResult.func1 env (app.writer env) result ⟨true⟩ (txStart w) = body
        at hdb hbody
      obtain ⟨r, w2⟩ := body
      simp only [txStart] at hdb hbody
      rcases hbody with ⟨err, hr, htr⟩ | ⟨now, err, hr, htr⟩ | ⟨now, hr, htr, htx⟩
      · subst hr
        exact Or.inr (Or.inl ⟨err, rfl, by simp [Rollback, htr], by simp [Rollback, hdb]⟩)
      · subst hr
        exact Or.inr (Or.inr (Or.inl ⟨now, err, rfl, by simp [Rollback, htr],
          by simp [Rollback, hdb]⟩))
      · subst hr
        simp only [Commit, htx]
        cases env.pgCommit w2.trace with
        | some err =>
            exact Or.inr (Or.inr (Or.inr (Or.inl ⟨now, err, rfl, by simp [Rollback, htr],
              by simp [Rollback, hdb]⟩)))
        | none =>
            exact Or.inr (Or.inr (Or.inr (Or.inr ⟨now, rfl, by simp [Rollback, htr],
              by simp [Rollback], by simp [Rollback]⟩)))


/-- C1: for an outcome with nil `Error` the writer enters `WithTransaction`
exactly once and calls nothing outside it.  `SaveDevices` is called at most
once, only after a successful `Begin` and before the `Rollback` that ends the
transaction, with the transaction's context and all devices of the outcome in
parse order; when it succeeds, the next call is the upsert of the file named
by the base name of `Filename`, with status `done`, an empty error message and
a processed-at time; the writer returns nil exactly when the commit
succeeded. -/
theorem Writer.processParseResult_nil_error (env : Env) (w : World) (result : ParseResult)
    (hnil : result.Error = none) (out : Option GoError × World)
    (hout : Writer.processParseResult env (app.writer env) Ctx.background result w = out) :
    (∃ err, out.1 ≠ none ∧ out.2.trace = w.trace ++
        [Event.WithTransaction, Event.Begin (some err)]) ∨
    (∃ err, out.1 ≠ none ∧ out.2.trace = w.trace ++
        [Event.WithTransaction, Event.Begin none,
          Event.SaveDevices true result.Devices (some err), Event.Rollback]) ∨
    (∃ now err, out.1 ≠ none ∧ out.2.trace = w.trace ++
        [Event.WithTransaction, Event.Begin none,
          Event.SaveDevices true result.Devices none,
          Event.UpdateOrCreateFile true
            { Name := filepath.Base result.Filename, Status := StatusDone, ErrorMessage := "",
              ProcessedAt := some now } (some err),
          Event.Rollback]) ∨
    (∃ now err, out.1 ≠ none ∧ out.2.trace = w.trace ++
        [Event.WithTransaction, Event.Begin none,
          Event.SaveDevices true result.Devices none,
          Event.UpdateOrCreateFile true
            { Name := filepath.Base result.Filename, Status := StatusDone, ErrorMessage := "",
              ProcessedAt := some now } none,
          Event.Commit (some err), Event.Rollback]) ∨
    (∃ now, out.1 = none ∧ out.2.trace = w.trace ++
        [Event.WithTransaction, Event.Begin none,
          Event.SaveDevices true result.Devices none,
          Event.UpdateOrCreateFile true
            { Name := filepath.Base result.Filename, Status := StatusDone, ErrorMessage := "",
              ProcessedAt := some now } none,
          Event.Commit none, Event.Rollback]) := by
  subst hout
  have hcases := Writer.saveResult_cases env Ctx.background w result
  simp only [Writer.processParseResult, hnil]
  generalize Writer.saveResult env (app.writer env) Ctx.background result w = s at hcases
  obtain ⟨r, w1⟩ := s
  simp only [doneFile] at hcases
  rcases hcases with ⟨err, hr, htr, -⟩ | ⟨err, hr, htr, -⟩ | ⟨now, err, hr, htr, -⟩ |
    ⟨now, err, hr, htr, -⟩ | ⟨now, hr, htr, -, -⟩
  · subst hr
    exact Or.inl ⟨err, by simp, htr⟩
  · subst hr
    exact Or.inr (Or.inl ⟨err, by simp, htr⟩)
  · subst hr
    exact Or.inr (Or.inr (Or.inl ⟨now, err, by simp, htr⟩))
  · subst hr
    exact Or.inr (Or.inr (Or.inr (Or.inl ⟨now, err, by simp, htr⟩)))
  · subst hr
    exact Or.inr (Or.inr (Or.inr (Or.inr ⟨now, rfl, htr⟩)))

/-- Witness for C1: with no collaborator failing, the outcome of two devices is
saved and marked `done` inside one committed transaction. -/
theorem Writer.processParseResult_nil_error_witness :
    sample.resultOk.Error = none ∧
    (Writer.processParseResult sample.env (app.writer sample.env) Ctx.background
        sample.resultOk sample.world).2.trace =
      [Event.WithTransaction, Event.Begin none,
        Event.SaveDevices true [sample.device1, sample.device2] none,
        Event.UpdateOrCreateFile true
          { Name := "a.tsv", Status := "done", ErrorMessage := "", ProcessedAt := some 3 } none,
        Event.Commit none, Event.Rollback] := by
  refine ⟨rfl, ?_⟩
  have hok : (Writer.processParseResult sample.env (app.writer sample.env) Ctx.background
      sample.resultOk sample.world).1 = none := by decide
  have hnow : (Writer.processParseResult sample.env (app.writer sample.env) Ctx.background
      sample.resultOk sample.world).2.trace.get? 3 = some (Event.UpdateOrCreateFile true
        { Name := "a.tsv", Status := "done", ErrorMessage := "", ProcessedAt := some 3 }
        none) := by decide
  rcases Writer.processParseResult_nil_error sample.env sample.world sample.resultOk rfl _ rfl
    with ⟨_, h, _⟩ | ⟨_, h, _⟩ | ⟨_, _, h, _⟩ | ⟨_, _, h, _⟩ | ⟨now, _, h⟩
  · exact absurd hok h
  · exact absurd hok h
  · exact absurd hok h
  · exact absurd hok h
  · rw [h] at hnow ⊢
    simp only [sample.world, List.nil_append, List.get?, Option.some.injEq,
      Event.UpdateOrCreateFile.injEq, File.mk.injEq, true_and, and_true] at hnow
    have hbase : filepath.Base sample.resultOk.Filename = "a.tsv" := by decide
    have hnow' : now = 3 := hnow.2.2
    rw [hbase, hnow']
    rfl

/-- C2: atomic dual write.  When `saveResult` returns nil, the committed tables
hold the outcome's devices and the file's `done` row, both calls succeeded and
the transaction was committed; when it returns an error, the committed tables
are what they were.  Inside the transaction body: if `SaveDevices` fails the
upsert is not attempted and the body returns an error; if the upsert fails the
body returns an error. -/
theorem Writer.saveResult_atomic (env : Env) (w : World) (result : ParseResult)
    (out : Option GoError × World)
    (hout : Writer.saveResult env (app.writer env) Ctx.background result w = out) :
    (out.1 = none → ∃ now,
      out.2.db =
        { files := upsertRow { Name := filepath.Base result.Filename, Status := StatusDone,
                               ErrorMessage := "", ProcessedAt := some now } w.db.files,
          devices := w.db.devices ++ result.Devices } ∧
      out.2.trace = w.trace ++
        [Event.WithTransaction, Event.Begin none,
          Event.SaveDevices true result.Devices none,
          Event.UpdateOrCreateFile true
            { Name := filepath.Base result.Filename, Status := StatusDone, ErrorMessage := "",
              ProcessedAt := some now } none,
          Event.Commit none, Event.Rollback]) ∧
    (out.1 ≠ none → out.2.db = w.db) ∧
    (∀ (w1 : World) (t : DB), w1.tx = some t →
      (∃ err,
        (Writer.saveResult.func1 env (app.writer env) result ⟨true⟩ w1).1 =
          some ("failed to save devices: " ++ err) ∧
        (Writer.saveResult.func1 env (app.writer env) result ⟨true⟩ w1).2.trace =
          w1.trace ++ [Event.SaveDevices true result.Devices (some err)]) ∨
      (∃ now err,
        (Writer.saveResult.func1 env (app.writer env) result ⟨true⟩ w1).1 =
          some ("failed to update file status: " ++ err) ∧
        (Writer.saveResult.func1 env (app.writer env) result ⟨true⟩ w1).2.trace =
          w1.trace ++ [Event.SaveDevices true result.Devices none,
            Event.UpdateOrCreateFile true
              { Name := filepath.Base result.Filename, Status := StatusDone, ErrorMessage := "",
                ProcessedAt := some now } (some err)]) ∨
      (∃ now,
        (Writer.saveResult.func1 env (app.writer env) result ⟨true⟩ w1).1 = none ∧
        (Writer.saveResult.func1 env (app.writer env) result ⟨true⟩ w1).2.trace =
          w1.trace ++ [Event.SaveDevices true result.Devices none,
            Event.UpdateOrCreateFile true
              { Name := filepath.Base result.Filename, Status := StatusDone, ErrorMessage := "",
                ProcessedAt := some now } none])) := by
  subst hout
  have hcases := Writer.saveResult_cases env Ctx.background w result
  simp only [doneFile] at hcases
  refine ⟨?_, ?_, ?_⟩
  · intro hnone
    rcases hcases with ⟨_, hr, -⟩ | ⟨_, hr, -⟩ | ⟨_, _, hr, -⟩ | ⟨_, _, hr, -⟩ |
      ⟨now, -, htr, hdb, -⟩
    · rw [hr] at hnone; exact absurd hnone (by simp)
    · rw [hr] at hnone; exact absurd hnone (by simp)
    · rw [hr] at hnone; exact absurd hnone (by simp)
    · rw [hr] at hnone; exact absurd hnone (by simp)
    · exact ⟨now, hdb, htr⟩
  · intro hsome
    rcases hcases with ⟨_, -, -, hdb⟩ | ⟨_, -, -, hdb⟩ | ⟨_, _, -, -, hdb⟩ | ⟨_, _, -, -, hdb⟩ |
      ⟨_, hr, -⟩
    · exact hdb
    · exact hdb
    · exact hdb
    · exact hdb
    · exact absurd hr hsome
  · intro w1 t htx
    have hbody := (Writer.saveResult.func1_inTx env result w1 t htx).2
    simp only [doneFile] at hbody
    rcases hbody with h | h | ⟨now, h1, h2, -⟩
    · exact Or.inl h
    · exact Or.inr (Or.inl h)
    · exact Or.inr (Or.inr ⟨now, h1, h2⟩)

/-- Witness for C2: with a healthy store both effects are committed; with a
store that refuses every statement the committed tables stay empty. -/
theorem Writer.saveResult_atomic_witness :
    (Writer.saveResult sample.env (app.writer sample.env) Ctx.background
        sample.resultOk sample.world).2.db =
      { files := [{ Name := "a.tsv", Status := "done", ErrorMessage := "",
                    ProcessedAt := some 3 }],
        devices := [sample.device1, sample.device2] } ∧
    (Writer.saveResult sample.envDown (app.writer sample.envDown) Ctx.background
        sample.resultOk sample.world).2.db = { files := [], devices := [] } := by
  have hbase : filepath.Base sample.resultOk.Filename = "a.tsv" := by decide
  have hnow : (Writer.saveResult sample.env (app.writer sample.env) Ctx.background
      sample.resultOk sample.world).2.trace.get? 3 = some (Event.UpdateOrCreateFile true
        { Name := "a.tsv", Status := "done", ErrorMessage := "", ProcessedAt := some 3 }
        none) := by decide
  obtain ⟨now, hdb, htr⟩ := (Writer.saveResult_atomic sample.env sample.world sample.resultOk _
    rfl).1 (by decide)
  rw [htr] at hnow
  simp only [sample.world, List.nil_append, List.get?, Option.some.injEq,
    Event.UpdateOrCreateFile.injEq, File.mk.injEq, true_and, and_true] at hnow
  have hnow' : now = 3 := hnow.2.2
  rw [hbase, hnow'] at hdb
  exact ⟨hdb, (Writer.saveResult_atomic sample.envDown sample.world sample.resultOk _
    rfl).2.1 (by decide)⟩

/-- C3: for an outcome with a non-nil `Error` the writer makes exactly one
call: the upsert, with a context that carries no transaction, of the file
named by the base name of `Filename`, with status `error`, the failure's
message and a processed-at time.  It calls neither `SaveDevices` nor
`WithTransaction`, leaves an open transaction alone, and returns nil exactly
when the upsert did. -/
theorem Writer.processParseResult_error (env : Env) (w : World) (result : ParseResult)
    (resultError : GoError) (herr : result.Error = some resultError)
    (out : Option GoError × World)
    (hout : Writer.processParseResult env (app.writer env) Ctx.background result w = out) :
    ∃ err, out.2.trace = w.trace ++
        [Event.UpdateOrCreateFile false
          { Name := filepath.Base result.Filename, Status := StatusError,
            ErrorMessage := resultError, ProcessedAt := some (env.now w.trace) } err] ∧
      out.1 = err.map (fun e => "failed to save parse result: " ++ e) ∧
      out.2.tx = w.tx := by
  subst hout
  have htr := FilesRepository.UpdateOrCreateFile_trace env ⟨false⟩
    { Name := filepath.Base result.Filename, Status := StatusError,
      ErrorMessage := resultError, ProcessedAt := some (env.now w.trace) } w
  have htx := (FilesRepository.UpdateOrCreateFile_pool env
    { Name := filepath.Base result.Filename, Status := StatusError,
      ErrorMessage := resultError, ProcessedAt := some (env.now w.trace) } w).1
  simp only [Writer.processParseResult, herr, app.writer, Ctx.background]
  generalize FilesRepository.UpdateOrCreateFile env ⟨false⟩ _ w = u at htr htx
  obtain ⟨r, w1⟩ := u
  cases r with
  | some e => exact ⟨some e, htr, rfl, htx⟩
  | none => exact ⟨none, htr, rfl, htx⟩

/-- Witness for C3: the failed outcome of `c.tsv` leads to the single upsert of
`c.tsv` with status `error` and the message `parse error`, and is persisted. -/
theorem Writer.processParseResult_error_witness :
    sample.resultErr.Error = some "parse error" ∧
    (Writer.processParseResult sample.env (app.writer sample.env) Ctx.background
        sample.resultErr sample.world).2.trace =
      [Event.UpdateOrCreateFile false
        { Name := "c.tsv", Status := "error", ErrorMessage := "parse error",
          ProcessedAt := some 0 } none] := by
  refine ⟨rfl, ?_⟩
  have hok : (Writer.processParseResult sample.env (app.writer sample.env) Ctx.background
      sample.resultErr sample.world).1 = none := by decide
  have hbase : filepath.Base sample.resultErr.Filename = "c.tsv" := by decide
  obtain ⟨err, htr, hres, -⟩ := Writer.processParseResult_error sample.env sample.world
    sample.resultErr "parse error" rfl _ rfl
  rw [hok] at hres
  cases err with
  | some e => simp at hres
  | none =>
      rw [htr, hbase]
      rfl


theorem sentReports_append (a b : List Event) :
    sentReports (a ++ b) = sentReports a ++ sentReports b := by
  induction a with
  | nil => rfl
  | cons e a ih => cases e <;> simp [sentReports, ih]

/-- The persistence step of the writer only adds events, none of which is a
send on `reports`. -/
theorem Writer.processParseResult_sends_nothing (env : Env) (w : World) (result : ParseResult) :
    ∃ delta, (Writer.processParseResult env (app.writer env) Ctx.background result w).2.trace =
        w.trace ++ delta ∧ sentReports delta = [] := by
  cases herr : result.Error with
  | none =>
      have hcases := Writer.saveResult_cases env Ctx.background w result
      simp only [Writer.processParseResult, herr]
      generalize Writer.saveResult env (app.writer env) Ctx.background result w = s at hcases
      obtain ⟨r, w1⟩ := s
      rcases hcases with ⟨_, hr, htr, -⟩ | ⟨_, hr, htr, -⟩ | ⟨_, _, hr, htr, -⟩ |
        ⟨_, _, hr, htr, -⟩ | ⟨_, hr, htr, -, -⟩ <;>
      · simp only at hr htr
        subst hr
        exact ⟨_, htr, rfl⟩
  | some resultError =>
      have htr := FilesRepository.UpdateOrCreateFile_trace env ⟨false⟩
        { Name := filepath.Base result.Filename, Status := StatusError,
          ErrorMessage := resultError, ProcessedAt := some (env.now w.trace) } w
      simp only [Writer.processParseResult, herr, app.writer, Ctx.background]
      generalize FilesRepository.UpdateOrCreateFile env ⟨false⟩ _ w = u at htr
      obtain ⟨r, w1⟩ := u
      cases r with
      | some e => exact ⟨_, htr, rfl⟩
      | none => exact ⟨_, htr, rfl⟩

/-- One iteration of the loop of `Writer.Run` on a received outcome. -/
theorem Writer.Run.loop_recv (env : Env) (wr : Writer) (ctx : Ctx) (result : ParseResult)
    (rest : List (Select ParseResult)) (w : World) :
    Writer.Run.loop env wr ctx (Select.recv result :: rest) w =
      match wr.processParseResult env ctx result w with
      | (some _, w1) => Writer.Run.loop env wr ctx rest w1
      | (none, w1) => Writer.Run.loop env wr ctx rest (w1.log (Event.SendReport result)) := by
  rw [Writer.Run.loop]

/-- The loop of `Writer.Run` over outcomes followed by the closing of the input
channel: it returns nil, and the sends on `reports` are the outcomes whose
persistence step returned nil. -/
theorem Writer.Run.loop_forwards (env : Env) (items : List ParseResult) (w : World) :
    (Writer.Run.loop env (app.writer env) Ctx.background
        (items.map Select.recv ++ [Select.closed]) w).1 = RunResult.returned none ∧
    ∃ delta, (Writer.Run.loop env (app.writer env) Ctx.background
        (items.map Select.recv ++ [Select.closed]) w).2.trace = w.trace ++ delta ∧
      sentReports delta =
        ((Writer.persistAll env (app.writer env) Ctx.background items w).filter
          (fun p => p.2.isNone)).map Prod.fst := by
  induction items generalizing w with
  | nil => exact ⟨rfl, [], by simp [Writer.Run.loop], rfl⟩
  | cons r rest ih =>
      obtain ⟨d1, htr1, hs1⟩ := Writer.processParseResult_sends_nothing env w r
      rw [List.map_cons, List.cons_append, Writer.Run.loop_recv]
      simp only [Writer.persistAll]
      generalize Writer.processParseResult env (app.writer env) Ctx.background r w = step at htr1
      obtain ⟨e, w1⟩ := step
      cases e with
      | some err =>
          obtain ⟨hret, d2, htr2, hs2⟩ := ih w1
          refine ⟨hret, d1 ++ d2, ?_, ?_⟩
          · simp only at htr1; rw [htr2, htr1, List.append_assoc]
          · simp [sentReports_append, hs1, hs2]
      | none =>
          obtain ⟨hret, d2, htr2, hs2⟩ := ih (w1.log (Event.SendReport r))
          refine ⟨hret, d1 ++ Event.SendReport r :: d2, ?_, ?_⟩
          · simp only at htr1; rw [htr2]; simp [htr1]
          · simp [sentReports_append, hs1, hs2, sentReports]

theorem Writer.persistAll_fst (env : Env) (wr : Writer) (ctx : Ctx) (items : List ParseResult)
    (w : World) : (Writer.persistAll env wr ctx items w).map Prod.fst = items := by
  induction items generalizing w with
  | nil => rfl
  | cons r rest ih => simp [Writer.persistAll, ih]

/-- C4: for every finite sequence of outcomes received by `Writer.Run` before
its input channel is closed, `Run` handles all of them and returns nil; the
values sent on `reports` are, unchanged and in arrival order (a sublist of the
outcomes received), exactly the outcomes whose persistence step returned no
error; an outcome whose persistence step failed is not sent and does not stop
the loop. -/
theorem Writer.Run_forwards_persisted (env : Env) (w : World) (items : List ParseResult)
    (out : RunResult × World)
    (hout : Writer.Run env (app.writer env) Ctx.background
      (items.map Select.recv ++ [Select.closed]) w = out) :
    out.1 = RunResult.returned none ∧
    (Writer.persistAll env (app.writer env) Ctx.background items w).map Prod.fst = items ∧
    sentReports (out.2.since w) =
      ((Writer.persistAll env (app.writer env) Ctx.background items w).filter
        (fun p => p.2.isNone)).map Prod.fst ∧
    (sentReports (out.2.since w)).Sublist items := by
  subst hout
  obtain ⟨hret, delta, htr, hs⟩ := Writer.Run.loop_forwards env items w
  simp only [Writer.Run]
  generalize Writer.Run.loop env (app.writer env) Ctx.background
    (items.map Select.recv ++ [Select.closed]) w = l at hret htr
  obtain ⟨r, w1⟩ := l
  simp only at hret htr
  subst hret
  have hsent : sentReports (World.since (w1.log Event.CloseReports) w) =
      ((Writer.persistAll env (app.writer env) Ctx.background items w).filter
        (fun p => p.2.isNone)).map Prod.fst := by
    simp [World.since, htr, sentReports_append, hs, sentReports]
  refine ⟨rfl, Writer.persistAll_fst env _ _ items w, hsent, ?_⟩
  rw [hsent]
  have hsub := (List.filter_sublist (p := fun p : ParseResult × Option GoError => p.2.isNone)
    (Writer.persistAll env (app.writer env) Ctx.background items w)).map Prod.fst
  rw [Writer.persistAll_fst] at hsub
  exact hsub

/-- Witness for C4: with a healthy store both outcomes, the successful and the
failed one, are forwarded in arrival order; with a store that refuses every
statement none is forwarded and `Run` still returns nil. -/
theorem Writer.Run_forwards_persisted_witness :
    sentReports ((Writer.Run sample.env (app.writer sample.env) Ctx.background
      ([sample.resultOk, sample.resultErr].map Select.recv ++ [Select.closed])
      sample.world).2.since sample.world) = [sample.resultOk, sample.resultErr] ∧
    sentReports ((Writer.Run sample.envDown (app.writer sample.envDown) Ctx.background
      ([sample.resultOk, sample.resultErr].map Select.recv ++ [Select.closed])
      sample.world).2.since sample.world) = [] ∧
    (Writer.Run sample.envDown (app.writer sample.envDown) Ctx.background
      ([sample.resultOk, sample.resultErr].map Select.recv ++ [Select.closed])
      sample.world).1 = RunResult.returned none :=
  ⟨(Writer.Run_forwards_persisted sample.env sample.world
      [sample.resultOk, sample.resultErr] _ rfl).2.2.1.trans (by decide),
    (Writer.Run_forwards_persisted sample.envDown sample.world
      [sample.resultOk, sample.resultErr] _ rfl).2.2.1.trans (by decide),
    (Writer.Run_forwards_persisted sample.envDown sample.world
      [sample.resultOk, sample.resultErr] _ rfl).1⟩

end pipeline

/-! ## The scanner -/

namespace pipeline
open domain postgresql

theorem sentFiles_append (a b : List Event) :
    sentFiles (a ++ b) = sentFiles a ++ sentFiles b := by
  induction a with
  | nil => rfl
  | cons e a ih => cases e <;> simp [sentFiles, ih]

theorem upserts_append (a b : List Event) :
    upserts (a ++ b) = upserts a ++ upserts b := by
  induction a with
  | nil => rfl
  | cons e a ih => cases e <;> simp [upserts, ih]

/-- The map built by `extractFilesFromDB` holds, for every name, the status of
the last record of that name. -/
theorem StatusMap.foldl_set (files : List File) (m : StatusMap) (name : String) :
    (files.foldl (fun filesMap file => filesMap.set file.Name file.Status) m) name =
      match recordedStatus files name with
      | some status => some status
      | none => m name := by
  induction files generalizing m with
  | nil => rfl
  | cons f fs ih =>
      rw [List.foldl_cons, ih, recordedStatus]
      cases recordedStatus fs name with
      | some status => rfl
      | none =>
          by_cases h : f.Name = name
          · simp [StatusMap.set, h]
          · have h' : ¬ name = f.Name := fun e => h e.symm
            simp [StatusMap.set, h, h']

/-- What `processEntry` does with an entry, by the records fetched and the
answer of the store: an entry that is not claimable is skipped without any
call; a claimable entry is upserted as `processing` and, when that succeeds,
its path is sent on `files`. -/
theorem Scanner.processEntry_eq (env : Env) (watchDir : String) (files : List File)
    (entry : DirEntry) (w : World) :
    Scanner.processEntry (app.scanner env watchDir) Ctx.background entry
        (Scanner.extractFilesFromDB.loop files) w =
      if claimable files entry = true then
        match env.pgExec w.trace with
        | some err =>
            (some ("failed to update file status: " ++ executeQueryError err),
              w.log (Event.UpdateOrCreateFile false (processingFile entry)
                (some (executeQueryError err))))
        | none =>
            (none,
              { db := { files := upsertRow (processingFile entry) w.db.files,
                        devices := w.db.devices },
                tx := w.tx,
                trace := w.trace ++ [Event.UpdateOrCreateFile false (processingFile entry) none,
                  Event.SendFile (filepath.Join watchDir entry.Name)] })
      else (none, w) := by
  have hcall : ∀ file, FilesRepository.UpdateOrCreateFile env Ctx.background file w =
      match env.pgExec w.trace with
      | some err => (some (executeQueryError err),
          w.log (Event.UpdateOrCreateFile false file (some (executeQueryError err))))
      | none =>
          (none,
            { db := { files := upsertRow file w.db.files, devices := w.db.devices },
              tx := w.tx,
              trace := w.trace ++ [Event.UpdateOrCreateFile false file none] }) := by
    intro file
    simp only [FilesRepository.UpdateOrCreateFile, Ctx.background, extractDB, DBTX.read]
    cases env.pgExec w.trace <;> simp [DBTX.write, World.log]
  simp only [Scanner.processEntry, StatusMap.get, Scanner.extractFilesFromDB.loop,
    StatusMap.foldl_set, claimable, StatusMap.empty, app.scanner, hcall, processingFile]
  cases entry.IsDir with
  | true => simp
  | false =>
      cases recordedStatus files entry.Name with
      | none => cases env.pgExec w.trace <;> simp [World.log]
      | some status =>
          by_cases hs : status = StatusPending
          · cases env.pgExec w.trace <;> simp [hs, World.log]
          · simp [hs]

/-- The events of a scan cycle for the entries it claims: for each one the
upsert as `processing`, then the send of its path. -/
theorem Scanner.scanFiles.loop_all_ok (env : Env) (watchDir : String) (files : List File)
    (hexec : ∀ trace, env.pgExec trace = none) (entries : List DirEntry) (w : World) :
    (Scanner.scanFiles.loop (app.scanner env watchDir) Ctx.background
        (Scanner.extractFilesFromDB.loop files) entries w).trace =
      w.trace ++ (entries.filter (claimable files)).flatMap (fun e =>
        [Event.UpdateOrCreateFile false (processingFile e) none,
          Event.SendFile (filepath.Join watchDir e.Name)]) := by
  induction entries generalizing w with
  | nil => simp [Scanner.scanFiles.loop]
  | cons e es ih =>
      rw [Scanner.scanFiles.loop, Scanner.processEntry_eq, ih]
      by_cases hc : claimable files e = true
      · simp [hc, hexec]
      · simp [hc]

/-- The sends among the events of claimed entries are their paths. -/
theorem sentFiles_claims (watchDir : String) (claimed : List DirEntry) :
    sentFiles (claimed.flatMap (fun e =>
      [Event.UpdateOrCreateFile false (processingFile e) none,
        Event.SendFile (filepath.Join watchDir e.Name)])) =
      claimed.map (fun e => filepath.Join watchDir e.Name) := by
  induction claimed with
  | nil => rfl
  | cons c cs ih =>
      rw [List.flatMap_cons, sentFiles_append, ih]
      rfl

/-- C5: in a scan cycle in which the fetch of the file records, the directory
listing and every status upsert succeed, the scanner handles the entries in
listing order and, for exactly those that are not directories and whose name
is not recorded or is recorded as `pending`, first upserts
`File{Name, Status: processing}` and then sends the watch directory joined
with the name on `files`; every other entry (a directory, or a name recorded
with any other status) causes no upsert and no send. -/
theorem Scanner.scanFiles_claims (env : Env) (watchDir : String) (w : World)
    (entries : List DirEntry)
    (hfetch : env.pgQuery w.trace = none)
    (hdir : env.readDir (w.trace ++ [Event.Files false none]) watchDir = Except.ok entries)
    (hupsert : ∀ trace, env.pgExec trace = none)
    (out : Option GoError × World)
    (hout : Scanner.scanFiles env (app.scanner env watchDir) Ctx.background w = out) :
    out.1 = none ∧
    out.2.trace = w.trace ++ [Event.Files false none, Event.ReadDir watchDir none] ++
      (entries.filter (claimable w.db.files)).flatMap (fun e =>
        [Event.UpdateOrCreateFile false
            { Name := e.Name, Status := StatusProcessing, ErrorMessage := "",
              ProcessedAt := none } none,
          Event.SendFile (filepath.Join watchDir e.Name)]) ∧
    sentFiles (out.2.since w) =
      (entries.filter (claimable w.db.files)).map (fun e => filepath.Join watchDir e.Name) ∧
    (∀ e, claimable w.db.files e = true ↔
      (e.IsDir = false ∧ (recordedStatus w.db.files e.Name = none ∨
        recordedStatus w.db.files e.Name = some StatusPending))) := by
  subst hout
  have hfiles : FilesRepository.Files env Ctx.background w =
      (Except.ok w.db.files, w.log (Event.Files false none)) := by
    simp [FilesRepository.Files, Ctx.background, extractDB, DBTX.read, hfetch]
  have hread : ReadDir env watchDir (w.log (Event.Files false none)) =
      (Except.ok entries,
        (w.log (Event.Files false none)).log (Event.ReadDir watchDir none)) := by
    simp [ReadDir, hdir]
  have hrun : Scanner.scanFiles env (app.scanner env watchDir) Ctx.background w =
      (none, Scanner.scanFiles.loop (app.scanner env watchDir) Ctx.background
        (Scanner.extractFilesFromDB.loop w.db.files) entries
        ((w.log (Event.Files false none)).log (Event.ReadDir watchDir none))) := by
    simp only [Scanner.scanFiles, Scanner.extractFilesFromDB]
    have hprov : (app.scanner env watchDir).filesProvider = FilesRepository.Files env := rfl
    have hwd : (app.scanner env watchDir).watchDir = watchDir := rfl
    rw [hprov, hfiles, hwd]
    simp only [hread]
  have htrace := Scanner.scanFiles.loop_all_ok env watchDir w.db.files hupsert entries
    ((w.log (Event.Files false none)).log (Event.ReadDir watchDir none))
  simp only [processingFile] at htrace
  rw [hrun]
  refine ⟨rfl, ?_, ?_, ?_⟩
  · simp [htrace]
  · have hs := sentFiles_claims watchDir (entries.filter (claimable w.db.files))
    simp only [processingFile] at hs
    simp only [World.since, htrace, World.log_trace, List.append_assoc, List.drop_left,
      sentFiles_append, hs]
    rfl
  · intro e
    simp only [claimable]
    cases e.IsDir <;> cases recordedStatus w.db.files e.Name <;> simp

/-- Witness for C5: over a table that records `b.tsv` as done and `c.tsv` as
pending, a scan cycle of a directory with `a.tsv`, `b.tsv`, `c.tsv` and a
sub-directory sends `a.tsv` and `c.tsv` and nothing else. -/
theorem Scanner.scanFiles_claims_witness :
    sentFiles ((Scanner.scanFiles sample.env (app.scanner sample.env "watch") Ctx.background
      sample.worldSeen).2.since sample.worldSeen) = ["watch/a.tsv", "watch/c.tsv"] :=
  (Scanner.scanFiles_claims sample.env "watch" sample.worldSeen
    [⟨"a.tsv", false⟩, ⟨"b.tsv", false⟩, ⟨"c.tsv", false⟩, ⟨"old", true⟩]
    rfl rfl (fun _ => rfl) _ rfl).2.2.1.trans (by decide)

end pipeline

/-! ## Paths -/

namespace filepath

theorem splitSlash_ne_nil (cs : List Char) : splitSlash cs ≠ [] := by
  cases cs with
  | nil => simp [splitSlash]
  | cons c cs =>
      rw [splitSlash]
      split
      · simp
      · split <;> simp

theorem splitSlash_no_slash (n : List Char) (h : '/' ∉ n) : splitSlash n = [n] := by
  induction n with
  | nil => rfl
  | cons c cs ih =>
      have hc : c ≠ '/' := fun e => h (e ▸ List.mem_cons_self c cs)
      have hcs : '/' ∉ cs := fun m => h (List.mem_cons_of_mem c m)
      rw [splitSlash, ih hcs]
      simp [hc]

theorem splitSlash_append (a b : List Char) :
    splitSlash (a ++ '/' :: b) = splitSlash a ++ splitSlash b := by
  induction a with
  | nil =>
      obtain ⟨e, es, hb⟩ := List.exists_cons_of_ne_nil (splitSlash_ne_nil b)
      simp [splitSlash, hb]
  | cons c cs ih =>
      obtain ⟨e, es, ha⟩ := List.exists_cons_of_ne_nil (splitSlash_ne_nil cs)
      rw [List.cons_append, splitSlash, ih, splitSlash, ha]
      by_cases hc : c = '/' <;> simp [hc]

/-- A real path element at the end of the input is the last element of the
cleaned path. -/
theorem cleanElems_append_last (rooted : Bool) (n : List Char) (h0 : n ≠ [])
    (h1 : n ≠ ['.']) (h2 : n ≠ ['.', '.']) (es out : List (List Char)) :
    ∃ pre, cleanElems rooted out (es ++ [n]) = pre ++ [n] := by
  induction es generalizing out with
  | nil =>
      refine ⟨out.reverse, ?_⟩
      simp [cleanElems, h0, h1, h2]
  | cons e es ih =>
      rw [List.cons_append]
      unfold cleanElems
      split
      · exact ih out
      · split
        · split
          · split
            · exact ih []
            · exact ih [e]
          · split
            · exact ih _
            · exact ih _
        · exact ih _

theorem joinSlash_append_last (xs : List (List Char)) (n : List Char) :
    joinSlash (xs ++ [n]) = if xs = [] then n else joinSlash xs ++ '/' :: n := by
  induction xs with
  | nil => rfl
  | cons x xs ih =>
      cases xs with
      | nil => simp [joinSlash]
      | cons y ys =>
          simp only [List.cons_append] at ih ⊢
          rw [joinSlash, ih]
          · simp [joinSlash]
          · simp

theorem isEntryName_iff (name : String) :
    isEntryName name = true ↔
      name.data ≠ [] ∧ '/' ∉ name.data ∧ name.data ≠ ['.'] ∧ name.data ≠ ['.', '.'] := by
  simp [isEntryName, and_assoc]

/-- Cleaning a path that ends in `/` and an entry name gives a path that ends
in that name, preceded by nothing or by a `/`. -/
theorem cleanChars_append_entry (w n : List Char) (h0 : n ≠ []) (hs : '/' ∉ n)
    (h1 : n ≠ ['.']) (h2 : n ≠ ['.', '.']) :
    ∃ pre, cleanChars (w ++ '/' :: n) = pre ++ n ∧ (pre = [] ∨ ∃ p, pre = p ++ ['/']) := by
  have hsplit : splitSlash (w ++ '/' :: n) = splitSlash w ++ [n] := by
    rw [splitSlash_append, splitSlash_no_slash n hs]
  have hbody : ∀ rooted, ∃ pre, joinSlash (cleanElems rooted [] (splitSlash (w ++ '/' :: n))) =
      pre ++ n ∧ (pre = [] ∨ ∃ p, pre = p ++ ['/']) := by
    intro rooted
    obtain ⟨xs, hxs⟩ := cleanElems_append_last rooted n h0 h1 h2 (splitSlash w) []
    rw [hsplit, hxs, joinSlash_append_last]
    by_cases hx : xs = []
    · exact ⟨[], by simp [hx], Or.inl rfl⟩
    · exact ⟨joinSlash xs ++ ['/'], by simp [hx], Or.inr ⟨_, rfl⟩⟩
  obtain ⟨c, rest, hpath⟩ : ∃ c rest, w ++ '/' :: n = c :: rest := by
    cases w with
    | nil => exact ⟨_, _, rfl⟩
    | cons c cs => exact ⟨_, _, rfl⟩
  obtain ⟨pre, hpre, hform⟩ := hbody (decide (c = '/'))
  rw [hpath] at hpre ⊢
  simp only [cleanChars, hpre]
  have hne : pre ++ n ≠ [] := by simp [h0]
  by_cases hc : c = '/'
  · refine ⟨'/' :: pre, by simp [hc], ?_⟩
    rcases hform with h | ⟨p, h⟩
    · exact Or.inr ⟨[], by simp [h]⟩
    · exact Or.inr ⟨'/' :: p, by simp [h]⟩
  · exact ⟨pre, by simp [hc, hne], hform⟩

/-- Cleaning an entry name gives the name. -/
theorem cleanChars_entry (n : List Char) (h0 : n ≠ []) (hs : '/' ∉ n)
    (h1 : n ≠ ['.']) (h2 : n ≠ ['.', '.']) : cleanChars n = n := by
  cases n with
  | nil => exact absurd rfl h0
  | cons c cs =>
      have hc : c ≠ '/' := fun e => hs (e ▸ List.mem_cons_self c cs)
      simp only [cleanChars, splitSlash_no_slash (c :: cs) hs]
      simp [cleanElems, joinSlash, hc, h1, h2]

theorem dropSlashes_of_head (c : Char) (cs : List Char) (hc : c ≠ '/') :
    dropSlashes (c :: cs) = c :: cs := by
  simp [dropSlashes, hc]

/-- The last element of a path that ends in an entry name, preceded by nothing
or by a `/`, is that name. -/
theorem Base_of_last (pre n : List Char) (h0 : n ≠ []) (hs : '/' ∉ n)
    (hform : pre = [] ∨ ∃ p, pre = p ++ ['/']) :
    Base (String.mk (pre ++ n)) = String.mk n := by
  have hne : String.mk (pre ++ n) ≠ "" := by
    intro h
    have := congrArg String.data h
    simp [h0] at this
  obtain ⟨c, cs, hrev⟩ := List.exists_cons_of_ne_nil (by simpa using h0 : n.reverse ≠ [])
  have hc : c ≠ '/' := by
    intro e
    apply hs
    have : c ∈ n.reverse := by rw [hrev]; exact List.mem_cons_self c cs
    simpa [e] using this
  have hall : ∀ x ∈ n.reverse, (x != '/') = true := by
    intro x hx
    have hx' : x ∈ n := by simpa using hx
    simpa using fun e : x = '/' => hs (e ▸ hx')
  have htake : List.takeWhile (fun c => c != '/') (n.reverse ++ pre.reverse) = n.reverse := by
    rcases hform with h | ⟨p, h⟩
    · subst h
      simpa using List.takeWhile_eq_self_iff.mpr hall
    · subst h
      rw [List.takeWhile_append_of_pos hall]
      simp
  simp only [Base, hne, if_false, List.reverse_append]
  rw [hrev, List.cons_append, dropSlashes_of_head c _ hc, ← List.cons_append, ← hrev, htake]
  simp [h0]

/-- For every watch directory and entry name, `Base (Join w n) = n`. -/
theorem Base_Join_entry (w n : String) (hn : isEntryName n = true) : Base (Join w n) = n := by
  obtain ⟨h0, hs, h1, h2⟩ := (isEntryName_iff n).mp hn
  have hn' : n ≠ "" := by
    intro e
    apply h0
    rw [e]
  by_cases hw : w = ""
  · have hj : Join w n = String.mk n.data := by
      simp [Join, hw, hn', Clean, cleanChars_entry n.data h0 hs h1 h2]
    rw [hj]
    simpa using Base_of_last [] n.data h0 hs (Or.inl rfl)
  · obtain ⟨pre, hpre, hform⟩ := cleanChars_append_entry w.data n.data h0 hs h1 h2
    have hdata : (w ++ "/" ++ n).data = w.data ++ '/' :: n.data := by
      simp [String.data_append]
    have hj : Join w n = String.mk (pre ++ n.data) := by
      simp [Join, hw, Clean, hdata, hpre]
    rw [hj, Base_of_last pre n.data h0 hs hform]

/-- Different entry names give different paths. -/
theorem Join_entry_injective (w a b : String) (ha : isEntryName a = true)
    (hb : isEntryName b = true) (h : Join w a = Join w b) : a = b := by
  rw [← Base_Join_entry w a ha, ← Base_Join_entry w b hb, h]

end filepath

/-! ## The status gate across scan cycles -/

namespace postgresql
open domain pipeline

theorem recordedStatus_of_not_mem (files : List File) (name : String)
    (h : name ∉ files.map (fun f => f.Name)) : recordedStatus files name = none := by
  induction files with
  | nil => rfl
  | cons g gs ih =>
      simp only [List.map_cons, List.mem_cons, not_or] at h
      have hg : ¬ g.Name = name := fun e => h.1 e.symm
      simp [recordedStatus, ih h.2, hg]

/-- An upsert under another name does not change the status recorded for a
name. -/
theorem recordedStatus_upsertRow_ne (file : File) (files : List File) (name : String)
    (h : file.Name ≠ name) :
    recordedStatus (upsertRow file files) name = recordedStatus files name := by
  induction files with
  | nil => simp [upsertRow, recordedStatus, h]
  | cons g gs ih =>
      by_cases hg : g.Name = file.Name
      · have hg' : ¬ g.Name = name := fun e => h (hg ▸ e)
        simp [upsertRow, hg, recordedStatus, h, hg']
      · simp [upsertRow, hg, recordedStatus, ih]

/-- An upsert with a status other than `pending` keeps a name that is recorded
with a status other than `pending` that way. -/
theorem recordedStatus_upsertRow_not_pending (file : File) (files : List File) (name : String)
    (hfile : file.Status ≠ StatusPending) (status : Status)
    (hrec : recordedStatus files name = some status) (hstatus : status ≠ StatusPending) :
    ∃ status', recordedStatus (upsertRow file files) name = some status' ∧
      status' ≠ StatusPending := by
  by_cases hname : file.Name = name
  · induction files with
    | nil => simp [recordedStatus] at hrec
    | cons g gs ih =>
        by_cases hg : g.Name = file.Name
        · simp only [upsertRow, hg, if_true, recordedStatus] at hrec ⊢
          cases hgs : recordedStatus gs name with
          | some s =>
              rw [hgs] at hrec
              simp only [Option.some.injEq] at hrec
              exact ⟨s, rfl, hrec ▸ hstatus⟩
          | none => exact ⟨file.Status, by simp [hname], hfile⟩
        · have hg' : ¬ g.Name = name := fun e => hg (e.trans hname.symm)
          simp only [upsertRow, hg, if_false, recordedStatus, hg'] at hrec ⊢
          cases hgs : recordedStatus gs name with
          | some s =>
              simp only [hgs, Option.some.injEq] at hrec
              subst hrec
              obtain ⟨s', hs', hne⟩ := ih hgs
              exact ⟨s', by simp [hs'], hne⟩
          | none => simp [hgs] at hrec
  · exact ⟨status, by rw [recordedStatus_upsertRow_ne file files name hname, hrec], hstatus⟩

theorem upsertRow_names (file : File) (files : List File) :
    (upsertRow file files).map (fun f => f.Name) =
      if file.Name ∈ files.map (fun f => f.Name) then files.map (fun f => f.Name)
      else files.map (fun f => f.Name) ++ [file.Name] := by
  induction files with
  | nil => simp [upsertRow]
  | cons g gs ih =>
      by_cases hg : g.Name = file.Name
      · simp [upsertRow, hg]
      · have hg' : ¬ file.Name = g.Name := fun e => hg e.symm
        simp only [upsertRow, hg, if_false, List.map_cons, ih, List.mem_cons, hg', false_or]
        split <;> simp

/-- An upsert keeps the names of the table distinct. -/
theorem upsertRow_nodup (file : File) (files : List File)
    (h : (files.map (fun f => f.Name)).Nodup) :
    ((upsertRow file files).map (fun f => f.Name)).Nodup := by
  rw [upsertRow_names]
  split
  · exact h
  · rename_i hmem
    exact List.Nodup.append h (List.nodup_singleton _) (by simpa using hmem)

/-- In a table with distinct names, the status recorded for a name after an
upsert under that name is the status upserted. -/
theorem recordedStatus_upsertRow_self (file : File) (files : List File)
    (h : (files.map (fun f => f.Name)).Nodup) :
    recordedStatus (upsertRow file files) file.Name = some file.Status := by
  induction files with
  | nil => simp [upsertRow, recordedStatus]
  | cons g gs ih =>
      simp only [List.map_cons, List.nodup_cons] at h
      by_cases hg : g.Name = file.Name
      · have hnone := recordedStatus_of_not_mem gs file.Name (hg ▸ h.1)
        simp [upsertRow, hg, recordedStatus, hnone]
      · simp [upsertRow, hg, recordedStatus, ih h.2]

end postgresql

namespace pipeline
open domain postgresql

theorem World.since_of_trace (w' w : World) (delta : List Event)
    (h : w'.trace = w.trace ++ delta) : w'.since w = delta := by
  simp [World.since, h]

/-- A name recorded with a status other than `pending` is not claimable. -/
theorem claimable_of_recorded (files : List File) (name : String) (status : Status)
    (hrec : recordedStatus files name = some status) (hstatus : status ≠ StatusPending)
    (entry : DirEntry) (hclaim : claimable files entry = true) : entry.Name ≠ name := by
  intro e
  subst e
  simp [claimable, hrec, hstatus] at hclaim

/-- The loop of a scan cycle, whatever the store answers: it only adds events;
every send and every upsert among them belongs to a claimable entry of the
listing; and the status recorded for a name that no claimable entry bears is
left as it was. -/
theorem Scanner.scanFiles.loop_spec (env : Env) (watchDir : String) (files : List File)
    (entries : List DirEntry) (w : World) :
    ∃ delta,
      (Scanner.scanFiles.loop (app.scanner env watchDir) Ctx.background
        (Scanner.extractFilesFromDB.loop files) entries w).trace = w.trace ++ delta ∧
      (∀ p ∈ sentFiles delta, ∃ e ∈ entries, claimable files e = true ∧
        p = filepath.Join watchDir e.Name) ∧
      (∀ f ∈ upserts delta, ∃ e ∈ entries, claimable files e = true ∧ f = processingFile e) ∧
      (∀ name, (∀ e ∈ entries, claimable files e = true → e.Name ≠ name) →
        recordedStatus (Scanner.scanFiles.loop (app.scanner env watchDir) Ctx.background
          (Scanner.extractFilesFromDB.loop files) entries w).db.files name =
          recordedStatus w.db.files name) := by
  induction entries generalizing w with
  | nil => exact ⟨[], by simp [Scanner.scanFiles.loop], by simp [sentFiles], by simp [upserts],
      fun _ _ => rfl⟩
  | cons e es ih =>
      rw [Scanner.scanFiles.loop, Scanner.processEntry_eq]
      by_cases hc : claimable files e = true
      · simp only [hc, if_true]
        cases env.pgExec w.trace with
        | some err =>
            obtain ⟨d, htr, hsend, hups, hrec⟩ := ih
              (w.log (Event.UpdateOrCreateFile false (processingFile e)
                (some (executeQueryError err))))
            refine ⟨Event.UpdateOrCreateFile false (processingFile e)
              (some (executeQueryError err)) :: d, by simp [htr], ?_, ?_, ?_⟩
            · intro p hp
              obtain ⟨x, hx, h⟩ := hsend p (by simpa [sentFiles] using hp)
              exact ⟨x, List.mem_cons_of_mem e hx, h⟩
            · intro f hf
              simp only [upserts, List.mem_cons] at hf
              rcases hf with hf | hf
              · exact ⟨e, List.mem_cons_self e es, hc, hf⟩
              · obtain ⟨x, hx, h⟩ := hups f hf
                exact ⟨x, List.mem_cons_of_mem e hx, h⟩
            · intro name hname
              rw [hrec name (fun x hx => hname x (List.mem_cons_of_mem e hx))]
              rfl
        | none =>
            obtain ⟨d, htr, hsend, hups, hrec⟩ := ih
              { db := { files := upsertRow (processingFile e) w.db.files,
                        devices := w.db.devices },
                tx := w.tx,
                trace := w.trace ++ [Event.UpdateOrCreateFile false (processingFile e) none,
                  Event.SendFile (filepath.Join watchDir e.Name)] }
            refine ⟨Event.UpdateOrCreateFile false (processingFile e) none ::
              Event.SendFile (filepath.Join watchDir e.Name) :: d, by simp [htr], ?_, ?_, ?_⟩
            · intro p hp
              simp only [sentFiles, List.mem_cons] at hp
              rcases hp with hp | hp
              · exact ⟨e, List.mem_cons_self e es, hc, hp⟩
              · obtain ⟨x, hx, h⟩ := hsend p hp
                exact ⟨x, List.mem_cons_of_mem e hx, h⟩
            · intro f hf
              simp only [upserts, List.mem_cons] at hf
              rcases hf with hf | hf
              · exact ⟨e, List.mem_cons_self e es, hc, hf⟩
              · obtain ⟨x, hx, h⟩ := hups f hf
                exact ⟨x, List.mem_cons_of_mem e hx, h⟩
            · intro name hname
              rw [hrec name (fun x hx => hname x (List.mem_cons_of_mem e hx))]
              exact recordedStatus_upsertRow_ne (processingFile e) w.db.files name
                (hname e (List.mem_cons_self e es) hc)
      · simp only [hc]
        obtain ⟨d, htr, hsend, hups, hrec⟩ := ih w
        refine ⟨d, htr, ?_, ?_, ?_⟩
        · intro p hp
          obtain ⟨x, hx, h⟩ := hsend p hp
          exact ⟨x, List.mem_cons_of_mem e hx, h⟩
        · intro f hf
          obtain ⟨x, hx, h⟩ := hups f hf
          exact ⟨x, List.mem_cons_of_mem e hx, h⟩
        · intro name hname
          exact hrec name (fun x hx => hname x (List.mem_cons_of_mem e hx))


/-- In a table with distinct names, a scan cycle's loop keeps the names
distinct, keeps a name recorded as `processing` that way, and leaves every
name whose path it sends recorded as `processing`. -/
theorem Scanner.scanFiles.loop_emits (env : Env) (watchDir : String) (files : List File)
    (name : String) (hname : filepath.isEntryName name = true) (entries : List DirEntry)
    (hvalid : ∀ e ∈ entries, filepath.isEntryName e.Name = true) (w : World)
    (hnodup : (w.db.files.map (fun f => f.Name)).Nodup) :
    ((Scanner.scanFiles.loop (app.scanner env watchDir) Ctx.background
        (Scanner.extractFilesFromDB.loop files) entries w).db.files.map
          (fun f => f.Name)).Nodup ∧
    (recordedStatus w.db.files name = some StatusProcessing →
      recordedStatus (Scanner.scanFiles.loop (app.scanner env watchDir) Ctx.background
        (Scanner.extractFilesFromDB.loop files) entries w).db.files name =
          some StatusProcessing) ∧
    (filepath.Join watchDir name ∈
        sentFiles ((Scanner.scanFiles.loop (app.scanner env watchDir) Ctx.background
          (Scanner.extractFilesFromDB.loop files) entries w).since w) →
      recordedStatus (Scanner.scanFiles.loop (app.scanner env watchDir) Ctx.background
        (Scanner.extractFilesFromDB.loop files) entries w).db.files name =
          some StatusProcessing) := by
  induction entries generalizing w with
  | nil =>
      refine ⟨hnodup, fun h => h, ?_⟩
      simp [Scanner.scanFiles.loop, World.since, sentFiles]
  | cons e es ih =>
      have hes : ∀ x ∈ es, filepath.isEntryName x.Name = true :=
        fun x hx => hvalid x (List.mem_cons_of_mem e hx)
      rw [Scanner.scanFiles.loop, Scanner.processEntry_eq]
      by_cases hc : claimable files e = true
      · simp only [hc, if_true]
        cases env.pgExec w.trace with
        | some err =>
            simp only []
            obtain ⟨d, htr, -⟩ := Scanner.scanFiles.loop_spec env watchDir files es
              (w.log (Event.UpdateOrCreateFile false (processingFile e)
                (some (executeQueryError err))))
            obtain ⟨hnd, hkeep, hemit⟩ := ih hes
              (w.log (Event.UpdateOrCreateFile false (processingFile e)
                (some (executeQueryError err)))) hnodup
            refine ⟨hnd, hkeep, ?_⟩
            intro hsent
            apply hemit
            rw [World.since_of_trace _ _ d htr]
            rw [World.since_of_trace _ w
              (Event.UpdateOrCreateFile false (processingFile e)
                (some (executeQueryError err)) :: d) (by simp [htr])] at hsent
            simpa [sentFiles] using hsent
        | none =>
            simp only []
            have hnd1 := upsertRow_nodup (processingFile e) w.db.files hnodup
            obtain ⟨d, htr, -⟩ := Scanner.scanFiles.loop_spec env watchDir files es
              { db := { files := upsertRow (processingFile e) w.db.files,
                        devices := w.db.devices },
                tx := w.tx,
                trace := w.trace ++ [Event.UpdateOrCreateFile false (processingFile e) none,
                  Event.SendFile (filepath.Join watchDir e.Name)] }
            obtain ⟨hnd, hkeep, hemit⟩ := ih hes
              { db := { files := upsertRow (processingFile e) w.db.files,
                        devices := w.db.devices },
                tx := w.tx,
                trace := w.trace ++ [Event.UpdateOrCreateFile false (processingFile e) none,
                  Event.SendFile (filepath.Join watchDir e.Name)] } hnd1
            have hself : e.Name = name →
                recordedStatus (upsertRow (processingFile e) w.db.files) name =
                  some StatusProcessing := by
              intro he
              have := recordedStatus_upsertRow_self (processingFile e) w.db.files hnodup
              simpa [processingFile, he] using this
            refine ⟨hnd, ?_, ?_⟩
            · intro hrec
              apply hkeep
              by_cases he : e.Name = name
              · exact hself he
              · show recordedStatus (upsertRow (processingFile e) w.db.files) name = _
                rw [recordedStatus_upsertRow_ne (processingFile e) w.db.files name he, hrec]
            · intro hsent
              rw [World.since_of_trace _ w
                (Event.UpdateOrCreateFile false (processingFile e) none ::
                  Event.SendFile (filepath.Join watchDir e.Name) :: d) (by simp [htr])] at hsent
              simp only [sentFiles, List.mem_cons] at hsent
              rcases hsent with hsent | hsent
              · have he : e.Name = name :=
                  (filepath.Join_entry_injective watchDir name e.Name hname
                    (hvalid e (List.mem_cons_self e es)) hsent).symm
                exact hkeep (hself he)
              · apply hemit
                rw [World.since_of_trace _ _ d htr]
                exact hsent
      · simp only [hc]
        exact ih hes w hnodup


/-- A scan cycle, by the answers of the store and of the directory listing. -/
theorem Scanner.scanFiles_eq (env : Env) (watchDir : String) (w : World) :
    Scanner.scanFiles env (app.scanner env watchDir) Ctx.background w =
      match env.pgQuery w.trace with
      | some fault =>
          (some ("failed to get files: " ++ wrapQueryFault fault),
            w.log (Event.Files false (some (wrapQueryFault fault))))
      | none =>
          match env.readDir (w.trace ++ [Event.Files false none]) watchDir with
          | Except.error err =>
              (some ("failed to read directory \"" ++ watchDir ++ "\""),
                (w.log (Event.Files false none)).log (Event.ReadDir watchDir (some err)))
          | Except.ok entries =>
              (none, Scanner.scanFiles.loop (app.scanner env watchDir) Ctx.background
                (Scanner.extractFilesFromDB.loop w.db.files) entries
                ((w.log (Event.Files false none)).log (Event.ReadDir watchDir none))) := by
  have hprov : (app.scanner env watchDir).filesProvider = FilesRepository.Files env := rfl
  have hwd : (app.scanner env watchDir).watchDir = watchDir := rfl
  simp only [Scanner.scanFiles, Scanner.extractFilesFromDB, hprov, hwd, FilesRepository.Files,
    Ctx.background, extractDB, DBTX.read, ReadDir]
  cases env.pgQuery w.trace with
  | some err => simp
  | none =>
      simp only [World.log_trace]
      cases hd : env.readDir (w.trace ++ [Event.Files false none]) watchDir <;> simp [hd]

/-- The status gate for one scan cycle: a name recorded with a status other
than `pending` is neither upserted nor sent, and keeps its status. -/
theorem Scanner.scanFiles_gate (env : Env) (watchDir : String) (name : String)
    (hname : filepath.isEntryName name = true)
    (hlisting : ∀ trace dir entries, env.readDir trace dir = Except.ok entries →
      ∀ e ∈ entries, filepath.isEntryName e.Name = true)
    (w : World) (status : Status) (hrec : recordedStatus w.db.files name = some status)
    (hstatus : status ≠ StatusPending) :
    ∃ delta,
      (Scanner.scanFiles env (app.scanner env watchDir) Ctx.background w).2.trace =
        w.trace ++ delta ∧
      filepath.Join watchDir name ∉ sentFiles delta ∧
      (∀ f ∈ upserts delta, f.Name ≠ name) ∧
      recordedStatus (Scanner.scanFiles env (app.scanner env watchDir) Ctx.background
        w).2.db.files name = some status := by
  rw [Scanner.scanFiles_eq]
  cases env.pgQuery w.trace with
  | some err => exact ⟨_, rfl, by simp [sentFiles], by simp [upserts], hrec⟩
  | none =>
      simp only []
      cases hdir : env.readDir (w.trace ++ [Event.Files false none]) watchDir with
      | error err =>
          exact ⟨[Event.Files false none, Event.ReadDir watchDir (some err)], by simp,
            by simp [sentFiles], by simp [upserts], hrec⟩
      | ok entries =>
          simp only []
          have hskip := claimable_of_recorded w.db.files name status hrec hstatus
          obtain ⟨d, htr, hsend, hups, hkeep⟩ := Scanner.scanFiles.loop_spec env watchDir
            w.db.files entries ((w.log (Event.Files false none)).log
              (Event.ReadDir watchDir none))
          refine ⟨Event.Files false none :: Event.ReadDir watchDir none :: d, by simp [htr],
            ?_, ?_, ?_⟩
          · intro hmem
            obtain ⟨e, he, hc, hp⟩ := hsend _ (by simpa [sentFiles] using hmem)
            exact hskip e hc (filepath.Join_entry_injective watchDir name e.Name hname
              (hlisting _ _ _ hdir e he) hp).symm
          · intro f hf
            obtain ⟨e, -, hc, hfe⟩ := hups f (by simpa [upserts] using hf)
            rw [hfe]
            exact hskip e hc
          · rw [hkeep name (fun e _ hc => hskip e hc)]
            exact hrec

/-- A scan cycle on a table with distinct names leaves every name whose path
it sends recorded as `processing`. -/
theorem Scanner.scanFiles_emits (env : Env) (watchDir : String) (name : String)
    (hname : filepath.isEntryName name = true)
    (hlisting : ∀ trace dir entries, env.readDir trace dir = Except.ok entries →
      ∀ e ∈ entries, filepath.isEntryName e.Name = true)
    (w : World) (hnodup : (w.db.files.map (fun f => f.Name)).Nodup)
    (hsent : filepath.Join watchDir name ∈ sentFiles
      ((Scanner.scanFiles env (app.scanner env watchDir) Ctx.background w).2.since w)) :
    recordedStatus (Scanner.scanFiles env (app.scanner env watchDir) Ctx.background
      w).2.db.files name = some StatusProcessing := by
  rw [Scanner.scanFiles_eq] at hsent ⊢
  cases hq : env.pgQuery w.trace with
  | some err => simp [hq, World.since, sentFiles] at hsent
  | none =>
      simp only [hq] at hsent ⊢
      cases hdir : env.readDir (w.trace ++ [Event.Files false none]) watchDir with
      | error err => simp [hdir, World.since, sentFiles] at hsent
      | ok entries =>
          simp only [hdir] at hsent ⊢
          obtain ⟨d, htr, -⟩ := Scanner.scanFiles.loop_spec env watchDir
            w.db.files entries ((w.log (Event.Files false none)).log
              (Event.ReadDir watchDir none))
          apply (Scanner.scanFiles.loop_emits env watchDir w.db.files name hname entries
            (hlisting _ _ _ hdir) ((w.log (Event.Files false none)).log
              (Event.ReadDir watchDir none)) hnodup).2.2
          rw [World.since_of_trace _ _ d htr]
          rw [World.since_of_trace _ w (Event.Files false none ::
            Event.ReadDir watchDir none :: d) (by simp [htr])] at hsent
          simpa [sentFiles] using hsent

/-- The status gate for one step of the writer: it sends nothing on `files`,
upserts only with status `done` or `error`, and keeps a name that is recorded
with a status other than `pending` that way. -/
theorem Writer.processParseResult_gate (env : Env) (result : ParseResult) (name : String)
    (w : World) (status : Status) (hrec : recordedStatus w.db.files name = some status)
    (hstatus : status ≠ StatusPending) :
    ∃ delta,
      (Writer.processParseResult env (app.writer env) Ctx.background result w).2.trace =
        w.trace ++ delta ∧
      sentFiles delta = [] ∧
      (∀ f ∈ upserts delta, f.Status = StatusDone ∨ f.Status = StatusError) ∧
      ∃ status', recordedStatus (Writer.processParseResult env (app.writer env)
        Ctx.background result w).2.db.files name = some status' ∧ status' ≠ StatusPending := by
  cases herr : result.Error with
  | none =>
      have hcases := Writer.saveResult_cases env Ctx.background w result
      simp only [Writer.processParseResult, herr]
      generalize Writer.saveResult env (app.writer env) Ctx.background result w = s at hcases
      obtain ⟨r, w1⟩ := s
      rcases hcases with ⟨_, hr, htr, hdb⟩ | ⟨_, hr, htr, hdb⟩ | ⟨_, _, hr, htr, hdb⟩ |
        ⟨_, _, hr, htr, hdb⟩ | ⟨now, hr, htr, hdb, -⟩
      · simp only at hr htr hdb
        subst hr
        exact ⟨_, htr, rfl, by simp [upserts], status, by rw [hdb]; exact hrec, hstatus⟩
      · simp only at hr htr hdb
        subst hr
        exact ⟨_, htr, rfl, by simp [upserts], status, by rw [hdb]; exact hrec, hstatus⟩
      · simp only at hr htr hdb
        subst hr
        exact ⟨_, htr, rfl, by simp [upserts, doneFile], status, by rw [hdb]; exact hrec,
          hstatus⟩
      · simp only at hr htr hdb
        subst hr
        exact ⟨_, htr, rfl, by simp [upserts, doneFile], status, by rw [hdb]; exact hrec,
          hstatus⟩
      · simp only at hr htr hdb
        subst hr
        refine ⟨_, htr, rfl, by simp [upserts, doneFile], ?_⟩
        rw [hdb]
        exact recordedStatus_upsertRow_not_pending (doneFile result now) w.db.files name
          (by show StatusDone ≠ StatusPending; decide) status hrec hstatus
  | some resultError =>
      have htr := FilesRepository.UpdateOrCreateFile_trace env ⟨false⟩
        { Name := filepath.Base result.Filename, Status := StatusError,
          ErrorMessage := resultError, ProcessedAt := some (env.now w.trace) } w
      obtain ⟨-, hok, hfail⟩ := FilesRepository.UpdateOrCreateFile_pool env
        { Name := filepath.Base result.Filename, Status := StatusError,
          ErrorMessage := resultError, ProcessedAt := some (env.now w.trace) } w
      simp only [Writer.processParseResult, herr, app.writer, Ctx.background]
      generalize FilesRepository.UpdateOrCreateFile env ⟨false⟩ _ w = u at htr hok hfail
      obtain ⟨r, w1⟩ := u
      cases r with
      | some e =>
          refine ⟨_, htr, rfl, by simp [upserts], status, ?_, hstatus⟩
          have := hfail (by simp)
          simp only at this
          rw [this]
          exact hrec
      | none =>
          refine ⟨_, htr, rfl, by simp [upserts], ?_⟩
          have := hok rfl
          simp only at this
          rw [this]
          exact recordedStatus_upsertRow_not_pending _ w.db.files name
            (by show StatusError ≠ StatusPending; decide) status hrec hstatus

end pipeline

namespace app
open domain pipeline postgresql

/-- The status gate across any sequence of scan cycles and writer steps: a
name recorded with a status other than `pending` is never sent on `files`, is
never upserted as `processing`, and stays recorded with a status other than
`pending`. -/
theorem runSteps_gate (env : Env) (watchDir : String) (name : String)
    (hname : filepath.isEntryName name = true)
    (hlisting : ∀ trace dir entries, env.readDir trace dir = Except.ok entries →
      ∀ e ∈ entries, filepath.isEntryName e.Name = true)
    (steps : List Step) (w : World) (status : Status)
    (hrec : recordedStatus w.db.files name = some status) (hstatus : status ≠ StatusPending) :
    ∃ delta,
      (runSteps env watchDir steps w).trace = w.trace ++ delta ∧
      filepath.Join watchDir name ∉ sentFiles delta ∧
      (∀ f ∈ upserts delta, f.Name = name → f.Status ≠ StatusProcessing) ∧
      ∃ status', recordedStatus (runSteps env watchDir steps w).db.files name = some status' ∧
        status' ≠ StatusPending := by
  induction steps generalizing w status with
  | nil => exact ⟨[], by simp [runSteps], by simp [sentFiles], by simp [upserts], status, hrec,
      hstatus⟩
  | cons step steps ih =>
      cases step with
      | scan =>
          obtain ⟨d1, htr1, hsend1, hups1, hrec1⟩ :=
            Scanner.scanFiles_gate env watchDir name hname hlisting w status hrec hstatus
          obtain ⟨d2, htr2, hsend2, hups2, hrec2⟩ := ih _ status hrec1 hstatus
          refine ⟨d1 ++ d2, ?_, ?_, ?_, hrec2⟩
          · simp only [runSteps, runStep]
            rw [htr2, htr1, List.append_assoc]
          · simp [sentFiles_append, hsend1, hsend2]
          · intro f hf hfn
            rw [upserts_append, List.mem_append] at hf
            rcases hf with hf | hf
            · exact absurd hfn (hups1 f hf)
            · exact hups2 f hf hfn
      | write result =>
          obtain ⟨d1, htr1, hsend1, hups1, status1, hrec1, hstatus1⟩ :=
            Writer.processParseResult_gate env result name w status hrec hstatus
          obtain ⟨d2, htr2, hsend2, hups2, hrec2⟩ := ih _ status1 hrec1 hstatus1
          refine ⟨d1 ++ d2, ?_, ?_, ?_, hrec2⟩
          · simp only [runSteps, runStep]
            rw [htr2, htr1, List.append_assoc]
          · simp [sentFiles_append, hsend1, hsend2]
          · intro f hf hfn
            rw [upserts_append, List.mem_append] at hf
            rcases hf with hf | hf
            · rcases hups1 f hf with h | h
              · rw [h]; decide
              · rw [h]; decide
            · exact hups2 f hf hfn

end app

namespace pipeline
open domain postgresql

/-- C6: with a store that records upserts and whose file names are distinct,
and a listing of entry names, a file whose path a scan cycle sends is recorded
as `processing` afterwards, and a file recorded as `processing`, `done` or
`error` (any status but `pending`) is, through every later sequence of scan
cycles and writer steps, never sent on `files` again, never upserted as
`processing` again, and never recorded as `pending`; so a second processing
attempt for it cannot start while the first is in flight. -/
theorem Scanner.no_reemission (env : Env) (watchDir : String) (name : String)
    (hname : filepath.isEntryName name = true)
    (hlisting : ∀ trace dir entries, env.readDir trace dir = Except.ok entries →
      ∀ e ∈ entries, filepath.isEntryName e.Name = true)
    (steps : List app.Step) :
    (∀ (w : World) (status : Status), recordedStatus w.db.files name = some status →
      status ≠ StatusPending →
      filepath.Join watchDir name ∉ sentFiles ((app.runSteps env watchDir steps w).since w) ∧
      (∀ f ∈ upserts ((app.runSteps env watchDir steps w).since w),
        f.Name = name → f.Status ≠ StatusProcessing) ∧
      ∃ status', recordedStatus (app.runSteps env watchDir steps w).db.files name =
        some status' ∧ status' ≠ StatusPending) ∧
    (∀ w : World, (w.db.files.map (fun f => f.Name)).Nodup →
      filepath.Join watchDir name ∈ sentFiles
        ((Scanner.scanFiles env (app.scanner env watchDir) Ctx.background w).2.since w) →
      recordedStatus (Scanner.scanFiles env (app.scanner env watchDir) Ctx.background
        w).2.db.files name = some StatusProcessing ∧
      filepath.Join watchDir name ∉ sentFiles
        ((app.runSteps env watchDir steps
          (Scanner.scanFiles env (app.scanner env watchDir) Ctx.background w).2).since
          (Scanner.scanFiles env (app.scanner env watchDir) Ctx.background w).2)) := by
  constructor
  · intro w status hrec hstatus
    obtain ⟨d, htr, hsend, hups, hkeep⟩ :=
      app.runSteps_gate env watchDir name hname hlisting steps w status hrec hstatus
    rw [World.since_of_trace _ _ d htr]
    exact ⟨hsend, hups, hkeep⟩
  · intro w hnodup hsent
    have hproc := Scanner.scanFiles_emits env watchDir name hname hlisting w hnodup hsent
    obtain ⟨d, htr, hsend, -⟩ :=
      app.runSteps_gate env watchDir name hname hlisting steps _ StatusProcessing hproc
        (by decide)
    rw [World.since_of_trace _ _ d htr]
    exact ⟨hproc, hsend⟩

/-- Witness for C6: `a.tsv` is sent by the first scan cycle over an empty
table; the next scan cycle, the writer marking it `done`, and a third scan
cycle do not send it again.  And `b.tsv`, recorded as done, is not sent by two
scan cycles in a row. -/
theorem Scanner.no_reemission_witness :
    "watch/a.tsv" ∈ sentFiles
      ((Scanner.scanFiles sample.env (app.scanner sample.env "watch") Ctx.background
        sample.world).2.since sample.world) ∧
    "watch/a.tsv" ∉ sentFiles
      ((app.runSteps sample.env "watch"
          [app.Step.scan, app.Step.write sample.resultOk, app.Step.scan]
          (Scanner.scanFiles sample.env (app.scanner sample.env "watch") Ctx.background
            sample.world).2).since
        (Scanner.scanFiles sample.env (app.scanner sample.env "watch") Ctx.background
          sample.world).2) ∧
    "watch/b.tsv" ∉ sentFiles
      ((app.runSteps sample.env "watch" [app.Step.scan, app.Step.scan]
        sample.worldSeen).since sample.worldSeen) := by
  have hjoin : filepath.Join "watch" "a.tsv" = "watch/a.tsv" := by decide
  have hjoinb : filepath.Join "watch" "b.tsv" = "watch/b.tsv" := by decide
  have hlisting : ∀ trace dir entries, sample.env.readDir trace dir = Except.ok entries →
      ∀ e ∈ entries, filepath.isEntryName e.Name = true := by
    intro trace dir entries h
    simp only [sample.env, Except.ok.injEq] at h
    subst h
    decide
  have hsent : filepath.Join "watch" "a.tsv" ∈ sentFiles
      ((Scanner.scanFiles sample.env (app.scanner sample.env "watch") Ctx.background
        sample.world).2.since sample.world) := by decide
  have h := (Scanner.no_reemission sample.env "watch" "a.tsv" (by decide) hlisting
    [app.Step.scan, app.Step.write sample.resultOk, app.Step.scan]).2 sample.world
    (by decide) hsent
  have hb := ((Scanner.no_reemission sample.env "watch" "b.tsv" (by decide) hlisting
    [app.Step.scan, app.Step.scan]).1 sample.worldSeen "done" (by decide) (by decide)).1
  rw [hjoin] at hsent h
  rw [hjoinb] at hb
  exact ⟨hsent, h.2, hb⟩

end pipeline

/-! ## The parser: failure outcomes -/

namespace pipeline
open domain

/-- C11 (the code at the failing input): after one valid row, a row that does
not decode makes `parseRecords` return a non-nil error together with the
device of the first row, not an empty device sequence. -/
theorem Parser.parseRecords_decode_error_keeps_devices :
    Parser.parseRecords ⟨none, [Row.ok sample.device1, Row.bad "wrong number of fields"]⟩ =
      (⟨[sample.device1],
        some "failed to decode device record: wrong number of fields"⟩, []) := by
  decide

/-- C12: when the first `k` rows are valid and row `k+1` decodes to a device
that fails validation, `parseRecords` returns no devices and the error
`invalid device record #<k+1>: <validation error>`. -/
theorem Parser.parseRecords_invalid_record_index (pre : List Device)
    (hvalid : ∀ d ∈ pre, d.Validate = none) (device : Device) (err : GoError)
    (hinvalid : device.Validate = some err) (post : List Row) :
    (Parser.parseRecords ⟨none, pre.map Row.ok ++ Row.ok device :: post⟩).1 =
      ⟨[], some ("invalid device record #" ++ toString (pre.length + 1) ++ ": " ++ err)⟩ := by
  have h := Parser.parseRecords.loop_valid_prefix pre hvalid (Row.ok device :: post) []
  simp only [Parser.parseRecords, h, List.nil_append]
  simp [Parser.parseRecords.loop, hinvalid]

/-- Witness for C12: a file whose only row has sequence number `0` yields no
devices and a failure that names record `1`. -/
theorem Parser.parseRecords_invalid_record_index_witness :
    sample.deviceZero.Validate = some "n is required" ∧
    (Parser.parseRecords ⟨none, [Row.ok sample.deviceZero]⟩).1 =
      ⟨[], some "invalid device record #1: n is required"⟩ :=
  ⟨by decide,
    (Parser.parseRecords_invalid_record_index [] (by decide) sample.deviceZero "n is required"
      (by decide) []).trans (by decide)⟩

end pipeline

namespace pipeline
open domain

theorem sentParseResults_append (a b : List Event) :
    sentParseResults (a ++ b) = sentParseResults a ++ sentParseResults b := by
  induction a with
  | nil => rfl
  | cons e a ih => cases e <;> simp [sentParseResults, ih]

/-- Opening, parsing and closing a file only adds events, none of which is a
send, and leaves the database alone. -/
theorem Parser.parseRecordsFromFile_frame (env : Env) (filename : String) (w : World) :
    (∃ delta, (Parser.parseRecordsFromFile env filename w).2.trace = w.trace ++ delta ∧
      sentParseResults delta = [] ∧ sentFiles delta = [] ∧ upserts delta = []) ∧
    (Parser.parseRecordsFromFile env filename w).2.db = w.db ∧
    (Parser.parseRecordsFromFile env filename w).2.tx = w.tx := by
  simp only [Parser.parseRecordsFromFile]
  cases env.openFile w.trace filename with
  | error err => exact ⟨⟨_, rfl, rfl, rfl, rfl⟩, rfl, rfl⟩
  | ok f =>
      exact ⟨⟨[Event.Open filename none, Event.Close filename
        (env.closeFile (w.trace ++ [Event.Open filename none]) filename)],
        by simp [World.log], rfl, rfl, rfl⟩, rfl, rfl⟩

/-- One iteration of the loop of `Parser.Run` on a received path. -/
theorem Parser.Run.loop_received_path (env : Env) (ctx : Ctx) (filename : String)
    (rest : List (Select String)) (w : World) :
    Parser.Run.loop env ctx (Select.recv filename :: rest) w =
      Parser.Run.loop env ctx rest
        ((Parser.parseRecordsFromFile env filename w).2.log (Event.SendParseResult
          { Filename := filename,
            Devices := (Parser.parseRecordsFromFile env filename w).1.devices,
            Error := (Parser.parseRecordsFromFile env filename w).1.err })) := by
  rw [Parser.Run.loop]

/-- The loop of `Parser.Run` over paths followed by the closing of the input
channel returns nil, leaves the database alone, and sends one outcome per
path, in order, with the path as its `Filename`. -/
theorem Parser.Run.loop_sends (env : Env) (ctx : Ctx) (paths : List String) (w : World) :
    (Parser.Run.loop env ctx (paths.map Select.recv ++ [Select.closed]) w).1 =
      RunResult.returned none ∧
    (Parser.Run.loop env ctx (paths.map Select.recv ++ [Select.closed]) w).2.db = w.db ∧
    ∃ delta, (Parser.Run.loop env ctx (paths.map Select.recv ++ [Select.closed]) w).2.trace =
        w.trace ++ delta ∧
      (sentParseResults delta).map (fun r => r.Filename) = paths ∧
      sentFiles delta = [] ∧ upserts delta = [] := by
  induction paths generalizing w with
  | nil => exact ⟨rfl, rfl, [], by simp [Parser.Run.loop], rfl, rfl, rfl⟩
  | cons p ps ih =>
      obtain ⟨⟨d1, htr1, hs1, hf1, hu1⟩, hdb1, -⟩ := Parser.parseRecordsFromFile_frame env p w
      rw [List.map_cons, List.cons_append, Parser.Run.loop_received_path]
      obtain ⟨hret, hdb2, d2, htr2, hs2, hf2, hu2⟩ := ih
        ((Parser.parseRecordsFromFile env p w).2.log (Event.SendParseResult
          { Filename := p,
            Devices := (Parser.parseRecordsFromFile env p w).1.devices,
            Error := (Parser.parseRecordsFromFile env p w).1.err }))
      refine ⟨hret, ?_, d1 ++ Event.SendParseResult
        { Filename := p,
          Devices := (Parser.parseRecordsFromFile env p w).1.devices,
          Error := (Parser.parseRecordsFromFile env p w).1.err } :: d2, ?_, ?_, ?_, ?_⟩
      · rw [hdb2]; exact hdb1
      · rw [htr2]; simp [htr1]
      · simp [sentParseResults_append, hs1, sentParseResults, hs2]
      · simp [sentFiles_append, hf1, sentFiles, hf2]
      · simp [upserts_append, hu1, upserts, hu2]

/-- C13: for every finite sequence of paths received on `files` before the
channel is closed, `Parser.Run` returns nil after sending exactly one outcome
per path on `parseResults`, in arrival order, the `Filename` of each being the
path received, whatever opening, decoding, validating or closing the file
gave. -/
theorem Parser.Run_sends_one_per_path (env : Env) (w : World) (paths : List String)
    (out : RunResult × World)
    (hout : Parser.Run env Ctx.background (paths.map Select.recv ++ [Select.closed]) w = out) :
    out.1 = RunResult.returned none ∧
    (sentParseResults (out.2.since w)).map (fun r => r.Filename) = paths ∧
    (sentParseResults (out.2.since w)).length = paths.length := by
  subst hout
  obtain ⟨hret, -, delta, htr, hs, -⟩ := Parser.Run.loop_sends env Ctx.background paths w
  simp only [Parser.Run]
  generalize Parser.Run.loop env Ctx.background (paths.map Select.recv ++ [Select.closed]) w = l
    at hret htr
  obtain ⟨r, w1⟩ := l
  simp only at hret htr
  subst hret
  have hsince : World.since (w1.log Event.CloseParseResults) w = delta ++ [Event.CloseParseResults] :=
    World.since_of_trace _ _ _ (by simp [htr])
  have hsent : sentParseResults (World.since (w1.log Event.CloseParseResults) w) =
      sentParseResults delta := by
    rw [hsince, sentParseResults_append]
    simp [sentParseResults]
  refine ⟨rfl, ?_, ?_⟩
  · rw [hsent, hs]
  · rw [hsent, ← List.length_map (sentParseResults delta) (fun r => r.Filename), hs]

/-- Witness for C13: of three paths, one parses, one fails validation and one
cannot be opened; three outcomes are sent, in that order. -/
theorem Parser.Run_sends_one_per_path_witness :
    (sentParseResults ((Parser.Run sample.env Ctx.background
      (["watch/a.tsv", "watch/c.tsv", "watch/gone.tsv"].map Select.recv ++ [Select.closed])
      sample.world).2.since sample.world)).map (fun r => r.Filename) =
      ["watch/a.tsv", "watch/c.tsv", "watch/gone.tsv"] ∧
    (sentParseResults ((Parser.Run sample.env Ctx.background
      (["watch/a.tsv", "watch/c.tsv", "watch/gone.tsv"].map Select.recv ++ [Select.closed])
      sample.world).2.since sample.world)).map (fun r => r.Error.isSome) =
      [false, true, true] :=
  ⟨(Parser.Run_sends_one_per_path sample.env sample.world
      ["watch/a.tsv", "watch/c.tsv", "watch/gone.tsv"] _ rfl).2.1, by decide⟩

end pipeline

/-! ## The reporter -/

namespace pipeline
open domain

theorem DeviceMap.get_set (m : DeviceMap) (key : String) (value : List Device) (k : String) :
    (DeviceMap.set m key value).get k = if k = key then value else m.get k := by
  induction m with
  | nil =>
      by_cases h : k = key
      · simp [DeviceMap.set, DeviceMap.get, h]
      · have h' : ¬ key = k := fun e => h e.symm
        simp [DeviceMap.set, DeviceMap.get, h, h']
  | cons e rest ih =>
      obtain ⟨k0, ds⟩ := e
      by_cases h0 : k0 = key
      · by_cases h : k = key
        · simp [DeviceMap.set, DeviceMap.get, h0, h]
        · have h' : ¬ key = k := fun e => h e.symm
          simp [DeviceMap.set, DeviceMap.get, h0, h, h']
      · by_cases h : k = key
        · subst h
          simpa [DeviceMap.set, DeviceMap.get, h0] using ih
        · by_cases h1 : k0 = k
          · simp [DeviceMap.set, DeviceMap.get, h0, h, h1]
          · simp [DeviceMap.set, DeviceMap.get, h0, h, h1, ih]

theorem DeviceMap.keys_set (m : DeviceMap) (key : String) (value : List Device) :
    (DeviceMap.set m key value).map Prod.fst =
      if key ∈ m.map Prod.fst then m.map Prod.fst else m.map Prod.fst ++ [key] := by
  induction m with
  | nil => simp [DeviceMap.set]
  | cons e rest ih =>
      obtain ⟨k0, ds⟩ := e
      by_cases h0 : k0 = key
      · simp [DeviceMap.set, h0]
      · have h0' : ¬ key = k0 := fun e => h0 e.symm
        simp only [DeviceMap.set, h0, if_false, List.map_cons, ih, List.mem_cons, h0', false_or]
        split <;> simp

/-- The grouping loop: every key holds the devices of that unit identifier in
parse order, after what it held before. -/
theorem Reporter.processResult.group_get (devices : List Device) (m : DeviceMap) (g : String) :
    (Reporter.processResult.group devices m).get g =
      m.get g ++ devices.filter (fun d => d.UnitGUID = g) := by
  induction devices generalizing m with
  | nil => simp [Reporter.processResult.group]
  | cons d ds ih =>
      rw [Reporter.processResult.group, ih, DeviceMap.get_set]
      by_cases h : d.UnitGUID = g
      · simp [h, List.filter_cons]
      · have h' : ¬ g = d.UnitGUID := fun e => h e.symm
        simp [h, h', List.filter_cons]

/-- The grouping loop: the keys stay distinct, and a key is present exactly when
it was present before or is the unit identifier of one of the devices. -/
theorem Reporter.processResult.group_keys (devices : List Device) (m : DeviceMap)
    (hm : (m.map Prod.fst).Nodup) :
    ((Reporter.processResult.group devices m).map Prod.fst).Nodup ∧
    ∀ g, g ∈ (Reporter.processResult.group devices m).map Prod.fst ↔
      (g ∈ m.map Prod.fst ∨ ∃ d ∈ devices, d.UnitGUID = g) := by
  induction devices generalizing m with
  | nil => exact ⟨hm, fun g => by simp [Reporter.processResult.group]⟩
  | cons d ds ih =>
      have hset : ((DeviceMap.set m d.UnitGUID (m.get d.UnitGUID ++ [d])).map Prod.fst).Nodup := by
        rw [DeviceMap.keys_set]
        split
        · exact hm
        · rename_i hmem
          exact List.Nodup.append hm (List.nodup_singleton _) (by simpa using hmem)
      obtain ⟨hnd, hmem⟩ := ih (DeviceMap.set m d.UnitGUID (m.get d.UnitGUID ++ [d])) hset
      rw [Reporter.processResult.group]
      refine ⟨hnd, fun g => ?_⟩
      rw [hmem g, DeviceMap.keys_set]
      by_cases hk : d.UnitGUID ∈ m.map Prod.fst
      · simp only [hk, if_true, List.mem_cons, exists_eq_or_imp]
        constructor
        · rintro (h | h)
          · exact Or.inl h
          · exact Or.inr (Or.inr h)
        · rintro (h | h | h)
          · exact Or.inl h
          · exact Or.inl (h ▸ hk)
          · exact Or.inr h
      · simp only [hk, if_false, List.mem_append, List.mem_cons, List.not_mem_nil, or_false,
          exists_eq_or_imp]
        constructor
        · rintro ((h | h) | h)
          · exact Or.inl h
          · exact Or.inr (Or.inl h.symm)
          · exact Or.inr (Or.inr h)
        · rintro (h | h | h)
          · exact Or.inl (Or.inl h)
          · exact Or.inl (Or.inr h.symm)
          · exact Or.inr h

/-- Groups taken for distinct keys that cover all unit identifiers partition
the devices. -/
theorem filter_groups_perm (order : List String) (hnd : order.Nodup) (devices : List Device)
    (hcover : ∀ d ∈ devices, d.UnitGUID ∈ order) :
    (order.flatMap (fun g => devices.filter (fun d => d.UnitGUID = g))).Perm devices := by
  induction order generalizing devices with
  | nil =>
      cases devices with
      | nil => simp
      | cons d ds => exact absurd (hcover d (List.mem_cons_self d ds)) (by simp)
  | cons g rest ih =>
      rw [List.nodup_cons] at hnd
      have hrest : ∀ d ∈ devices.filter (fun d => !decide (d.UnitGUID = g)),
          d.UnitGUID ∈ rest := by
        intro d hd
        rw [List.mem_filter] at hd
        have hne : d.UnitGUID ≠ g := by simpa using hd.2
        rcases List.mem_cons.mp (hcover d hd.1) with h | h
        · exact absurd h hne
        · exact h
      have hcongr : rest.flatMap (fun g' => devices.filter (fun d => d.UnitGUID = g')) =
          rest.flatMap (fun g' => (devices.filter (fun d => !decide (d.UnitGUID = g))).filter
            (fun d => d.UnitGUID = g')) := by
        apply List.flatMap_congr
        intro g' hg'
        have hne : g' ≠ g := fun e => hnd.1 (e ▸ hg')
        rw [List.filter_filter]
        apply List.filter_congr
        intro d _
        by_cases hd : d.UnitGUID = g'
        · simp [hd, hne]
        · simp [hd]
      rw [List.flatMap_cons, hcongr]
      exact (List.Perm.append_left _ (ih hnd.2 _ hrest)).trans
        (List.filter_append_perm (fun d => decide (d.UnitGUID = g)) devices)

end pipeline

namespace pipeline
open domain

/-- The generator loop when no call fails: one call per key, in the order
given, and nil at the end. -/
theorem Reporter.processResult.loop_generates_all (env : Env) (outputDir : String)
    (hgen : ∀ trace p g f ds, env.generate trace p g f ds = none)
    (result : ParseResult) (byGUID : DeviceMap) (guids : List String) (w : World) :
    Reporter.processResult.loop (app.reporter env outputDir) result byGUID guids w =
      (none, { db := w.db, tx := w.tx,
               trace := w.trace ++ guids.map (fun g =>
                 Event.GenerateReport (filepath.Join outputDir (g ++ ".pdf")) g result.Filename
                   (byGUID.get g) none) }) := by
  induction guids generalizing w with
  | nil => simp [Reporter.processResult.loop]
  | cons g gs ih =>
      rw [Reporter.processResult.loop]
      simp only [app.reporter, app.reportGenerator, hgen]
      have := ih (w.log (Event.GenerateReport (filepath.Join outputDir (g ++ ".pdf")) g
        result.Filename (byGUID.get g) none))
      simp only [app.reporter, app.reportGenerator] at this
      rw [this]
      simp [World.log]

/-- The keys of the map built by `processResult` are the distinct unit
identifiers of the devices. -/
theorem Reporter.processResult.group_keys_perm (devices : List Device) :
    ((Reporter.processResult.group devices []).map Prod.fst).Perm
      (devices.map (fun d => d.UnitGUID)).dedup := by
  obtain ⟨hnd, hmem⟩ := Reporter.processResult.group_keys devices [] (by simp)
  rw [List.perm_ext_iff_of_nodup hnd (List.nodup_dedup _)]
  intro g
  rw [hmem g, List.mem_dedup]
  simp

/-- C14: when the generator succeeds for every group, `processResult` returns
nil after calling it exactly once per distinct unit identifier of the
outcome's devices (in the order in which `range` visits the map), each time
with the output directory joined with `<unit identifier>.pdf`, the unit
identifier, the outcome's `Filename` and the outcome's devices of that unit in
parse order; the groups partition the devices, and an outcome without devices
causes no call. -/
theorem Reporter.processResult_groups (env : Env) (outputDir : String) (w : World)
    (result : ParseResult)
    (hgen : ∀ trace p g f ds, env.generate trace p g f ds = none)
    (hrange : env.rangeOk)
    (out : Option GoError × World)
    (hout : Reporter.processResult env (app.reporter env outputDir) result w = out) :
    out.1 = none ∧
    ∃ order : List String,
      order.Perm (result.Devices.map (fun d => d.UnitGUID)).dedup ∧
      out.2.trace = w.trace ++ order.map (fun g =>
        Event.GenerateReport (filepath.Join outputDir (g ++ ".pdf")) g result.Filename
          (result.Devices.filter (fun d => d.UnitGUID = g)) none) ∧
      (order.flatMap (fun g => result.Devices.filter (fun d => d.UnitGUID = g))).Perm
        result.Devices ∧
      (result.Devices = [] → order = []) := by
  subst hout
  have hkeys := Reporter.processResult.group_keys_perm result.Devices
  have horder := (hrange w.trace
    ((Reporter.processResult.group result.Devices []).map Prod.fst)).trans hkeys
  simp only [Reporter.processResult, Reporter.processResult.loop_generates_all env outputDir hgen]
  refine ⟨trivial, env.rangeOrder w.trace
    ((Reporter.processResult.group result.Devices []).map Prod.fst), horder, ?_, ?_, ?_⟩
  · simp only [Reporter.processResult.group_get, DeviceMap.get, List.nil_append]
  · apply filter_groups_perm
    · exact (List.Perm.nodup_iff horder).mpr (List.nodup_dedup _)
    · intro d hd
      rw [List.Perm.mem_iff horder, List.mem_dedup]
      exact List.mem_map_of_mem _ hd
  · intro hnil
    have hperm : (env.rangeOrder w.trace
        ((Reporter.processResult.group result.Devices []).map Prod.fst)).Perm [] := by
      simpa [hnil] using horder
    exact List.Perm.eq_nil hperm

/-- Witness for C14: three devices of two units lead to two generator calls,
the first with the two devices of the first unit, the second with the device of
unit `U1`. -/
theorem Reporter.processResult_groups_witness :
    (Reporter.processResult sample.env (app.reporter sample.env "out") sample.resultTwoUnits
      sample.world).1 = none ∧
    (Reporter.processResult sample.env (app.reporter sample.env "out") sample.resultTwoUnits
      sample.world).2.trace =
      [Event.GenerateReport "out/01749246-95f6-57db-b7c3-2ae0e8be671f.pdf"
          "01749246-95f6-57db-b7c3-2ae0e8be671f" "watch/a.tsv"
          [sample.device1, sample.device3] none,
        Event.GenerateReport "out/U1.pdf" "U1" "watch/a.tsv" [sample.device2] none] :=
  ⟨(Reporter.processResult_groups sample.env "out" sample.world sample.resultTwoUnits
      (fun _ _ _ _ _ => rfl) (fun _ _ => List.Perm.refl _) _ rfl).1, by decide⟩

end pipeline

namespace pipeline
open domain

/-- The generator loop, whatever the generator answers: either every key is
visited and the loop returns nil, or the loop stops at the first key whose
call fails, returns that error tagged with the key, and visits no later key.
The database is left alone. -/
theorem Reporter.processResult.loop_cases (env : Env) (outputDir : String)
    (result : ParseResult) (byGUID : DeviceMap) (guids : List String) (w : World) :
    (Reporter.processResult.loop (app.reporter env outputDir) result byGUID guids w).2.db =
      w.db ∧
    (((Reporter.processResult.loop (app.reporter env outputDir) result byGUID guids w).1 =
        none ∧
      (Reporter.processResult.loop (app.reporter env outputDir) result byGUID guids w).2.trace =
        w.trace ++ guids.map (fun g =>
          Event.GenerateReport (filepath.Join outputDir (g ++ ".pdf")) g result.Filename
            (byGUID.get g) none)) ∨
    (∃ pre g post err, guids = pre ++ g :: post ∧
      (Reporter.processResult.loop (app.reporter env outputDir) result byGUID guids w).1 =
        some ("guid " ++ g ++ ": " ++ err) ∧
      (Reporter.processResult.loop (app.reporter env outputDir) result byGUID guids w).2.trace =
        w.trace ++ pre.map (fun g =>
          Event.GenerateReport (filepath.Join outputDir (g ++ ".pdf")) g result.Filename
            (byGUID.get g) none) ++
          [Event.GenerateReport (filepath.Join outputDir (g ++ ".pdf")) g result.Filename
            (byGUID.get g) (some err)])) := by
  induction guids generalizing w with
  | nil => exact ⟨rfl, Or.inl ⟨rfl, by simp [Reporter.processResult.loop]⟩⟩
  | cons g gs ih =>
      rw [Reporter.processResult.loop]
      simp only [app.reporter, app.reportGenerator]
      cases hgen : env.generate w.trace (filepath.Join outputDir (g ++ ".pdf")) g
          result.Filename (byGUID.get g) with
      | some err =>
          exact ⟨rfl, Or.inr ⟨[], g, gs, err, rfl, rfl, by simp [World.log]⟩⟩
      | none =>
          have := ih (w.log (Event.GenerateReport (filepath.Join outputDir (g ++ ".pdf")) g
            result.Filename (byGUID.get g) none))
          simp only [app.reporter, app.reportGenerator] at this
          obtain ⟨hdb, hcase⟩ := this
          refine ⟨hdb, ?_⟩
          rcases hcase with ⟨hres, htr⟩ | ⟨pre, g', post, err, hsplit, hres, htr⟩
          · exact Or.inl ⟨hres, by rw [htr]; simp [World.log]⟩
          · refine Or.inr ⟨g :: pre, g', post, err, by rw [hsplit]; rfl, hres, ?_⟩
            rw [htr]
            simp [World.log]

/-- C15 (as stated, refuted): the devices belong to two units and `range`
visits unit `U1` first; the generator fails for `U1`, and `processResult`
returns that error without ever calling the generator for the other unit. -/
theorem Reporter.processResult_stops_at_failure :
    (sample.resultTwoUnits.Devices.map (fun d => d.UnitGUID)).dedup.length = 2 ∧
    (Reporter.processResult sample.envGenFails (app.reporter sample.envGenFails "out")
      sample.resultTwoUnits sample.world).1 = some "guid U1: disk full" ∧
    (Reporter.processResult sample.envGenFails (app.reporter sample.envGenFails "out")
      sample.resultTwoUnits sample.world).2.trace =
      [Event.GenerateReport "out/U1.pdf" "U1" "watch/a.tsv" [sample.device2]
        (some "disk full")] := by
  decide

/-- C15 (amended): `processResult` calls the generator for the groups in the
order in which `range` visits them, a permutation of the distinct unit
identifiers, until the first call that fails: then it returns the error tagged
with that unit identifier, the groups visited before it have been generated
and the groups after it are not visited; when no call fails, every group is
generated and nil is returned. -/
theorem Reporter.processResult_fail_fast (env : Env) (outputDir : String) (w : World)
    (result : ParseResult) (hrange : env.rangeOk)
    (out : Option GoError × World)
    (hout : Reporter.processResult env (app.reporter env outputDir) result w = out) :
    ∃ order : List String,
      order.Perm (result.Devices.map (fun d => d.UnitGUID)).dedup ∧
      ((out.1 = none ∧
        out.2.trace = w.trace ++ order.map (fun g =>
          Event.GenerateReport (filepath.Join outputDir (g ++ ".pdf")) g result.Filename
            (result.Devices.filter (fun d => d.UnitGUID = g)) none)) ∨
       (∃ pre g post err, order = pre ++ g :: post ∧
        out.1 = some ("guid " ++ g ++ ": " ++ err) ∧
        out.2.trace = w.trace ++ pre.map (fun g =>
          Event.GenerateReport (filepath.Join outputDir (g ++ ".pdf")) g result.Filename
            (result.Devices.filter (fun d => d.UnitGUID = g)) none) ++
          [Event.GenerateReport (filepath.Join outputDir (g ++ ".pdf")) g result.Filename
            (result.Devices.filter (fun d => d.UnitGUID = g)) (some err)])) := by
  subst hout
  have hkeys := Reporter.processResult.group_keys_perm result.Devices
  have horder := (hrange w.trace
    ((Reporter.processResult.group result.Devices []).map Prod.fst)).trans hkeys
  have hcases := (Reporter.processResult.loop_cases env outputDir result
    (Reporter.processResult.group result.Devices [])
    (env.rangeOrder w.trace ((Reporter.processResult.group result.Devices []).map Prod.fst))
    w).2
  simp only [Reporter.processResult.group_get, DeviceMap.get, List.nil_append] at hcases
  exact ⟨_, horder, hcases⟩

/-- Witness for C15 (amended): with `range` visiting `U1` first and the
generator failing for `U1`, the error names `U1` and one call was made. -/
theorem Reporter.processResult_fail_fast_witness :
    ∃ order : List String,
      order.Perm (sample.resultTwoUnits.Devices.map (fun d => d.UnitGUID)).dedup ∧
      (((Reporter.processResult sample.envGenFails (app.reporter sample.envGenFails "out")
          sample.resultTwoUnits sample.world).1 = none ∧
        (Reporter.processResult sample.envGenFails (app.reporter sample.envGenFails "out")
          sample.resultTwoUnits sample.world).2.trace =
          sample.world.trace ++ order.map (fun g =>
            Event.GenerateReport (filepath.Join "out" (g ++ ".pdf")) g
              sample.resultTwoUnits.Filename
              (sample.resultTwoUnits.Devices.filter (fun d => d.UnitGUID = g)) none)) ∨
       (∃ pre g post err, order = pre ++ g :: post ∧
        (Reporter.processResult sample.envGenFails (app.reporter sample.envGenFails "out")
          sample.resultTwoUnits sample.world).1 = some ("guid " ++ g ++ ": " ++ err) ∧
        (Reporter.processResult sample.envGenFails (app.reporter sample.envGenFails "out")
          sample.resultTwoUnits sample.world).2.trace =
          sample.world.trace ++ pre.map (fun g =>
            Event.GenerateReport (filepath.Join "out" (g ++ ".pdf")) g
              sample.resultTwoUnits.Filename
              (sample.resultTwoUnits.Devices.filter (fun d => d.UnitGUID = g)) none) ++
            [Event.GenerateReport (filepath.Join "out" (g ++ ".pdf")) g
              sample.resultTwoUnits.Filename
              (sample.resultTwoUnits.Devices.filter (fun d => d.UnitGUID = g))
              (some err)])) :=
  Reporter.processResult_fail_fast sample.envGenFails "out" sample.world sample.resultTwoUnits
    (fun _ keys => List.reverse_perm keys) _ rfl

end pipeline

/-! ## Failed files and failed transactions -/

namespace pipeline
open domain postgresql

/-- C16 (the code at the failing input): the only file of the watch directory
has one valid row and then a row that does not decode.  In a complete run the
parse fails, the writer marks the file `error` and forwards the outcome, and
the reporter still calls the generator, for the device of the first row. -/
theorem Reporter.generates_for_failed_file :
    (sentParseResults ((app.runOnce.parsed sample.envBrokenFile "watch" sample.world).since
      (app.runOnce.scanned sample.envBrokenFile "watch" sample.world))).map
        (fun r => r.Error) =
      [some "failed to decode device record: wrong number of fields"] ∧
    recordedStatus (app.runOnce sample.envBrokenFile "watch" "out" sample.world).db.files
      "d.tsv" = some "error" ∧
    generateCalls ((app.runOnce sample.envBrokenFile "watch" "out" sample.world).since
      sample.world) =
      [Event.GenerateReport "out/01749246-95f6-57db-b7c3-2ae0e8be671f.pdf"
        "01749246-95f6-57db-b7c3-2ae0e8be671f" "watch/d.tsv" [sample.device1] none] := by
  decide

theorem poolUpserts_append (a b : List Event) :
    poolUpserts (a ++ b) = poolUpserts a ++ poolUpserts b := by
  induction a with
  | nil => rfl
  | cons e a ih =>
      cases e with
      | UpdateOrCreateFile inTx f err => cases inTx <;> simp [poolUpserts, ih]
      | _ => simp [poolUpserts, ih]

end pipeline

namespace app
open domain pipeline postgresql

/-- Scan cycles in a row leave a name that is recorded with a status other than
`pending` exactly as it is: it is not sent, not upserted, and its status does
not change. -/
theorem runSteps_scans_keep (env : Env) (watchDir : String) (name : String)
    (hname : filepath.isEntryName name = true)
    (hlisting : ∀ trace dir entries, env.readDir trace dir = Except.ok entries →
      ∀ e ∈ entries, filepath.isEntryName e.Name = true)
    (status : Status) (hstatus : status ≠ StatusPending) (cycles : Nat) (w : World)
    (hrec : recordedStatus w.db.files name = some status) :
    ∃ delta,
      (runSteps env watchDir (List.replicate cycles Step.scan) w).trace = w.trace ++ delta ∧
      filepath.Join watchDir name ∉ sentFiles delta ∧
      (∀ f ∈ upserts delta, f.Name ≠ name) ∧
      recordedStatus (runSteps env watchDir (List.replicate cycles Step.scan) w).db.files name =
        some status := by
  induction cycles generalizing w with
  | zero => exact ⟨[], by simp [runSteps], by simp [sentFiles], by simp [upserts], hrec⟩
  | succ n ih =>
      obtain ⟨d1, htr1, hsend1, hups1, hrec1⟩ :=
        Scanner.scanFiles_gate env watchDir name hname hlisting w status hrec hstatus
      obtain ⟨d2, htr2, hsend2, hups2, hrec2⟩ := ih _ hrec1
      refine ⟨d1 ++ d2, ?_, ?_, ?_, hrec2⟩
      · simp only [List.replicate_succ, runSteps, runStep]
        rw [htr2, htr1, List.append_assoc]
      · simp [sentFiles_append, hsend1, hsend2]
      · intro f hf
        rw [upserts_append, List.mem_append] at hf
        rcases hf with hf | hf
        · exact hups1 f hf
        · exact hups2 f hf

end app

namespace pipeline
open domain postgresql

/-- C17: when the save-and-mark-done transaction fails for an outcome, the
writer makes no upsert outside that transaction and the committed tables are
what they were; so a file recorded as `processing` is still recorded as
`processing`, and through any number of later scan cycles it is not sent on
`files` again and stays `processing`. -/
theorem Writer.failed_transaction_keeps_processing (env : Env) (watchDir : String)
    (name : String) (hname : filepath.isEntryName name = true)
    (hlisting : ∀ trace dir entries, env.readDir trace dir = Except.ok entries →
      ∀ e ∈ entries, filepath.isEntryName e.Name = true)
    (w : World) (result : ParseResult) (hnil : result.Error = none)
    (out : Option GoError × World)
    (hout : Writer.processParseResult env (app.writer env) Ctx.background result w = out)
    (hfail : out.1 ≠ none) (cycles : Nat) :
    poolUpserts (out.2.since w) = [] ∧
    out.2.db = w.db ∧
    (recordedStatus w.db.files name = some StatusProcessing →
      recordedStatus out.2.db.files name = some StatusProcessing ∧
      recordedStatus (app.runSteps env watchDir (List.replicate cycles app.Step.scan)
        out.2).db.files name = some StatusProcessing ∧
      filepath.Join watchDir name ∉ sentFiles
        ((app.runSteps env watchDir (List.replicate cycles app.Step.scan) out.2).since
          out.2)) := by
  subst hout
  have hcases := Writer.saveResult_cases env Ctx.background w result
  simp only [Writer.processParseResult, hnil] at hfail ⊢
  generalize Writer.saveResult env (app.writer env) Ctx.background result w = s
    at hcases hfail
  obtain ⟨r, w1⟩ := s
  have hmain : poolUpserts (World.since w1 w) = [] ∧ w1.db = w.db := by
    rcases hcases with ⟨_, hr, htr, hdb⟩ | ⟨_, hr, htr, hdb⟩ | ⟨_, _, hr, htr, hdb⟩ |
      ⟨_, _, hr, htr, hdb⟩ | ⟨_, hr, htr, hdb, -⟩
    · exact ⟨by rw [World.since_of_trace _ _ _ htr]; rfl, hdb⟩
    · exact ⟨by rw [World.since_of_trace _ _ _ htr]; rfl, hdb⟩
    · exact ⟨by rw [World.since_of_trace _ _ _ htr]; rfl, hdb⟩
    · exact ⟨by rw [World.since_of_trace _ _ _ htr]; rfl, hdb⟩
    · simp only at hr
      subst hr
      simp at hfail
  cases r with
  | none => simp at hfail
  | some e =>
      simp only at hmain ⊢
      refine ⟨hmain.1, hmain.2, fun hrec => ?_⟩
      have hrec1 : recordedStatus w1.db.files name = some StatusProcessing := by
        rw [hmain.2]; exact hrec
      obtain ⟨d, htr, hsend, -, hkeep⟩ := app.runSteps_scans_keep env watchDir name hname
        hlisting StatusProcessing (by decide) cycles w1 hrec1
      refine ⟨hrec1, hkeep, ?_⟩
      rw [World.since_of_trace _ _ d htr]
      exact hsend

/-- Witness for C17: `a.tsv` is recorded as `processing` and every commit
fails; the outcome of `a.tsv` is not persisted, and after two more scan cycles
the file is still `processing` and has not been sent again. -/
theorem Writer.failed_transaction_keeps_processing_witness :
    (Writer.processParseResult sample.envCommitFails (app.writer sample.envCommitFails)
      Ctx.background sample.resultOk sample.worldClaimed).1 ≠ none ∧
    recordedStatus (app.runSteps sample.envCommitFails "watch"
      (List.replicate 2 app.Step.scan)
      (Writer.processParseResult sample.envCommitFails (app.writer sample.envCommitFails)
        Ctx.background sample.resultOk sample.worldClaimed).2).db.files "a.tsv" =
      some "processing" := by
  have hlisting : ∀ trace dir entries,
      sample.envCommitFails.readDir trace dir = Except.ok entries →
      ∀ e ∈ entries, filepath.isEntryName e.Name = true := by
    intro trace dir entries h
    simp only [sample.envCommitFails, sample.env, Except.ok.injEq] at h
    subst h
    decide
  have hfail : (Writer.processParseResult sample.envCommitFails
      (app.writer sample.envCommitFails) Ctx.background sample.resultOk
      sample.worldClaimed).1 ≠ none := by decide
  exact ⟨hfail, ((Writer.failed_transaction_keeps_processing sample.envCommitFails "watch"
    "a.tsv" (by decide) hlisting sample.worldClaimed sample.resultOk rfl _ rfl hfail 2).2.2
    (by decide)).2.1⟩

end pipeline

namespace pipeline
open domain postgresql

/-- C18 (as stated, refuted): for the outcome of a file without data rows, with
no error, the writer does enter `WithTransaction` and does call `SaveDevices`,
with no devices. -/
theorem Writer.processParseResult_empty_runs_transaction :
    sample.resultEmpty.Devices = [] ∧ sample.resultEmpty.Error = none ∧
    (Writer.processParseResult sample.env (app.writer sample.env) Ctx.background
      sample.resultEmpty sample.world).2.trace =
      [Event.WithTransaction, Event.Begin none, Event.SaveDevices true [] none,
        Event.UpdateOrCreateFile true
          { Name := "b.tsv", Status := "done", ErrorMessage := "", ProcessedAt := some 3 } none,
        Event.Commit none, Event.Rollback] := by
  decide

/-- C18 (amended): for an outcome with zero devices and no error the writer
runs the same single transaction as for any successful outcome: it always
enters `WithTransaction`, and when it returns nil it has called `SaveDevices`
once, inside the transaction, with no devices, has upserted the file as `done`
and committed; no device row is added and the file is recorded as `done`. -/
theorem Writer.processParseResult_empty (env : Env) (w : World) (result : ParseResult)
    (hnil : result.Error = none) (hempty : result.Devices = [])
    (out : Option GoError × World)
    (hout : Writer.processParseResult env (app.writer env) Ctx.background result w = out) :
    (∃ rest, out.2.trace = w.trace ++ Event.WithTransaction :: rest) ∧
    (out.1 = none → ∃ now,
      out.2.trace = w.trace ++
        [Event.WithTransaction, Event.Begin none, Event.SaveDevices true [] none,
          Event.UpdateOrCreateFile true
            { Name := filepath.Base result.Filename, Status := StatusDone, ErrorMessage := "",
              ProcessedAt := some now } none,
          Event.Commit none, Event.Rollback] ∧
      out.2.db.devices = w.db.devices ∧
      out.2.db.files =
        upsertRow { Name := filepath.Base result.Filename, Status := StatusDone,
                    ErrorMessage := "", ProcessedAt := some now } w.db.files) := by
  subst hout
  have hcases := Writer.saveResult_cases env Ctx.background w result
  simp only [Writer.processParseResult, hnil]
  generalize Writer.saveResult env (app.writer env) Ctx.background result w = s at hcases
  obtain ⟨r, w1⟩ := s
  simp only [doneFile, hempty] at hcases
  rcases hcases with ⟨_, hr, htr, -⟩ | ⟨_, hr, htr, -⟩ | ⟨_, _, hr, htr, -⟩ |
    ⟨_, _, hr, htr, -⟩ | ⟨now, hr, htr, hdb, -⟩
  · subst hr
    exact ⟨⟨_, htr⟩, by simp⟩
  · subst hr
    exact ⟨⟨_, htr⟩, by simp⟩
  · subst hr
    exact ⟨⟨_, htr⟩, by simp⟩
  · subst hr
    exact ⟨⟨_, htr⟩, by simp⟩
  · subst hr
    refine ⟨⟨_, htr⟩, fun _ => ⟨now, htr, ?_, ?_⟩⟩
    · simp [hdb]
    · simp [hdb]

/-- Witness for C18 (amended): the outcome of the file without data rows is
persisted; the table of devices stays empty and `b.tsv` is recorded as done. -/
theorem Writer.processParseResult_empty_witness :
    (Writer.processParseResult sample.env (app.writer sample.env) Ctx.background
      sample.resultEmpty sample.world).2.db.devices = [] ∧
    recordedStatus (Writer.processParseResult sample.env (app.writer sample.env)
      Ctx.background sample.resultEmpty sample.world).2.db.files "b.tsv" = some "done" := by
  obtain ⟨now, -, hdev, hfiles⟩ := (Writer.processParseResult_empty sample.env sample.world
    sample.resultEmpty rfl rfl _ rfl).2 (by decide)
  have hbase : filepath.Base sample.resultEmpty.Filename = "b.tsv" := by decide
  rw [hbase] at hfiles
  refine ⟨hdev, ?_⟩
  rw [hfiles]
  rfl

end pipeline

/-! ## A failed upsert in a scan cycle -/

namespace pipeline
open domain postgresql

theorem Scanner.scanFiles.loop_append (s : Scanner) (ctx : Ctx) (filesMap : StatusMap)
    (pre post : List DirEntry) (w : World) :
    Scanner.scanFiles.loop s ctx filesMap (pre ++ post) w =
      Scanner.scanFiles.loop s ctx filesMap post (Scanner.scanFiles.loop s ctx filesMap pre w) := by
  induction pre generalizing w with
  | nil => rfl
  | cons e es ih =>
      rw [List.cons_append, Scanner.scanFiles.loop, Scanner.scanFiles.loop, ih]

theorem claimEvents_length (watchDir : String) (files : List File) (entries : List DirEntry) :
    (claimEvents watchDir files entries).length =
      2 * (entries.filter (claimable files)).length := by
  unfold claimEvents
  induction entries.filter (claimable files) with
  | nil => rfl
  | cons e es ih =>
      rw [List.flatMap_cons, List.length_append, ih]
      simp only [List.length_cons, List.length_nil]
      omega

theorem claimEvents_cons (watchDir : String) (files : List File) (e : DirEntry)
    (es : List DirEntry) :
    claimEvents watchDir files (e :: es) =
      (if claimable files e = true then
        [Event.UpdateOrCreateFile false (processingFile e) none,
          Event.SendFile (filepath.Join watchDir e.Name)]
      else []) ++ claimEvents watchDir files es := by
  unfold claimEvents
  by_cases hc : claimable files e = true
  · simp [List.filter_cons, hc]
  · simp [List.filter_cons, hc]

/-- The loop of a scan cycle when `db.Exec` succeeds at every trace the loop
can reach: the events are those of the claimable entries. -/
theorem Scanner.scanFiles.loop_ok_within (env : Env) (watchDir : String) (files : List File)
    (entries : List DirEntry) (w : World)
    (hok : ∀ trace : List Event, w.trace.length ≤ trace.length →
      trace.length < w.trace.length + 2 * (entries.filter (claimable files)).length →
      env.pgExec trace = none) :
    (Scanner.scanFiles.loop (app.scanner env watchDir) Ctx.background
        (Scanner.extractFilesFromDB.loop files) entries w).trace =
      w.trace ++ claimEvents watchDir files entries := by
  induction entries generalizing w with
  | nil => simp [Scanner.scanFiles.loop, claimEvents]
  | cons e es ih =>
      rw [Scanner.scanFiles.loop, Scanner.processEntry_eq, claimEvents_cons]
      by_cases hc : claimable files e = true
      · have hexec : env.pgExec w.trace = none :=
          hok w.trace (Nat.le_refl _) (by simp [List.filter_cons, hc])
        simp only [hc, if_true, hexec]
        rw [ih]
        · simp
        · intro trace h1 h2
          apply hok trace
          · simp only [List.length_append, List.length_cons, List.length_nil] at h1
            omega
          · simp only [List.length_append, List.length_cons, List.length_nil] at h2
            simp only [List.filter_cons, hc, if_true, List.length_cons]
            omega
      · simp only [hc]
        rw [ih]
        · simp
        · intro trace h1 h2
          apply hok trace h1
          simpa [List.filter_cons, hc] using h2

/-- A scan cycle in which fetch and listing succeed and `db.Exec` fails at
exactly one trace, the one at which the claimable entry `failing` is upserted:
the cycle returns nil; the entries before and after `failing` leave the events
they leave when no upsert fails; for `failing` there is the failed upsert and
no send. -/
theorem Scanner.scanFiles_one_failure (env : Env) (watchDir : String) (w : World)
    (pre : List DirEntry) (failing : DirEntry) (post : List DirEntry) (err : GoError)
    (hfetch : env.pgQuery w.trace = none)
    (hdir : env.readDir (w.trace ++ [Event.Files false none]) watchDir =
      Except.ok (pre ++ failing :: post))
    (hclaim : claimable w.db.files failing = true)
    (hfail : env.pgExec (w.trace ++ [Event.Files false none, Event.ReadDir watchDir none] ++
      claimEvents watchDir w.db.files pre) = some err)
    (hok : ∀ trace, trace ≠ w.trace ++ [Event.Files false none, Event.ReadDir watchDir none] ++
      claimEvents watchDir w.db.files pre → env.pgExec trace = none) :
    (Scanner.scanFiles env (app.scanner env watchDir) Ctx.background w).1 = none ∧
    (Scanner.scanFiles env (app.scanner env watchDir) Ctx.background w).2.trace =
      w.trace ++ [Event.Files false none, Event.ReadDir watchDir none] ++
        claimEvents watchDir w.db.files pre ++
        [Event.UpdateOrCreateFile false (processingFile failing)
          (some (executeQueryError err))] ++
        claimEvents watchDir w.db.files post := by
  rw [Scanner.scanFiles_eq]
  simp only [hfetch, hdir]
  refine ⟨trivial, ?_⟩
  rw [Scanner.scanFiles.loop_append]
  have hpre := Scanner.scanFiles.loop_ok_within env watchDir w.db.files pre
    ((w.log (Event.Files false none)).log (Event.ReadDir watchDir none))
    (by
      intro trace h1 h2
      apply hok
      intro heq
      rw [heq] at h2
      simp only [World.log_trace, List.length_append, List.length_cons, List.length_nil,
        claimEvents_length] at h2
      omega)
  generalize Scanner.scanFiles.loop (app.scanner env watchDir) Ctx.background
    (Scanner.extractFilesFromDB.loop w.db.files) pre
    ((w.log (Event.Files false none)).log (Event.ReadDir watchDir none)) = w1 at hpre
  have htr1 : w1.trace = w.trace ++ [Event.Files false none, Event.ReadDir watchDir none] ++
      claimEvents watchDir w.db.files pre := by
    rw [hpre]; simp
  rw [Scanner.scanFiles.loop, Scanner.processEntry_eq]
  simp only [hclaim, if_true, htr1, hfail]
  rw [Scanner.scanFiles.loop_ok_within env watchDir w.db.files post]
  · simp [htr1]
  · intro trace h1 _
    apply hok
    intro heq
    rw [heq] at h1
    simp only [World.log_trace, htr1, List.length_append, List.length_cons, List.length_nil]
      at h1
    omega

end pipeline

namespace pipeline
open domain postgresql

theorem claimEvents_append (watchDir : String) (files : List File) (a b : List DirEntry) :
    claimEvents watchDir files (a ++ b) =
      claimEvents watchDir files a ++ claimEvents watchDir files b := by
  simp [claimEvents, List.filter_append, List.flatMap_append]

theorem sentFiles_claimEvents (watchDir : String) (files : List File)
    (entries : List DirEntry) :
    sentFiles (claimEvents watchDir files entries) =
      (entries.filter (claimable files)).map (fun e => filepath.Join watchDir e.Name) :=
  sentFiles_claims watchDir (entries.filter (claimable files))

/-- C20: in a scan cycle in which fetch and listing succeed, let the status
upsert fail for one claimable entry and for no other.  Then `scanFiles` returns
nil; no path is sent for that entry; and the events of every entry before and
after it are the events of the cycle in which no upsert fails, where that entry
is upserted and sent like the others. -/
theorem Scanner.scanFiles_upsert_failure_not_fatal (env : Env) (watchDir : String)
    (w : World) (pre : List DirEntry) (failing : DirEntry) (post : List DirEntry)
    (err : GoError)
    (hfetch : env.pgQuery w.trace = none)
    (hdir : env.readDir (w.trace ++ [Event.Files false none]) watchDir =
      Except.ok (pre ++ failing :: post))
    (hclaim : claimable w.db.files failing = true)
    (hupsert : ∀ trace, env.pgExec trace = none)
    (env' : Env)
    (henv : env' = failExecAt env
      (w.trace ++ [Event.Files false none, Event.ReadDir watchDir none] ++
        claimEvents watchDir w.db.files pre) err)
    (out : Option GoError × World)
    (hout : Scanner.scanFiles env' (app.scanner env' watchDir) Ctx.background w = out) :
    out.1 = none ∧
    out.2.trace =
      w.trace ++ [Event.Files false none, Event.ReadDir watchDir none] ++
        claimEvents watchDir w.db.files pre ++
        [Event.UpdateOrCreateFile false (processingFile failing)
          (some (executeQueryError err))] ++
        claimEvents watchDir w.db.files post ∧
    (Scanner.scanFiles env (app.scanner env watchDir) Ctx.background w).2.trace =
      w.trace ++ [Event.Files false none, Event.ReadDir watchDir none] ++
        claimEvents watchDir w.db.files pre ++
        [Event.UpdateOrCreateFile false (processingFile failing) none,
          Event.SendFile (filepath.Join watchDir failing.Name)] ++
        claimEvents watchDir w.db.files post ∧
    sentFiles (out.2.since w) =
      ((pre ++ post).filter (claimable w.db.files)).map
        (fun e => filepath.Join watchDir e.Name) := by
  subst hout
  subst henv
  obtain ⟨hres, htr⟩ := Scanner.scanFiles_one_failure
    (failExecAt env (w.trace ++ [Event.Files false none, Event.ReadDir watchDir none] ++
      claimEvents watchDir w.db.files pre) err) watchDir w pre failing post err
    hfetch hdir hclaim (by simp [failExecAt])
    (by
      intro trace hne
      simp only [failExecAt, hupsert]
      rw [if_neg hne])
  refine ⟨hres, htr, ?_, ?_⟩
  · rw [Scanner.scanFiles_eq]
    simp only [hfetch, hdir]
    have hloop := Scanner.scanFiles.loop_all_ok env watchDir w.db.files hupsert
      (pre ++ failing :: post)
      ((w.log (Event.Files false none)).log (Event.ReadDir watchDir none))
    have hev : claimEvents watchDir w.db.files (pre ++ failing :: post) =
        claimEvents watchDir w.db.files pre ++
          [Event.UpdateOrCreateFile false (processingFile failing) none,
            Event.SendFile (filepath.Join watchDir failing.Name)] ++
          claimEvents watchDir w.db.files post := by
      rw [claimEvents_append, claimEvents_cons]
      simp [hclaim]
    unfold claimEvents at hev
    rw [hloop, hev]
    simp [claimEvents]
  · rw [World.since_of_trace _ w
      ([Event.Files false none, Event.ReadDir watchDir none] ++
        claimEvents watchDir w.db.files pre ++
        [Event.UpdateOrCreateFile false (processingFile failing)
          (some (executeQueryError err))] ++
        claimEvents watchDir w.db.files post)
      (by rw [htr]; simp only [List.append_assoc])]
    simp only [sentFiles_append, sentFiles_claimEvents, List.filter_append, List.map_append]
    simp [sentFiles]

/-- Witness for C20: in the directory `a.tsv`, `b.tsv`, `c.tsv`, `old/` over an
empty table the upsert for `b.tsv` fails; the cycle returns nil and sends
`a.tsv` and `c.tsv`. -/
theorem Scanner.scanFiles_upsert_failure_not_fatal_witness :
    (Scanner.scanFiles
      (failExecAt sample.env
        ([Event.Files false none, Event.ReadDir "watch" none] ++
          claimEvents "watch" [] [⟨"a.tsv", false⟩]) "connection lost")
      (app.scanner (failExecAt sample.env
        ([Event.Files false none, Event.ReadDir "watch" none] ++
          claimEvents "watch" [] [⟨"a.tsv", false⟩]) "connection lost") "watch")
      Ctx.background sample.world).1 = none ∧
    sentFiles ((Scanner.scanFiles
      (failExecAt sample.env
        ([Event.Files false none, Event.ReadDir "watch" none] ++
          claimEvents "watch" [] [⟨"a.tsv", false⟩]) "connection lost")
      (app.scanner (failExecAt sample.env
        ([Event.Files false none, Event.ReadDir "watch" none] ++
          claimEvents "watch" [] [⟨"a.tsv", false⟩]) "connection lost") "watch")
      Ctx.background sample.world).2.since sample.world) =
      ["watch/a.tsv", "watch/c.tsv"] :=
  have h := Scanner.scanFiles_upsert_failure_not_fatal sample.env "watch" sample.world
    [⟨"a.tsv", false⟩] ⟨"b.tsv", false⟩ [⟨"c.tsv", false⟩, ⟨"old", true⟩] "connection lost"
    rfl rfl (by decide) (fun _ => rfl) _ rfl _ rfl
  ⟨h.1, h.2.2.2.trans (by decide)⟩

end pipeline

/-! ## A complete sequential run -/

namespace pipeline
open domain postgresql

/-- The loop of a scan cycle keeps the names of the table distinct. -/
theorem Scanner.scanFiles.loop_nodup (env : Env) (watchDir : String) (files : List File)
    (entries : List DirEntry) (w : World)
    (hnodup : (w.db.files.map (fun f => f.Name)).Nodup) :
    ((Scanner.scanFiles.loop (app.scanner env watchDir) Ctx.background
      (Scanner.extractFilesFromDB.loop files) entries w).db.files.map
        (fun f => f.Name)).Nodup := by
  induction entries generalizing w with
  | nil => exact hnodup
  | cons e es ih =>
      rw [Scanner.scanFiles.loop, Scanner.processEntry_eq]
      by_cases hc : claimable files e = true
      · simp only [hc, if_true]
        cases env.pgExec w.trace with
        | some err => exact ih _ hnodup
        | none => exact ih _ (upsertRow_nodup (processingFile e) w.db.files hnodup)
      · simp only [hc]
        exact ih w hnodup

/-- A scan cycle keeps the names of the table distinct. -/
theorem Scanner.scanFiles_nodup (env : Env) (watchDir : String) (w : World)
    (hnodup : (w.db.files.map (fun f => f.Name)).Nodup) :
    ((Scanner.scanFiles env (app.scanner env watchDir) Ctx.background w).2.db.files.map
      (fun f => f.Name)).Nodup := by
  rw [Scanner.scanFiles_eq]
  cases env.pgQuery w.trace with
  | some fault => exact hnodup
  | none =>
      simp only []
      cases env.readDir (w.trace ++ [Event.Files false none]) watchDir with
      | error err => exact hnodup
      | ok entries => exact Scanner.scanFiles.loop_nodup env watchDir w.db.files entries _ hnodup

/-- A scan cycle in which nothing fails sends the paths of the claimable
entries. -/
theorem Scanner.scanFiles_sent_ok (env : Env) (watchDir : String) (w : World)
    (entries : List DirEntry)
    (hfetch : env.pgQuery w.trace = none)
    (hdir : env.readDir (w.trace ++ [Event.Files false none]) watchDir = Except.ok entries)
    (hupsert : ∀ trace, env.pgExec trace = none) :
    sentFiles ((Scanner.scanFiles env (app.scanner env watchDir) Ctx.background w).2.since w) =
      (entries.filter (claimable w.db.files)).map (fun e => filepath.Join watchDir e.Name) := by
  rw [Scanner.scanFiles_eq]
  simp only [hfetch, hdir]
  have hloop := Scanner.scanFiles.loop_all_ok env watchDir w.db.files hupsert entries
    ((w.log (Event.Files false none)).log (Event.ReadDir watchDir none))
  rw [World.since_of_trace _ w
    ([Event.Files false none, Event.ReadDir watchDir none] ++
      claimEvents watchDir w.db.files entries) (by rw [hloop]; simp [claimEvents])]
  rw [sentFiles_append, sentFiles_claimEvents]
  rfl

/-- The parser, run over paths until its input is closed, leaves the database
alone and sends one outcome per path, with the path as `Filename`. -/
theorem Parser.Run_frame (env : Env) (paths : List String) (w : World) :
    (Parser.Run env Ctx.background (paths.map Select.recv ++ [Select.closed]) w).2.db = w.db ∧
    (sentParseResults ((Parser.Run env Ctx.background
      (paths.map Select.recv ++ [Select.closed]) w).2.since w)).map (fun r => r.Filename) =
      paths := by
  obtain ⟨hret, hdb, delta, htr, hs, -⟩ := Parser.Run.loop_sends env Ctx.background paths w
  simp only [Parser.Run]
  generalize Parser.Run.loop env Ctx.background (paths.map Select.recv ++ [Select.closed]) w = l
    at hret hdb htr
  obtain ⟨r, w1⟩ := l
  simp only at hret hdb htr
  subst hret
  refine ⟨hdb, ?_⟩
  rw [World.since_of_trace _ w (delta ++ [Event.CloseParseResults]) (by simp [htr])]
  rw [sentParseResults_append, List.map_append, hs]
  simp [sentParseResults]

end pipeline

namespace pipeline
open domain postgresql

/-- When no call to the store fails, the persistence step of the writer returns
nil and its only effect on the table of files is the upsert of the file named
by the base name of `Filename`, with status `done` or `error`. -/
theorem Writer.processParseResult_ok (env : Env) (hstore : env.storeNeverFails)
    (result : ParseResult) (w : World) :
    (Writer.processParseResult env (app.writer env) Ctx.background result w).1 = none ∧
    ∃ file : File, file.Name = filepath.Base result.Filename ∧
      (file.Status = StatusDone ∨ file.Status = StatusError) ∧
      (Writer.processParseResult env (app.writer env) Ctx.background result w).2.db.files =
        upsertRow file w.db.files := by
  obtain ⟨-, hexec, hbegin, hcommit, hcopy⟩ := hstore
  cases herr : result.Error with
  | none =>
      have hcases := Writer.saveResult_cases env Ctx.background w result
      have hsave : (Writer.saveResult env (app.writer env) Ctx.background result w).1 = none := by
        simp [Writer.saveResult, app.writer, TxManager.WithTransaction, Begin, hbegin,
          Writer.saveResult.func1, DevicesRepository.SaveDevices, extractDB, DBTX.read, hcopy,
          FilesRepository.UpdateOrCreateFile, hexec, DBTX.write, World.log, Commit, hcommit,
          Rollback]
      simp only [Writer.processParseResult, herr]
      generalize Writer.saveResult env (app.writer env) Ctx.background result w = s
        at hcases hsave
      obtain ⟨r, w1⟩ := s
      simp only at hsave
      subst hsave
      rcases hcases with ⟨_, hr, -⟩ | ⟨_, hr, -⟩ | ⟨_, _, hr, -⟩ | ⟨_, _, hr, -⟩ |
        ⟨now, -, -, hdb, -⟩
      · simp at hr
      · simp at hr
      · simp at hr
      · simp at hr
      · refine ⟨rfl, doneFile result now, rfl, Or.inl rfl, ?_⟩
        simp only at hdb
        rw [hdb]
  | some resultError =>
      have hcall : ∀ file, FilesRepository.UpdateOrCreateFile env ⟨false⟩ file w =
          (none, { db := { files := upsertRow file w.db.files, devices := w.db.devices },
                   tx := w.tx,
                   trace := w.trace ++ [Event.UpdateOrCreateFile false file none] }) := by
        intro file
        simp [FilesRepository.UpdateOrCreateFile, extractDB, DBTX.read, hexec, DBTX.write,
          World.log]
      simp only [Writer.processParseResult, herr, app.writer, Ctx.background, hcall]
      exact ⟨trivial, _, rfl, Or.inr rfl, rfl⟩

/-- An upsert with status `done` or `error` into a table with distinct names
leaves the upserted name, and every name that was `done` or `error`, recorded
as `done` or `error`. -/
theorem recordedStatus_upsert_final (file : File) (files : List File)
    (hnodup : (files.map (fun f => f.Name)).Nodup)
    (hfile : file.Status = StatusDone ∨ file.Status = StatusError) (name : String)
    (hname : file.Name = name ∨ recordedStatus files name = some StatusDone ∨
      recordedStatus files name = some StatusError) :
    recordedStatus (upsertRow file files) name = some StatusDone ∨
    recordedStatus (upsertRow file files) name = some StatusError := by
  by_cases h : file.Name = name
  · have := recordedStatus_upsertRow_self file files hnodup
    rw [h] at this
    rw [this]
    rcases hfile with hf | hf
    · exact Or.inl (by rw [hf])
    · exact Or.inr (by rw [hf])
  · rw [recordedStatus_upsertRow_ne file files name h]
    rcases hname with h' | h'
    · exact absurd h' h
    · exact h'

/-- When no call to the store fails, the writer, run over outcomes until its
input is closed on a table with distinct names, leaves the file of every
outcome recorded as `done` or `error`, keeps every such record, and keeps the
names distinct. -/
theorem Writer.Run.loop_final (env : Env) (hstore : env.storeNeverFails)
    (results : List ParseResult) (w : World)
    (hnodup : (w.db.files.map (fun f => f.Name)).Nodup) :
    ((Writer.Run.loop env (app.writer env) Ctx.background
      (results.map Select.recv ++ [Select.closed]) w).2.db.files.map
        (fun f => f.Name)).Nodup ∧
    ∀ name, ((∃ r ∈ results, filepath.Base r.Filename = name) ∨
        recordedStatus w.db.files name = some StatusDone ∨
        recordedStatus w.db.files name = some StatusError) →
      recordedStatus (Writer.Run.loop env (app.writer env) Ctx.background
        (results.map Select.recv ++ [Select.closed]) w).2.db.files name = some StatusDone ∨
      recordedStatus (Writer.Run.loop env (app.writer env) Ctx.background
        (results.map Select.recv ++ [Select.closed]) w).2.db.files name = some StatusError := by
  induction results generalizing w with
  | nil =>
      refine ⟨hnodup, fun name h => ?_⟩
      rcases h with ⟨r, hr, -⟩ | h
      · exact absurd hr (by simp)
      · exact h
  | cons r rs ih =>
      obtain ⟨hres, file, hfname, hfstatus, hfiles⟩ :=
        Writer.processParseResult_ok env hstore r w
      rw [List.map_cons, List.cons_append, Writer.Run.loop_recv]
      generalize Writer.processParseResult env (app.writer env) Ctx.background r w = step
        at hres hfiles
      obtain ⟨e, w1⟩ := step
      simp only at hres hfiles
      subst hres
      simp only []
      have hnodup1 : ((w1.log (Event.SendReport r)).db.files.map (fun f => f.Name)).Nodup := by
        show (w1.db.files.map (fun f => f.Name)).Nodup
        rw [hfiles]
        exact upsertRow_nodup file w.db.files hnodup
      obtain ⟨hnd, hfinal⟩ := ih (w1.log (Event.SendReport r)) hnodup1
      refine ⟨hnd, fun name h => hfinal name ?_⟩
      have hstep : (filepath.Base r.Filename = name ∨
          recordedStatus w.db.files name = some StatusDone ∨
          recordedStatus w.db.files name = some StatusError) →
          recordedStatus (w1.log (Event.SendReport r)).db.files name = some StatusDone ∨
          recordedStatus (w1.log (Event.SendReport r)).db.files name = some StatusError := by
        intro h'
        show recordedStatus w1.db.files name = _ ∨ recordedStatus w1.db.files name = _
        rw [hfiles]
        apply recordedStatus_upsert_final file w.db.files hnodup hfstatus name
        rcases h' with h' | h'
        · exact Or.inl (hfname.trans h')
        · exact Or.inr h'
      rcases h with ⟨r', hr', hbase⟩ | h
      · rcases List.mem_cons.mp hr' with heq | hmem
        · subst heq
          exact Or.inr (hstep (Or.inl hbase))
        · exact Or.inl ⟨r', hmem, hbase⟩
      · exact Or.inr (hstep (Or.inr h))

end pipeline

namespace pipeline
open domain postgresql

/-- The reporter never touches the database. -/
theorem Reporter.Run.loop_db (env : Env) (outputDir : String)
    (schedule : List (Select ParseResult)) (w : World) :
    (Reporter.Run.loop env (app.reporter env outputDir) schedule w).2.db = w.db := by
  induction schedule generalizing w with
  | nil => rfl
  | cons s rest ih =>
      cases s with
      | closed => rfl
      | done err => rfl
      | recv result =>
          rw [Reporter.Run.loop, ih]
          exact (Reporter.processResult.loop_cases env outputDir result _ _ w).1

end pipeline

namespace app
open domain pipeline postgresql

/-- C19 (as stated, refuted): the store records faithfully but every commit
fails.  `a.tsv` is a file of the watch directory that is not recorded; after a
complete run, in which the writer handled every outcome and returned nil, it is
recorded as `processing`, neither `done` nor `error`. -/
theorem runOnce_leaves_processing :
    recordedStatus sample.world.db.files "a.tsv" = none ∧
    sample.envCommitFails.readDir [] "watch" =
      Except.ok [⟨"a.tsv", false⟩, ⟨"b.tsv", false⟩, ⟨"c.tsv", false⟩, ⟨"old", true⟩] ∧
    (Writer.Run sample.envCommitFails (writer sample.envCommitFails) Ctx.background
      ((sentParseResults ((runOnce.parsed sample.envCommitFails "watch" sample.world).since
        (runOnce.scanned sample.envCommitFails "watch" sample.world))).map Select.recv ++
        [Select.closed])
      (runOnce.parsed sample.envCommitFails "watch" sample.world)).1 =
      RunResult.returned none ∧
    recordedStatus (runOnce sample.envCommitFails "watch" "out" sample.world).db.files
      "a.tsv" = some "processing" :=
  ⟨by decide, rfl, by decide, by decide⟩

/-- C19 (amended): in a complete sequential run (one scan cycle, then the
parser, the writer and the reporter on everything sent to them) over a watch
directory whose listing succeeds and holds entry names, with a table of
distinct names and a store none of whose calls fails, every entry that is not
a directory and whose name was not recorded or was recorded as `pending` ends
recorded as `done` or `error`. -/
theorem runOnce_all_final (env : Env) (watchDir outputDir : String) (w : World)
    (entries : List DirEntry) (hstore : env.storeNeverFails)
    (hdir : env.readDir (w.trace ++ [Event.Files false none]) watchDir = Except.ok entries)
    (hnames : ∀ e ∈ entries, filepath.isEntryName e.Name = true)
    (hnodup : (w.db.files.map (fun f => f.Name)).Nodup)
    (e : DirEntry) (he : e ∈ entries) (hfile : e.IsDir = false)
    (hstatus : recordedStatus w.db.files e.Name = none ∨
      recordedStatus w.db.files e.Name = some StatusPending) :
    recordedStatus (runOnce env watchDir outputDir w).db.files e.Name = some StatusDone ∨
    recordedStatus (runOnce env watchDir outputDir w).db.files e.Name = some StatusError := by
  have hclaim : claimable w.db.files e = true := by
    rcases hstatus with h | h <;> simp [claimable, hfile, h]
  have hsent := Scanner.scanFiles_sent_ok env watchDir w entries (hstore.1 w.trace) hdir
    hstore.2.1
  have hnodup1 := Scanner.scanFiles_nodup env watchDir w hnodup
  obtain ⟨hdb2, hparsed⟩ := Parser.Run_frame env
    (sentFiles ((runOnce.scanned env watchDir w).since w)) (runOnce.scanned env watchDir w)
  have hnodup2 : ((runOnce.parsed env watchDir w).db.files.map (fun f => f.Name)).Nodup := by
    unfold runOnce.parsed
    rw [hdb2]
    exact hnodup1
  have hpath : filepath.Join watchDir e.Name ∈
      (sentParseResults ((runOnce.parsed env watchDir w).since
        (runOnce.scanned env watchDir w))).map (fun r => r.Filename) := by
    unfold runOnce.parsed
    rw [hparsed]
    unfold runOnce.scanned
    rw [hsent]
    exact List.mem_map_of_mem (fun e => filepath.Join watchDir e.Name)
      (List.mem_filter.mpr ⟨he, hclaim⟩)
  obtain ⟨r, hr, hrname⟩ := List.mem_map.mp hpath
  have hbase : filepath.Base r.Filename = e.Name := by
    rw [hrname]
    exact filepath.Base_Join_entry watchDir e.Name (hnames e he)
  have hfinal := (Writer.Run.loop_final env hstore
    (sentParseResults ((runOnce.parsed env watchDir w).since (runOnce.scanned env watchDir w)))
    (runOnce.parsed env watchDir w) hnodup2).2 e.Name (Or.inl ⟨r, hr, hbase⟩)
  have hwritten : (runOnce.written env watchDir w).db =
      (Writer.Run.loop env (writer env) Ctx.background
        ((sentParseResults ((runOnce.parsed env watchDir w).since
          (runOnce.scanned env watchDir w))).map Select.recv ++ [Select.closed])
        (runOnce.parsed env watchDir w)).2.db := by
    unfold runOnce.written
    simp only [Writer.Run]
    split <;> simp_all
  unfold runOnce
  rw [Reporter.Run, Reporter.Run.loop_db, hwritten]
  exact hfinal

/-- Witness for C19 (amended): with a healthy store, after a complete run over
an empty table, `a.tsv` is recorded as done and `c.tsv`, whose row fails
validation, as error. -/
theorem runOnce_all_final_witness :
    (recordedStatus (runOnce sample.env "watch" "out" sample.world).db.files "a.tsv" =
        some StatusDone ∨
      recordedStatus (runOnce sample.env "watch" "out" sample.world).db.files "a.tsv" =
        some StatusError) ∧
    recordedStatus (runOnce sample.env "watch" "out" sample.world).db.files "c.tsv" =
      some "error" :=
  ⟨runOnce_all_final sample.env "watch" "out" sample.world
      [⟨"a.tsv", false⟩, ⟨"b.tsv", false⟩, ⟨"c.tsv", false⟩, ⟨"old", true⟩]
      ⟨fun _ => rfl, fun _ => rfl, fun _ => rfl, fun _ => rfl, fun _ _ => rfl⟩ rfl
      (by decide) (by decide) ⟨"a.tsv", false⟩ (by decide) rfl (Or.inl (by decide)),
    by decide⟩

end app

/-! ## The `Run` loops: failed cycles, channel closure, return values -/

namespace pipeline
open domain postgresql

theorem Scanner.Run.loop_tick (env : Env) (s : Scanner) (ctx : Ctx) (rest : List Tick)
    (w : World) :
    Scanner.Run.loop env s ctx (Tick.tick :: rest) w =
      Scanner.Run.loop env s ctx rest (Scanner.scanFiles env s ctx w).2 := by
  rw [Scanner.Run.loop]

theorem Scanner.Run_tick (env : Env) (s : Scanner) (ctx : Ctx) (rest : List Tick) (w : World) :
    Scanner.Run env s ctx (Tick.tick :: rest) w =
      Scanner.Run env s ctx rest (Scanner.scanFiles env s ctx w).2 := by
  simp only [Scanner.Run, Scanner.Run.loop_tick]

/-- A scan cycle in which fetching the file records or listing the directory
fails returns an error after that one failed call and nothing else. -/
theorem Scanner.scanFiles_failed (env : Env) (watchDir : String) (w : World)
    (hfail : (∃ fault, env.pgQuery w.trace = some fault) ∨
      (∃ err, env.readDir (w.trace ++ [Event.Files false none]) watchDir = Except.error err)) :
    ∃ err delta,
      Scanner.scanFiles env (app.scanner env watchDir) Ctx.background w =
        (some err, { db := w.db, tx := w.tx, trace := w.trace ++ delta }) ∧
      upserts delta = [] ∧ sentFiles delta = [] := by
  cases hq : env.pgQuery w.trace with
  | some fault =>
      refine ⟨"failed to get files: " ++ wrapQueryFault fault,
        [Event.Files false (some (wrapQueryFault fault))], ?_, rfl, rfl⟩
      simp [Scanner.scanFiles, Scanner.extractFilesFromDB, app.scanner, FilesRepository.Files,
        extractDB, DBTX.read, Ctx.background, hq, World.log]
  | none =>
      rcases hfail with ⟨fault, hf⟩ | ⟨err, hd⟩
      · rw [hq] at hf
        cases hf
      · refine ⟨"failed to read directory \"" ++ watchDir ++ "\"",
          [Event.Files false none, Event.ReadDir watchDir (some err)], ?_, rfl, rfl⟩
        simp [Scanner.scanFiles, Scanner.extractFilesFromDB, app.scanner, FilesRepository.Files,
          extractDB, DBTX.read, Ctx.background, hq, World.log, ReadDir, hd]

/-- C21: if fetching the file records or listing the watch directory fails in a
scan cycle, the cycle ends with an error without any status upsert or send on
`files` and with the tables unchanged, and `Scanner.Run` does not return
because of it: it goes on with whatever its next `select` picks, so a single
such tick leaves it waiting and a further tick starts the next cycle. -/
theorem Scanner.Run_survives_failed_cycle (env : Env) (watchDir : String) (w : World)
    (rest : List Tick)
    (hfail : (∃ fault, env.pgQuery w.trace = some fault) ∨
      (∃ err, env.readDir (w.trace ++ [Event.Files false none]) watchDir = Except.error err)) :
    (Scanner.scanFiles env (app.scanner env watchDir) Ctx.background w).1 ≠ none ∧
    upserts ((Scanner.scanFiles env (app.scanner env watchDir) Ctx.background w).2.since w) = [] ∧
    sentFiles ((Scanner.scanFiles env (app.scanner env watchDir) Ctx.background w).2.since w)
      = [] ∧
    (Scanner.scanFiles env (app.scanner env watchDir) Ctx.background w).2.db = w.db ∧
    Scanner.Run env (app.scanner env watchDir) Ctx.background [Tick.tick] w =
      (RunResult.waiting,
        (Scanner.scanFiles env (app.scanner env watchDir) Ctx.background w).2) ∧
    Scanner.Run env (app.scanner env watchDir) Ctx.background (Tick.tick :: rest) w =
      Scanner.Run env (app.scanner env watchDir) Ctx.background rest
        (Scanner.scanFiles env (app.scanner env watchDir) Ctx.background w).2 ∧
    Scanner.Run env (app.scanner env watchDir) Ctx.background (Tick.tick :: Tick.tick :: rest) w =
      Scanner.Run env (app.scanner env watchDir) Ctx.background rest
        (Scanner.scanFiles env (app.scanner env watchDir) Ctx.background
          (Scanner.scanFiles env (app.scanner env watchDir) Ctx.background w).2).2 := by
  obtain ⟨err, delta, hscan, hups, hsent⟩ := Scanner.scanFiles_failed env watchDir w hfail
  have hsince : (Scanner.scanFiles env (app.scanner env watchDir) Ctx.background w).2.since w
      = delta := by
    rw [hscan]
    simp [World.since]
  refine ⟨?_, ?_, ?_, ?_, ?_, ?_, ?_⟩
  · rw [hscan]
    simp
  · rw [hsince, hups]
  · rw [hsince, hsent]
  · rw [hscan]
  · rw [Scanner.Run_tick]
    simp [Scanner.Run, Scanner.Run.loop]
  · rw [Scanner.Run_tick]
  · rw [Scanner.Run_tick, Scanner.Run_tick]

/-- Witness for C21: with a database whose queries fail, and with a watch
directory that cannot be listed, a tick leaves the scanner waiting, with one
failed call observed and nothing upserted or sent. -/
theorem Scanner.Run_survives_failed_cycle_witness :
    (Scanner.Run sample.envQueryFails (app.scanner sample.envQueryFails "watch") Ctx.background
        [Tick.tick] sample.world).1 = RunResult.waiting ∧
    (Scanner.Run sample.envNoDir (app.scanner sample.envNoDir "watch") Ctx.background
        [Tick.tick, Tick.tick] sample.world).2.trace =
      [Event.Files false none,
        Event.ReadDir "watch" (some "open watch: no such file or directory"),
        Event.Files false none,
        Event.ReadDir "watch" (some "open watch: no such file or directory")] ∧
    upserts ((Scanner.scanFiles sample.envQueryFails (app.scanner sample.envQueryFails "watch")
      Ctx.background sample.world).2.since sample.world) = [] :=
  ⟨by
      rw [(Scanner.Run_survives_failed_cycle sample.envQueryFails "watch" sample.world []
        (Or.inl ⟨_, rfl⟩)).2.2.2.2.1],
    by decide,
    (Scanner.Run_survives_failed_cycle sample.envQueryFails "watch" sample.world []
      (Or.inl ⟨_, rfl⟩)).2.1⟩

end pipeline

namespace pipeline
open domain postgresql

theorem Parser.Run.loop_closes_parser (env : Env) (ctx : Ctx) (paths : List String) (w : World) :
    Parser.Run.loop env ctx (paths.map Select.recv ++ [Select.closed]) w =
      (RunResult.returned none, paths.foldl (Parser.handled env) w) := by
  induction paths generalizing w with
  | nil => simp [Parser.Run.loop]
  | cons p ps ih =>
      simp only [List.map_cons, List.cons_append, List.foldl_cons]
      rw [Parser.Run.loop]
      exact ih _

theorem Writer.Run.loop_closes_writer (env : Env) (wr : Writer) (ctx : Ctx)
    (results : List ParseResult) (w : World) :
    Writer.Run.loop env wr ctx (results.map Select.recv ++ [Select.closed]) w =
      (RunResult.returned none, results.foldl (Writer.handled env wr ctx) w) := by
  induction results generalizing w with
  | nil => simp [Writer.Run.loop]
  | cons r rs ih =>
      simp only [List.map_cons, List.cons_append, List.foldl_cons]
      rw [Writer.Run.loop]
      simp only [Writer.handled]
      generalize wr.processParseResult env ctx r w = out
      obtain ⟨err, w1⟩ := out
      cases err with
      | none => simpa using ih _
      | some e => simpa using ih _

theorem Reporter.Run.loop_closes_reporter (env : Env) (r : Reporter) (results : List ParseResult)
    (w : World) :
    Reporter.Run.loop env r (results.map Select.recv ++ [Select.closed]) w =
      (RunResult.returned none, results.foldl (Reporter.handled env r) w) := by
  induction results generalizing w with
  | nil => simp [Reporter.Run.loop]
  | cons x xs ih =>
      simp only [List.map_cons, List.cons_append, List.foldl_cons]
      rw [Reporter.Run.loop]
      exact ih _

/-- C22: for each of Parser, Writer and Reporter, when the input channel is
found closed after any finite number of items and the context is not
cancelled, `Run` returns nil after having handled every item received, in
order; Parser and Writer close their own output channel as the last thing
before returning. -/
theorem Run_returns_nil_on_closed_input (env : Env) (ctx : Ctx) (wr : Writer) (r : Reporter)
    (paths : List String) (results : List ParseResult) (w : World) :
    Parser.Run env ctx (paths.map Select.recv ++ [Select.closed]) w =
      (RunResult.returned none,
        (paths.foldl (Parser.handled env) w).log Event.CloseParseResults) ∧
    Writer.Run env wr ctx (results.map Select.recv ++ [Select.closed]) w =
      (RunResult.returned none,
        (results.foldl (Writer.handled env wr ctx) w).log Event.CloseReports) ∧
    Reporter.Run env r (results.map Select.recv ++ [Select.closed]) w =
      (RunResult.returned none, results.foldl (Reporter.handled env r) w) := by
  refine ⟨?_, ?_, ?_⟩
  · simp only [Parser.Run, Parser.Run.loop_closes_parser]
  · simp only [Writer.Run, Writer.Run.loop_closes_writer]
  · simp only [Reporter.Run, Reporter.Run.loop_closes_reporter]

theorem Scanner.Run.loop_exit_scanner (env : Env) (s : Scanner) (ctx : Ctx) (ticks : List Tick)
    (w : World) :
    (Scanner.Run.loop env s ctx ticks w).1 = RunResult.waiting ∨
    ∃ err n rest, ticks = List.replicate n Tick.tick ++ Tick.done err :: rest ∧
      (Scanner.Run.loop env s ctx ticks w).1 = RunResult.returned (some err) := by
  induction ticks generalizing w with
  | nil => exact Or.inl rfl
  | cons t ts ih =>
      cases t with
      | done err => exact Or.inr ⟨err, 0, ts, rfl, rfl⟩
      | tick =>
          rw [Scanner.Run.loop_tick]
          rcases ih (Scanner.scanFiles env s ctx w).2 with h | ⟨err, n, rest, hts, h⟩
          · exact Or.inl h
          · exact Or.inr ⟨err, n + 1, rest, by rw [hts]; rfl, h⟩

theorem Parser.Run.loop_exit_parser (env : Env) (ctx : Ctx) (sched : List (Select String)) (w : World) :
    (Parser.Run.loop env ctx sched w).1 = RunResult.waiting ∨
    ((Parser.Run.loop env ctx sched w).1 = RunResult.returned none ∧
      ∃ items rest, sched = List.map Select.recv items ++ Select.closed :: rest) ∨
    ∃ err, (Parser.Run.loop env ctx sched w).1 = RunResult.returned (some err) ∧
      ∃ items rest, sched = List.map Select.recv items ++ Select.done err :: rest := by
  induction sched generalizing w with
  | nil => exact Or.inl rfl
  | cons x xs ih =>
      cases x with
      | closed => exact Or.inr (Or.inl ⟨rfl, [], xs, rfl⟩)
      | done err => exact Or.inr (Or.inr ⟨err, rfl, [], xs, rfl⟩)
      | recv p =>
          rw [Parser.Run.loop]
          rcases ih _ with h | ⟨h, items, rest, hxs⟩ | ⟨err, h, items, rest, hxs⟩
          · exact Or.inl h
          · exact Or.inr (Or.inl ⟨h, p :: items, rest, by rw [hxs]; rfl⟩)
          · exact Or.inr (Or.inr ⟨err, h, p :: items, rest, by rw [hxs]; rfl⟩)

theorem Writer.Run.loop_exit_writer (env : Env) (wr : Writer) (ctx : Ctx)
    (sched : List (Select ParseResult)) (w : World) :
    (Writer.Run.loop env wr ctx sched w).1 = RunResult.waiting ∨
    ((Writer.Run.loop env wr ctx sched w).1 = RunResult.returned none ∧
      ∃ items rest, sched = List.map Select.recv items ++ Select.closed :: rest) ∨
    ∃ err, (Writer.Run.loop env wr ctx sched w).1 = RunResult.returned (some err) ∧
      ∃ items rest, sched = List.map Select.recv items ++ Select.done err :: rest := by
  induction sched generalizing w with
  | nil => exact Or.inl rfl
  | cons x xs ih =>
      cases x with
      | closed => exact Or.inr (Or.inl ⟨rfl, [], xs, rfl⟩)
      | done err => exact Or.inr (Or.inr ⟨err, rfl, [], xs, rfl⟩)
      | recv p =>
          have hstep : ∃ w1, Writer.Run.loop env wr ctx (Select.recv p :: xs) w =
              Writer.Run.loop env wr ctx xs w1 := by
            rw [Writer.Run.loop]
            generalize wr.processParseResult env ctx p w = out
            obtain ⟨e, w1⟩ := out
            cases e with
            | none => exact ⟨_, rfl⟩
            | some e => exact ⟨_, rfl⟩
          obtain ⟨w1, hw1⟩ := hstep
          rw [hw1]
          rcases ih w1 with h | ⟨h, items, rest, hxs⟩ | ⟨err, h, items, rest, hxs⟩
          · exact Or.inl h
          · exact Or.inr (Or.inl ⟨h, p :: items, rest, by rw [hxs]; rfl⟩)
          · exact Or.inr (Or.inr ⟨err, h, p :: items, rest, by rw [hxs]; rfl⟩)

theorem Reporter.Run.loop_exit_reporter (env : Env) (r : Reporter) (sched : List (Select ParseResult))
    (w : World) :
    (Reporter.Run.loop env r sched w).1 = RunResult.waiting ∨
    ((Reporter.Run.loop env r sched w).1 = RunResult.returned none ∧
      ∃ items rest, sched = List.map Select.recv items ++ Select.closed :: rest) ∨
    ∃ err, (Reporter.Run.loop env r sched w).1 = RunResult.returned (some err) ∧
      ∃ items rest, sched = List.map Select.recv items ++ Select.done err :: rest := by
  induction sched generalizing w with
  | nil => exact Or.inl rfl
  | cons x xs ih =>
      cases x with
      | closed => exact Or.inr (Or.inl ⟨rfl, [], xs, rfl⟩)
      | done err => exact Or.inr (Or.inr ⟨err, rfl, [], xs, rfl⟩)
      | recv p =>
          rw [Reporter.Run.loop]
          rcases ih _ with h | ⟨h, items, rest, hxs⟩ | ⟨err, h, items, rest, hxs⟩
          · exact Or.inl h
          · exact Or.inr (Or.inl ⟨h, p :: items, rest, by rw [hxs]; rfl⟩)
          · exact Or.inr (Or.inr ⟨err, h, p :: items, rest, by rw [hxs]; rfl⟩)

theorem Scanner.Run_fst_scanner (env : Env) (s : Scanner) (ctx : Ctx) (ticks : List Tick) (w : World) :
    (Scanner.Run env s ctx ticks w).1 = (Scanner.Run.loop env s ctx ticks w).1 := by
  simp only [Scanner.Run]
  split <;> simp_all

theorem Parser.Run_fst_parser (env : Env) (ctx : Ctx) (sched : List (Select String)) (w : World) :
    (Parser.Run env ctx sched w).1 = (Parser.Run.loop env ctx sched w).1 := by
  simp only [Parser.Run]
  split <;> simp_all

theorem Writer.Run_fst_writer (env : Env) (wr : Writer) (ctx : Ctx) (sched : List (Select ParseResult))
    (w : World) :
    (Writer.Run env wr ctx sched w).1 = (Writer.Run.loop env wr ctx sched w).1 := by
  simp only [Writer.Run]
  split <;> simp_all

/-- C23: whatever the collaborators do, `Run` of a stage that has returned has
returned either nil, the `select` after the items received having found the
input channel closed, or exactly the error `ctx.Err()` of the `select` that
picked `ctx.Done()`; the scanner never returns nil.  No failure met while
handling an item or a tick is returned. -/
theorem Run_returns_nil_or_ctx_err (env : Env) (s : Scanner) (wr : Writer) (r : Reporter)
    (ctx : Ctx) (ticks : List Tick) (paths : List (Select String))
    (results : List (Select ParseResult)) (w : World) :
    ((Scanner.Run env s ctx ticks w).1 = RunResult.waiting ∨
      ∃ err n rest, ticks = List.replicate n Tick.tick ++ Tick.done err :: rest ∧
        (Scanner.Run env s ctx ticks w).1 = RunResult.returned (some err)) ∧
    ((Parser.Run env ctx paths w).1 = RunResult.waiting ∨
      ((Parser.Run env ctx paths w).1 = RunResult.returned none ∧
        ∃ items rest, paths = List.map Select.recv items ++ Select.closed :: rest) ∨
      ∃ err, (Parser.Run env ctx paths w).1 = RunResult.returned (some err) ∧
        ∃ items rest, paths = List.map Select.recv items ++ Select.done err :: rest) ∧
    ((Writer.Run env wr ctx results w).1 = RunResult.waiting ∨
      ((Writer.Run env wr ctx results w).1 = RunResult.returned none ∧
        ∃ items rest, results = List.map Select.recv items ++ Select.closed :: rest) ∨
      ∃ err, (Writer.Run env wr ctx results w).1 = RunResult.returned (some err) ∧
        ∃ items rest, results = List.map Select.recv items ++ Select.done err :: rest) ∧
    ((Reporter.Run env r results w).1 = RunResult.waiting ∨
      ((Reporter.Run env r results w).1 = RunResult.returned none ∧
        ∃ items rest, results = List.map Select.recv items ++ Select.closed :: rest) ∨
      ∃ err, (Reporter.Run env r results w).1 = RunResult.returned (some err) ∧
        ∃ items rest, results = List.map Select.recv items ++ Select.done err :: rest) := by
  refine ⟨?_, ?_, ?_, ?_⟩
  · rw [Scanner.Run_fst_scanner]
    exact Scanner.Run.loop_exit_scanner env s ctx ticks w
  · rw [Parser.Run_fst_parser]
    exact Parser.Run.loop_exit_parser env ctx paths w
  · rw [Writer.Run_fst_writer]
    exact Writer.Run.loop_exit_writer env wr ctx results w
  · exact Reporter.Run.loop_exit_reporter env r results w

end pipeline

/-! ## Cancellation at the blocking points -/

namespace pipeline
open domain postgresql

/-- After cancellation the `select` of a stage picks `ctx.Done()` exactly when
nothing can be received or Go's choice among the two ready cases falls on it. -/
theorem Moment.select_done_iff {α : Type} (m : Moment α) (err : GoError)
    (h : m.ctxErr = some err) :
    m.select = some (Select.done err) ↔ (m.input = none ∨ m.pickRecv = false) := by
  obtain ⟨input, ready, ctxErr, pick⟩ := m
  simp only at h
  subst h
  cases input with
  | none => simp [Moment.select]
  | some x => cases x <;> cases pick <;> simp [Moment.select]

theorem Moment.select_eq_done {α : Type} (m : Moment α) (err e : GoError)
    (h : m.ctxErr = some err) (hs : m.select = some (Select.done e)) : e = err := by
  obtain ⟨input, ready, ctxErr, pick⟩ := m
  simp only at h
  subst h
  cases input with
  | none => simpa [Moment.select] using hs.symm
  | some x => cases x <;> cases pick <;> simp_all [Moment.select]

theorem Scanner.scanFiles.upToSend_result (s : Scanner) (ctx : Ctx) (filesMap : StatusMap)
    (entries : List DirEntry) (w : World) :
    (Scanner.scanFiles.upToSend s ctx filesMap entries w).1.result = none := by
  induction entries generalizing w with
  | nil => rfl
  | cons e es ih =>
      unfold Scanner.scanFiles.upToSend
      split
      · exact ih w
      · simp only
        split
        · exact ih w
        · split
          · exact ih _
          · rfl

theorem Parser.Run.step_select_done_parser (env : Env) (m : Moment String) (w : World)
    (err : GoError) (h : m.ctxErr = some err) :
    Parser.Run.step env m At.select w =
        some (At.returned (some err), w.log Event.CloseParseResults) ↔
      (m.input = none ∨ m.pickRecv = false) := by
  rw [← Moment.select_done_iff m err h]
  constructor
  · intro hstep
    simp only [Parser.Run.step] at hstep
    split at hstep
    · cases hstep
    · cases hstep
    · next e hsel =>
        rw [hsel, Moment.select_eq_done m err e h hsel]
    · cases hstep
  · intro hsel
    simp [Parser.Run.step, hsel]

theorem Writer.Run.step_select_done_writer (env : Env) (wr : Writer) (ctx : Ctx)
    (m : Moment ParseResult) (w : World) (err : GoError) (h : m.ctxErr = some err) :
    Writer.Run.step env wr ctx m At.select w =
        some (At.returned (some err), w.log Event.CloseReports) ↔
      (m.input = none ∨ m.pickRecv = false) := by
  rw [← Moment.select_done_iff m err h]
  constructor
  · intro hstep
    simp only [Writer.Run.step] at hstep
    split at hstep
    · cases hstep
    · cases hstep
    · next e hsel =>
        rw [hsel, Moment.select_eq_done m err e h hsel]
    · split at hstep <;> cases hstep
  · intro hsel
    simp [Writer.Run.step, hsel]

theorem Reporter.Run.step_select_done_reporter (env : Env) (r : Reporter)
    (m : Moment ParseResult) (w : World) (err : GoError) (h : m.ctxErr = some err) :
    Reporter.Run.step env r m At.select w = some (At.returned (some err), w) ↔
      (m.input = none ∨ m.pickRecv = false) := by
  rw [← Moment.select_done_iff m err h]
  constructor
  · intro hstep
    simp only [Reporter.Run.step] at hstep
    split at hstep
    · cases hstep
    · cases hstep
    · next e hsel =>
        rw [hsel, Moment.select_eq_done m err e h hsel]
    · cases hstep
  · intro hsel
    simp [Reporter.Run.step, hsel]

theorem Scanner.Run.step_select_done_scanner (env : Env) (s : Scanner) (ctx : Ctx)
    (m : Moment Unit) (w : World) (err : GoError) (h : m.ctxErr = some err) :
    Scanner.Run.step env s ctx m Scanner.At.select w =
        some (Scanner.At.returned (some err), w.log Event.CloseFiles) ↔
      (m.input = none ∨ m.pickRecv = false) := by
  rw [← Moment.select_done_iff m err h]
  constructor
  · intro hstep
    simp only [Scanner.Run.step] at hstep
    split at hstep
    · cases hstep
    · next e hsel =>
        rw [hsel, Moment.select_eq_done m err e h hsel]
    · exfalso
      split at hstep
      · cases hstep
      · split at hstep
        · cases hstep
        · next filesMap w1 _ _ entries w2 _ =>
            have hres := Scanner.scanFiles.upToSend_result s ctx filesMap entries w2
            simp only [Option.some.injEq] at hstep
            rw [hstep] at hres
            cases hres
  · intro hsel
    simp [Scanner.Run.step, hsel]

end pipeline

namespace pipeline
open domain postgresql

/-- A stage in a send stays there, with nothing observed, for as long as the
output channel is not ready. -/
theorem runMoments_blocked {α σ : Type} (step : Moment α → σ → World → Option (σ × World))
    (pos : σ) (w : World) (ms : List (Moment α))
    (hblocked : ∀ m ∈ ms, step m pos w = none) :
    runMoments step ms pos w = (pos, w) := by
  induction ms with
  | nil => rfl
  | cons m ms ih =>
      rw [runMoments, hblocked m (List.mem_cons_self m ms)]
      exact ih (fun m' hm' => hblocked m' (List.mem_cons_of_mem m hm'))

/-- Counterexample for C24: the context is cancelled and yet the stage does not
return at its next step.  The parser, having received the path of `a.tsv` and
parsed it, finds `parseResults` full: it stays in the send, whatever the
number of moments after cancellation.  The same holds for the writer in its
send on `reports` and for the scanner in its send on `files`.  And the
reporter, with an outcome pending when Go picks the receive, handles the
outcome and is back in its `select`. -/
theorem Run_blocked_send_ignores_cancellation :
    (sample.momentCancelledFull String).ctxErr = some "context canceled" ∧
    (runMoments (Parser.Run.step sample.env)
        [sample.momentPath, sample.momentCancelledFull String, sample.momentCancelledFull String]
        At.select sample.world).1 =
      At.send { Filename := "watch/a.tsv", Devices := [sample.device1], Error := none } ∧
    Writer.Run.step sample.env (app.writer sample.env) Ctx.background
      (sample.momentCancelledFull ParseResult) (At.send sample.resultOk) sample.world = none ∧
    (Scanner.Run.step sample.env (app.scanner sample.env "watch") Ctx.background
      (sample.momentCancelledFull Unit) (Scanner.At.send "watch/a.tsv" [] StatusMap.empty)
      sample.world).isNone = true ∧
    Reporter.Run.step sample.env (app.reporter sample.env "out") sample.momentCancelledPending
      At.select sample.world = some (At.select, sample.world) := by
  refine ⟨rfl, by decide, by decide, by decide, by decide⟩

/-- C24 (amended): only the `select` of a stage is registered against the
cancellation signal.  Once the context is cancelled, the step of a stage that
stands in its `select` is the return of `ctx.Err()` (after closing its output
channel) exactly when nothing can be received or Go picks the `ctx.Done()`
case among the two ready ones.  The sends on `files`, `parseResults` and
`reports` are plain sends: a stage standing in one takes no step while the
output channel is not ready, cancelled or not, however many moments pass. -/
theorem Run_cancellation_only_at_select (env : Env) (s : Scanner) (wr : Writer)
    (r : Reporter) (ctx : Ctx) (err : GoError) (mt : Moment Unit) (mp : Moment String)
    (mw : Moment ParseResult) (w : World)
    (ht : mt.ctxErr = some err) (hp : mp.ctxErr = some err) (hw : mw.ctxErr = some err) :
    (Scanner.Run.step env s ctx mt Scanner.At.select w =
        some (Scanner.At.returned (some err), w.log Event.CloseFiles) ↔
      (mt.input = none ∨ mt.pickRecv = false)) ∧
    (Parser.Run.step env mp At.select w =
        some (At.returned (some err), w.log Event.CloseParseResults) ↔
      (mp.input = none ∨ mp.pickRecv = false)) ∧
    (Writer.Run.step env wr ctx mw At.select w =
        some (At.returned (some err), w.log Event.CloseReports) ↔
      (mw.input = none ∨ mw.pickRecv = false)) ∧
    (Reporter.Run.step env r mw At.select w = some (At.returned (some err), w) ↔
      (mw.input = none ∨ mw.pickRecv = false)) ∧
    (∀ (ms : List (Moment Unit)) path entries filesMap, (∀ m ∈ ms, m.outputReady = false) →
      runMoments (Scanner.Run.step env s ctx) ms (Scanner.At.send path entries filesMap) w =
        (Scanner.At.send path entries filesMap, w)) ∧
    (∀ (ms : List (Moment String)) result, (∀ m ∈ ms, m.outputReady = false) →
      runMoments (Parser.Run.step env) ms (At.send result) w = (At.send result, w)) ∧
    (∀ (ms : List (Moment ParseResult)) result, (∀ m ∈ ms, m.outputReady = false) →
      runMoments (Writer.Run.step env wr ctx) ms (At.send result) w = (At.send result, w)) := by
  refine ⟨Scanner.Run.step_select_done_scanner env s ctx mt w err ht,
    Parser.Run.step_select_done_parser env mp w err hp,
    Writer.Run.step_select_done_writer env wr ctx mw w err hw,
    Reporter.Run.step_select_done_reporter env r mw w err hw, ?_, ?_, ?_⟩
  · intro ms path entries filesMap hfull
    apply runMoments_blocked
    intro m hm
    simp [Scanner.Run.step, hfull m hm]
  · intro ms result hfull
    apply runMoments_blocked
    intro m hm
    simp [Parser.Run.step, hfull m hm]
  · intro ms result hfull
    apply runMoments_blocked
    intro m hm
    simp [Writer.Run.step, hfull m hm]

/-- Witness for C24 (amended): after cancellation, with nothing to receive,
the parser in its `select` closes `parseResults` and returns the cancellation
error. -/
theorem Run_cancellation_only_at_select_witness :
    Parser.Run.step sample.env (sample.momentCancelledFull String) At.select sample.world =
      some (At.returned (some "context canceled"),
        sample.world.log Event.CloseParseResults) :=
  (Run_cancellation_only_at_select sample.env (app.scanner sample.env "watch")
    (app.writer sample.env) (app.reporter sample.env "out") Ctx.background "context canceled"
    (sample.momentCancelledFull Unit) (sample.momentCancelledFull String)
    (sample.momentCancelledFull ParseResult) sample.world rfl rfl rfl).2.1.mpr (Or.inl rfl)

end pipeline

/-! ## The transaction manager -/

namespace postgresql
open domain

theorem Commit_failed_db (env : Env) (w : World) (h : (Commit env w).1 ≠ none) :
    (Commit env w).2.db = w.db := by
  unfold Commit at h ⊢
  cases htx : w.tx with
  | none => simp [World.log]
  | some t =>
      simp only [htx] at h ⊢
      cases hc : env.pgCommit w.trace with
      | none => simp [hc] at h
      | some err => simp

/-- Counterexample for C25: when `pool.Begin` fails, `WithTransaction` returns
a non-nil error, a failure path, and no rollback is issued: the deferred
`tx.Rollback` is only registered once a transaction exists. -/
theorem TxManager.WithTransaction_begin_failure_no_rollback :
    (TxManager.WithTransaction sample.envBeginFails Ctx.background
        (pipeline.Writer.saveResult.func1 sample.envBeginFails (app.writer sample.envBeginFails)
          sample.resultOk) sample.world).1 =
      some "failed to begin transaction: connection refused" ∧
    (TxManager.WithTransaction sample.envBeginFails Ctx.background
        (pipeline.Writer.saveResult.func1 sample.envBeginFails (app.writer sample.envBeginFails)
          sample.resultOk) sample.world).2.trace =
      [Event.WithTransaction, Event.Begin (some "connection refused")] ∧
    Event.Rollback ∉
      (TxManager.WithTransaction sample.envBeginFails Ctx.background
        (pipeline.Writer.saveResult.func1 sample.envBeginFails (app.writer sample.envBeginFails)
          sample.resultOk) sample.world).2.trace := by
  refine ⟨by decide, by decide, by decide⟩

/-- C25 (amended): `WithTransaction` invokes `fn` at most once and only after
a transaction was begun: when `pool.Begin` fails it returns the wrapped error
with nothing else called, no rollback either; otherwise `fn` runs once, on the
fresh transaction.  The commit is attempted exactly when `fn` returned nil.
The result is nil exactly when begin, `fn` and commit all succeeded.  On every
failure path after a successful begin the rollback is issued last, and on
every failure path the committed tables are those from before the call, for a
`fn` that works through the transaction. -/
theorem TxManager.WithTransaction_outcomes (env : Env) (ctx : Ctx)
    (fn : Ctx → M (Option GoError)) (w : World)
    (hfn : (fn ⟨true⟩ (txStart w)).2.db = w.db) :
    (∀ err, env.pgBegin (w.trace ++ [Event.WithTransaction]) = some err →
      TxManager.WithTransaction env ctx fn w =
        (some ("failed to begin transaction: " ++ err),
          { db := w.db, tx := w.tx,
            trace := w.trace ++ [Event.WithTransaction, Event.Begin (some err)] })) ∧
    (env.pgBegin (w.trace ++ [Event.WithTransaction]) = none →
      (∀ err, (fn ⟨true⟩ (txStart w)).1 = some err →
        TxManager.WithTransaction env ctx fn w =
          (some ("rolled back due to err: " ++ err), Rollback (fn ⟨true⟩ (txStart w)).2)) ∧
      ((fn ⟨true⟩ (txStart w)).1 = none →
        TxManager.WithTransaction env ctx fn w =
          (Option.map (fun err => "failed to commit transaction: " ++ err)
              (Commit env (fn ⟨true⟩ (txStart w)).2).1,
            Rollback (Commit env (fn ⟨true⟩ (txStart w)).2).2))) ∧
    ((TxManager.WithTransaction env ctx fn w).1 = none ↔
      (env.pgBegin (w.trace ++ [Event.WithTransaction]) = none ∧
        (fn ⟨true⟩ (txStart w)).1 = none ∧
        (Commit env (fn ⟨true⟩ (txStart w)).2).1 = none)) ∧
    ((TxManager.WithTransaction env ctx fn w).1 ≠ none →
      (TxManager.WithTransaction env ctx fn w).2.db = w.db) ∧
    (env.pgBegin (w.trace ++ [Event.WithTransaction]) = none →
      (TxManager.WithTransaction env ctx fn w).2.tx = none ∧
      ∃ pre, (TxManager.WithTransaction env ctx fn w).2.trace = pre ++ [Event.Rollback]) := by
  cases hb : env.pgBegin (w.trace ++ [Event.WithTransaction]) with
  | some e =>
      have heq := TxManager.WithTransaction_begin_failed env ctx fn w e hb
      refine ⟨?_, ?_, ?_, ?_, ?_⟩
      · intro err herr
        cases herr
        exact heq
      · intro h
        cases h
      · rw [heq]
        simp
      · intro _
        rw [heq]
      · intro h
        cases h
  | none =>
      have heq := TxManager.WithTransaction_begun env ctx fn w hb
      generalize fn ⟨true⟩ (txStart w) = out at heq hfn
      obtain ⟨r, w2⟩ := out
      simp only at hfn
      cases r with
      | some e =>
          simp only at heq
          refine ⟨?_, ?_, ?_, ?_, ?_⟩
          · intro err herr
            cases herr
          · intro _
            refine ⟨?_, ?_⟩
            · intro err herr
              cases herr
              exact heq
            · intro h
              cases h
          · rw [heq]
            simp
          · intro _
            rw [heq]
            simpa [Rollback] using hfn
          · intro _
            rw [heq]
            exact ⟨rfl, w2.trace, rfl⟩
      | none =>
          simp only at heq
          have hcdb := Commit_failed_db env w2
          generalize Commit env w2 = c at heq hcdb
          obtain ⟨rc, w3⟩ := c
          simp only at hcdb
          cases rc with
          | some e =>
              simp only at heq
              refine ⟨?_, ?_, ?_, ?_, ?_⟩
              · intro err herr
                cases herr
              · intro _
                refine ⟨?_, ?_⟩
                · intro err herr
                  cases herr
                · intro _
                  exact heq
              · rw [heq]
                simp
              · intro _
                rw [heq]
                have := hcdb (by simp)
                simpa [Rollback, hfn] using this
              · intro _
                rw [heq]
                exact ⟨rfl, w3.trace, rfl⟩
          | none =>
              simp only at heq
              refine ⟨?_, ?_, ?_, ?_, ?_⟩
              · intro err herr
                cases herr
              · intro _
                refine ⟨?_, ?_⟩
                · intro err herr
                  cases herr
                · intro _
                  exact heq
              · rw [heq]
                simp
              · intro h
                rw [heq] at h
                exact absurd rfl h
              · intro _
                rw [heq]
                exact ⟨rfl, w3.trace, rfl⟩

/-- Witness for C25 (amended): in an environment whose commits fail, the
function of `saveResult` runs in the transaction and succeeds, the commit is
attempted and fails, the rollback is issued last and the tables are empty as
before. -/
theorem TxManager.WithTransaction_outcomes_witness :
    (TxManager.WithTransaction sample.envCommitFails Ctx.background
        (pipeline.Writer.saveResult.func1 sample.envCommitFails
          (app.writer sample.envCommitFails) sample.resultOk) sample.world).1 ≠ none ∧
    (TxManager.WithTransaction sample.envCommitFails Ctx.background
        (pipeline.Writer.saveResult.func1 sample.envCommitFails
          (app.writer sample.envCommitFails) sample.resultOk) sample.world).2.db =
      sample.world.db :=
  ⟨by decide,
    (TxManager.WithTransaction_outcomes sample.envCommitFails Ctx.background
      (pipeline.Writer.saveResult.func1 sample.envCommitFails
        (app.writer sample.envCommitFails) sample.resultOk) sample.world (by decide)).2.2.2.1
      (by decide)⟩

end postgresql

/-! ## Startup -/

namespace app
open domain pipeline postgresql

theorem resetRows_pointwise (files : List File) :
    List.Forall₂
      (fun old new => new.Name = old.Name ∧ new.ErrorMessage = old.ErrorMessage ∧
        new.ProcessedAt = old.ProcessedAt ∧
        new.Status = if old.Status = StatusProcessing then StatusPending else old.Status)
      files (resetRows files) := by
  induction files with
  | nil => exact List.Forall₂.nil
  | cons f fs ih =>
      refine List.Forall₂.cons ?_ ih
      by_cases h : f.Status = StatusProcessing <;> simp [h]

theorem resetRows_none_processing (files : List File) :
    ∀ f ∈ resetRows files, f.Status ≠ StatusProcessing := by
  intro f hf
  obtain ⟨g, -, hg⟩ := List.mem_map.mp hf
  by_cases h : g.Status = StatusProcessing
  · rw [if_pos h] at hg
    rw [← hg]
    show StatusPending ≠ StatusProcessing
    decide
  · rw [if_neg h] at hg
    rw [← hg]
    exact h

/-- C26: once the connection is established, `App.Run` first resets the file
records: when the statement succeeds, the pipeline is started on tables in
which every record that was `processing` is `pending` and every other record
and field is as before, so no record is `processing` when the stages start;
when the statement fails, `App.Run` returns the wrapped error with the tables
unchanged, whatever `startPipeline` would have done: it is not called. -/
theorem App.Run_resets_before_pipeline (env : Env)
    (startPipeline : Ctx → M (Option GoError)) (w : World)
    (hconn : env.pgConnect w.trace = none) :
    (env.pgExec w.trace = none →
      App.Run env Ctx.background startPipeline w =
        startPipeline Ctx.background
          { db := { files := resetRows w.db.files, devices := w.db.devices }, tx := w.tx,
            trace := w.trace ++ [Event.ResetProcessingFiles false none] }) ∧
    (∀ err, env.pgExec w.trace = some err →
      App.Run env Ctx.background startPipeline w =
        (some ("failed to reset processing files: " ++ executeQueryError err),
          { db := w.db, tx := w.tx,
            trace := w.trace ++
              [Event.ResetProcessingFiles false (some (executeQueryError err))] })) ∧
    List.Forall₂
      (fun old new => new.Name = old.Name ∧ new.ErrorMessage = old.ErrorMessage ∧
        new.ProcessedAt = old.ProcessedAt ∧
        new.Status = if old.Status = StatusProcessing then StatusPending else old.Status)
      w.db.files (resetRows w.db.files) ∧
    (∀ f ∈ resetRows w.db.files, f.Status ≠ StatusProcessing) := by
  refine ⟨?_, ?_, resetRows_pointwise w.db.files, resetRows_none_processing w.db.files⟩
  · intro hexec
    simp [App.Run, hconn, FilesRepository.ResetProcessingFiles, extractDB, DBTX.read,
      Ctx.background, hexec, DBTX.write, World.log]
  · intro err hexec
    simp [App.Run, hconn, FilesRepository.ResetProcessingFiles, extractDB, DBTX.read,
      Ctx.background, hexec, World.log]

/-- Witness for C26: after a crash that left `a.tsv` at `processing`, a start
with a healthy store hands the pipeline tables in which `a.tsv` is `pending`
and the other records are untouched; with a store whose statements fail,
`App.Run` returns the error and the scanner that stands for the pipeline here
has observed nothing. -/
theorem App.Run_resets_before_pipeline_witness :
    (App.Run sample.env Ctx.background (fun _ w => (none, w)) sample.worldCrashed).2.db.files =
      [⟨"a.tsv", "pending", "", none⟩, ⟨"b.tsv", "done", "", some 1⟩,
        ⟨"c.tsv", "error", "parse error", some 2⟩] ∧
    App.Run sample.envDown Ctx.background
        (fun ctx => Scanner.scanFiles sample.envDown (scanner sample.envDown "watch") ctx)
        sample.worldCrashed =
      (some "failed to reset processing files: failed to execute query: connection refused",
        { db := sample.worldCrashed.db, tx := none,
          trace := [Event.ResetProcessingFiles false
            (some "failed to execute query: connection refused")] }) :=
  ⟨by
      rw [(App.Run_resets_before_pipeline sample.env (fun _ w => (none, w)) sample.worldCrashed
        rfl).1 rfl]
      decide,
    (App.Run_resets_before_pipeline sample.envDown
      (fun ctx => Scanner.scanFiles sample.envDown (scanner sample.envDown "watch") ctx)
      sample.worldCrashed rfl).2.1 "connection refused" rfl⟩

end app

/-! ## The file key shared by scanner and writer -/

namespace pipeline
open domain postgresql

/-- The events of `processParseResult` for an outcome without error are those
of `saveResult`. -/
theorem Writer.processParseResult_snd_of_ok (env : Env) (wr : Writer) (ctx : Ctx)
    (result : ParseResult) (w : World) (herr : result.Error = none) :
    (Writer.processParseResult env wr ctx result w).2 = (Writer.saveResult env wr ctx result w).2 := by
  simp only [Writer.processParseResult, herr]
  split <;> simp_all

/-- Every file record the writer upserts for an outcome is named by the base
name of the outcome's path, and has status `done` or `error`. -/
theorem Writer.processParseResult_upsert_names (env : Env) (w : World) (result : ParseResult) :
    ∀ f ∈ upserts ((Writer.processParseResult env (app.writer env) Ctx.background result
        w).2.since w),
      f.Name = filepath.Base result.Filename ∧
        (f.Status = StatusDone ∨ f.Status = StatusError) := by
  cases herr : result.Error with
  | none =>
      rw [Writer.processParseResult_snd_of_ok env _ _ result w herr]
      rcases Writer.saveResult_cases env Ctx.background w result with
        ⟨err, -, htr, -⟩ | ⟨err, -, htr, -⟩ | ⟨now, err, -, htr, -⟩ | ⟨now, err, -, htr, -⟩ |
        ⟨now, -, htr, -⟩
      all_goals
        rw [World.since_of_trace _ w _ htr]
        intro f hf
        simp [upserts, doneFile] at hf
        try (subst hf; exact ⟨rfl, Or.inl rfl⟩)
  | some resultError =>
      have htr := FilesRepository.UpdateOrCreateFile_trace env ⟨false⟩
        { Name := filepath.Base result.Filename, Status := StatusError,
          ErrorMessage := resultError, ProcessedAt := some (env.now w.trace) } w
      have hsnd : (Writer.processParseResult env (app.writer env) Ctx.background result w).2 =
          (FilesRepository.UpdateOrCreateFile env ⟨false⟩
            { Name := filepath.Base result.Filename, Status := StatusError,
              ErrorMessage := resultError, ProcessedAt := some (env.now w.trace) } w).2 := by
        simp only [Writer.processParseResult, herr, app.writer, Ctx.background]
        split <;> simp_all
      rw [hsnd, World.since_of_trace _ w _ htr]
      intro f hf
      simp [upserts] at hf
      subst hf
      exact ⟨rfl, Or.inr rfl⟩

/-- C27: for every watch directory and every directory-entry name, the base
name of the joined path is the name again.  So when the scanner handles an
entry of that name, each record it upserts carries the name and each path it
sends has it as base name; and each record the writer upserts for an outcome
of that path, `done` or `error`, carries the same name. -/
theorem Writer.records_under_scanner_name (env : Env) (watchDir name : String)
    (hn : filepath.isEntryName name = true) (isDir : Bool) (files : List File)
    (result : ParseResult) (hpath : result.Filename = filepath.Join watchDir name)
    (w v : World) :
    filepath.Base (filepath.Join watchDir name) = name ∧
    (∀ f ∈ upserts ((Scanner.processEntry (app.scanner env watchDir) Ctx.background
        ⟨name, isDir⟩ (Scanner.extractFilesFromDB.loop files) w).2.since w), f.Name = name) ∧
    (∀ p ∈ sentFiles ((Scanner.processEntry (app.scanner env watchDir) Ctx.background
        ⟨name, isDir⟩ (Scanner.extractFilesFromDB.loop files) w).2.since w),
      filepath.Base p = name) ∧
    (∀ f ∈ upserts ((Writer.processParseResult env (app.writer env) Ctx.background result
        v).2.since v),
      f.Name = name ∧ (f.Status = StatusDone ∨ f.Status = StatusError)) := by
  have hbase := filepath.Base_Join_entry watchDir name hn
  have hscan := Scanner.processEntry_eq env watchDir files ⟨name, isDir⟩ w
  refine ⟨hbase, ?_, ?_, ?_⟩
  · rw [hscan]
    split
    · cases env.pgExec w.trace with
      | some err =>
          intro f hf
          simp [World.since, World.log, upserts, processingFile] at hf
          rw [hf]
      | none =>
          intro f hf
          simp [World.since, upserts, processingFile] at hf
          rw [hf]
    · intro f hf
      simp [World.since, upserts] at hf
  · rw [hscan]
    split
    · cases env.pgExec w.trace with
      | some err =>
          intro p hp
          simp [World.since, World.log, sentFiles] at hp
      | none =>
          intro p hp
          simp [World.since, sentFiles] at hp
          rw [hp]
          exact hbase
    · intro p hp
      simp [World.since, sentFiles] at hp
  · intro f hf
    have h := Writer.processParseResult_upsert_names env v result f hf
    rw [hpath, hbase] at h
    exact h

/-- Witness for C27: for the watch directory `watch/` and the entry `a.tsv`,
the writer records the outcome of the path `watch/a.tsv` under `a.tsv`. -/
theorem Writer.records_under_scanner_name_witness :
    filepath.Base (filepath.Join "watch/" "a.tsv") = "a.tsv" ∧
    ∀ f ∈ upserts ((Writer.processParseResult sample.env (app.writer sample.env)
        Ctx.background sample.resultOk sample.world).2.since sample.world),
      f.Name = "a.tsv" ∧ (f.Status = StatusDone ∨ f.Status = StatusError) :=
  ⟨(Writer.records_under_scanner_name sample.env "watch/" "a.tsv" (by decide) false []
      sample.resultOk (by decide) sample.world sample.world).1,
    (Writer.records_under_scanner_name sample.env "watch/" "a.tsv" (by decide) false []
      sample.resultOk (by decide) sample.world sample.world).2.2.2⟩

end pipeline

/-! ## Pagination of the query API -/

namespace strconv

theorem ParseUint.loop_le (s : String) (cs : List Char) (n m : Nat) (hn : n ≤ maxUint64)
    (h : ParseUint.loop s cs n = Except.ok m) : m ≤ maxUint64 := by
  induction cs generalizing n with
  | nil =>
      simp only [ParseUint.loop, Except.ok.injEq] at h
      omega
  | cons c cs ih =>
      unfold ParseUint.loop at h
      split at h
      · split at h
        · cases h
        · next hle => exact ih _ (by omega) h
      · cases h

theorem ParseUint_le (s : String) (m : Nat) (h : ParseUint s = Except.ok m) :
    m ≤ maxUint64 := by
  unfold ParseUint at h
  split at h
  · cases h
  · exact ParseUint.loop_le s s.data 0 m (by decide) h

end strconv

namespace v1

theorem DevicesHandler.parsePagination.page_range (q : Query) (page : Nat)
    (h : DevicesHandler.parsePagination.page q = some page) : 1 ≤ page ∧ page < 2 ^ 64 := by
  unfold DevicesHandler.parsePagination.page at h
  split at h
  · split at h
    · cases h
    · next p hp =>
        have hle := strconv.ParseUint_le _ _ hp
        simp only [strconv.maxUint64] at hle
        split at h
        · cases h
        · cases h
          omega
  · cases h
    omega

theorem DevicesHandler.parsePagination.limit_range (q : Query) (limit : Nat)
    (h : DevicesHandler.parsePagination.limit q = some limit) : 1 ≤ limit ∧ limit ≤ 100 := by
  unfold DevicesHandler.parsePagination.limit at h
  split at h
  · split at h
    · cases h
    · split at h
      · cases h
      · cases h
        omega
  · cases h
    omega

/-- Counterexample for C29: the request `page=9223372036854775809&limit=2` is
accepted, with page `2^63 + 1` and limit `2`; the offset passed to
`DevicesByGUID` is `0`, whereas `(page - 1) * limit` is `2^64`. -/
theorem DevicesHandler.offset_wraps :
    DevicesHandler.parsePagination ⟨"9223372036854775809", "2"⟩ =
      (9223372036854775809, 2, none) ∧
    DevicesHandler.GetDevicesByUnitGUID "U1" ⟨"9223372036854775809", "2"⟩ =
      Except.ok { guid := "U1", limit := 2, offset := 0 } ∧
    (9223372036854775809 - 1) * 2 = 2 ^ 64 := by
  refine ⟨by decide, rfl, by decide⟩

end v1

namespace v1

theorem DevicesHandler.parsePagination_accepted (q : Query) (page limit : Nat)
    (h : DevicesHandler.parsePagination q = (page, limit, none)) :
    DevicesHandler.parsePagination.page q = some page ∧
    DevicesHandler.parsePagination.limit q = some limit := by
  unfold DevicesHandler.parsePagination at h
  split at h
  · cases h
  · split at h
    · cases h
    · cases h
      exact ⟨by assumption, by assumption⟩

/-- C29 (amended): for every page and limit accepted by `parsePagination`
(`1 <= page < 2^64` and `1 <= limit <= 100`, defaults page 1 and limit 10),
the offset passed to `DevicesByGUID` is `(page - 1) * limit` reduced modulo
`2^64`; it is `(page - 1) * limit` itself whenever that product is below
`2^64`, which is so for every page up to `2^57`. -/
theorem DevicesHandler.offset_mod (unitGUID : String) (q : Query) (page limit : Nat)
    (h : DevicesHandler.parsePagination q = (page, limit, none)) :
    1 ≤ page ∧ page < 2 ^ 64 ∧ 1 ≤ limit ∧ limit ≤ 100 ∧
    DevicesHandler.GetDevicesByUnitGUID unitGUID q =
      Except.ok { guid := unitGUID, limit := limit, offset := ((page - 1) * limit) % 2 ^ 64 } ∧
    ((page - 1) * limit < 2 ^ 64 →
      DevicesHandler.GetDevicesByUnitGUID unitGUID q =
        Except.ok { guid := unitGUID, limit := limit, offset := (page - 1) * limit }) ∧
    (page ≤ 2 ^ 57 → (page - 1) * limit < 2 ^ 64) ∧
    DevicesHandler.parsePagination ⟨"", ""⟩ = (1, 10, none) := by
  obtain ⟨hpage, hlimit⟩ := DevicesHandler.parsePagination_accepted q page limit h
  obtain ⟨hp1, hp2⟩ := DevicesHandler.parsePagination.page_range q page hpage
  obtain ⟨hl1, hl2⟩ := DevicesHandler.parsePagination.limit_range q limit hlimit
  have hsub : subUint64 page 1 = page - 1 := by
    unfold subUint64
    omega
  have hcall : DevicesHandler.GetDevicesByUnitGUID unitGUID q =
      Except.ok { guid := unitGUID, limit := limit, offset := ((page - 1) * limit) % 2 ^ 64 } := by
    simp only [DevicesHandler.GetDevicesByUnitGUID, h, hsub, mulUint64]
  refine ⟨hp1, hp2, hl1, hl2, hcall, ?_, ?_, by decide⟩
  · intro hlt
    rw [hcall, Nat.mod_eq_of_lt hlt]
  · intro hle
    calc (page - 1) * limit ≤ 2 ^ 57 * 100 := Nat.mul_le_mul (by omega) hl2
      _ < 2 ^ 64 := by decide

/-- Witness for C29 (amended): the request `page=3&limit=20` is accepted and
the offset passed is `40`. -/
theorem DevicesHandler.offset_mod_witness :
    DevicesHandler.parsePagination ⟨"3", "20"⟩ = (3, 20, none) ∧
    DevicesHandler.GetDevicesByUnitGUID "U1" ⟨"3", "20"⟩ =
      Except.ok { guid := "U1", limit := 20, offset := (3 - 1) * 20 } :=
  ⟨by decide,
    (DevicesHandler.offset_mod "U1" ⟨"3", "20"⟩ 3 20 (by decide)).2.2.2.2.2.1 (by decide)⟩

end v1

/-! ## Report paths -/

namespace filepath

theorem splitSlash_elems (cs : List Char) : ∀ e ∈ splitSlash cs, '/' ∉ e := by
  induction cs with
  | nil => simp [splitSlash]
  | cons c cs ih =>
      obtain ⟨x, xs, hx⟩ := List.exists_cons_of_ne_nil (splitSlash_ne_nil cs)
      rw [splitSlash, hx]
      rw [hx] at ih
      by_cases hc : c = '/'
      · simp only [hc, if_true]
        intro e he
        rcases List.mem_cons.mp he with h | h
        · simp [h]
        · exact ih e h
      · simp only [hc, if_false]
        intro e he
        rcases List.mem_cons.mp he with h | h
        · rw [h]
          intro hm
          rcases List.mem_cons.mp hm with h' | h'
          · exact hc h'.symm
          · exact ih x (List.mem_cons_self x xs) h'
        · exact ih e (List.mem_cons_of_mem x h)

theorem splitSlash_joinSlash (es : List (List Char)) (hne : es ≠ [])
    (hes : ∀ e ∈ es, '/' ∉ e) : splitSlash (joinSlash es) = es := by
  induction es with
  | nil => exact absurd rfl hne
  | cons e es ih =>
      cases es with
      | nil => simpa [joinSlash] using splitSlash_no_slash e (hes e (List.mem_cons_self e []))
      | cons x xs =>
          have hj : joinSlash (e :: x :: xs) = e ++ '/' :: joinSlash (x :: xs) := by
            simp [joinSlash]
          rw [hj, splitSlash_append,
            splitSlash_no_slash e (hes e (List.mem_cons_self e _)),
            ih (List.cons_ne_nil x xs) (fun y hy => hes y (List.mem_cons_of_mem e hy))]
          rfl

/-- Real elements are kept by the element-wise pass, in order. -/
theorem cleanElems_real (rooted : Bool) (es : List (List Char))
    (hes : ∀ x ∈ es, isRealElem x) (out : List (List Char)) :
    cleanElems rooted out es = out.reverse ++ es := by
  induction es generalizing out with
  | nil => simp [cleanElems]
  | cons e es ih =>
      obtain ⟨h0, -, h1, h2⟩ := hes e (List.mem_cons_self e es)
      unfold cleanElems
      simp only [h0, h1, h2, false_or, if_false]
      rw [ih (fun x hx => hes x (List.mem_cons_of_mem e hx))]
      simp

/-- Leading `..` elements of a path that is not rooted are kept by the
element-wise pass, and so are the real elements after them. -/
theorem cleanElems_dots (ds rs : List (List Char)) (hds : ∀ x ∈ ds, x = ['.', '.'])
    (hrs : ∀ x ∈ rs, isRealElem x) (out : List (List Char))
    (hout : ∀ x ∈ out, x = ['.', '.']) :
    cleanElems false out (ds ++ rs) = out.reverse ++ (ds ++ rs) := by
  induction ds generalizing out with
  | nil => simpa using cleanElems_real false rs hrs out
  | cons d ds ih =>
      have hd : d = ['.', '.'] := hds d (List.mem_cons_self d ds)
      have hds' : ∀ x ∈ ds, x = ['.', '.'] := fun x hx => hds x (List.mem_cons_of_mem d hx)
      subst hd
      rw [List.cons_append]
      unfold cleanElems
      have hne1 : ¬ ((['.', '.'] : List Char) = [] ∨ (['.', '.'] : List Char) = ['.']) := by
        decide
      simp only [hne1, if_false, if_true]
      cases out with
      | nil =>
          simp only
          rw [ih hds' [['.', '.']] (by simp)]
          simp
      | cons top rest =>
          have htop : top = ['.', '.'] := hout top (List.mem_cons_self top rest)
          simp only [htop, if_true]
          rw [ih hds' (['.', '.'] :: ['.', '.'] :: rest) (by
            intro x hx
            rcases List.mem_cons.mp hx with h | h
            · exact h
            · rcases List.mem_cons.mp h with h' | h'
              · exact h'
              · exact hout x (List.mem_cons_of_mem top h'))]
          simp [htop]

/-- The element-wise pass yields `..` elements (none when the path is rooted)
followed by real elements. -/
theorem cleanElems_normal (rooted : Bool) (es : List (List Char)) (hes : ∀ e ∈ es, '/' ∉ e)
    (rs ds : List (List Char)) (hrs : ∀ x ∈ rs, isRealElem x)
    (hds : ∀ x ∈ ds, x = ['.', '.']) (hroot : rooted = true → ds = []) :
    ∃ rs' ds', cleanElems rooted (rs ++ ds) es = ds' ++ rs' ∧ (∀ x ∈ rs', isRealElem x) ∧
      (∀ x ∈ ds', x = ['.', '.']) ∧ (rooted = true → ds' = []) := by
  induction es generalizing rs ds with
  | nil =>
      refine ⟨rs.reverse, ds.reverse, by simp [cleanElems], ?_, ?_, ?_⟩
      · intro x hx
        exact hrs x (List.mem_reverse.mp hx)
      · intro x hx
        exact hds x (List.mem_reverse.mp hx)
      · intro h
        simp [hroot h]
  | cons e es ih =>
      have hes' : ∀ x ∈ es, '/' ∉ x := fun x hx => hes x (List.mem_cons_of_mem e hx)
      have hslash : '/' ∉ e := hes e (List.mem_cons_self e es)
      unfold cleanElems
      split
      · exact ih hes' rs ds hrs hds hroot
      · next hskip =>
          split
          · next hdd =>
              cases rs with
              | nil =>
                  cases ds with
                  | nil =>
                      simp only [List.append_nil]
                      cases hr : rooted with
                      | true =>
                          simp only [if_true]
                          simpa [hr] using ih hes' [] [] (by simp) (by simp) (by simp)
                      | false =>
                          simp only [Bool.false_eq_true, if_false]
                          simpa [hr] using ih hes' [] [e] (by simp) (by simp [hdd]) (by simp [hr])
                  | cons d ds' =>
                      have hd : d = ['.', '.'] := hds d (List.mem_cons_self d ds')
                      have hr : rooted = false := by
                        cases hr : rooted with
                        | false => rfl
                        | true => exact absurd (hroot hr) (by simp)
                      simp only [List.nil_append, hd, if_true]
                      have := ih hes' [] (e :: ['.', '.'] :: ds') (by simp) (by
                        intro x hx
                        rcases List.mem_cons.mp hx with h | h
                        · rw [h, hdd]
                        · rcases List.mem_cons.mp h with h' | h'
                          · exact h'
                          · exact hds x (List.mem_cons_of_mem d h')) (by simp [hr])
                      simpa using this
              | cons r rs' =>
                  have hr : isRealElem r := hrs r (List.mem_cons_self r rs')
                  simp only [List.cons_append, hr.2.2.2, if_false]
                  exact ih hes' rs' ds (fun x hx => hrs x (List.mem_cons_of_mem r hx)) hds hroot
          · next hdd =>
              have hreal : isRealElem e :=
                ⟨fun h => hskip (Or.inl h), hslash, fun h => hskip (Or.inr h), hdd⟩
              have := ih hes' (e :: rs) ds (by
                intro x hx
                rcases List.mem_cons.mp hx with h | h
                · rw [h]
                  exact hreal
                · exact hrs x h) hds hroot
              simpa using this

end filepath

namespace filepath

theorem cleanElems_append_real (rooted : Bool) (n : List Char) (hn : isRealElem n)
    (es out : List (List Char)) :
    cleanElems rooted out (es ++ [n]) = cleanElems rooted out es ++ [n] := by
  induction es generalizing out with
  | nil =>
      have h := cleanElems_real rooted [n] (by simpa using hn) out
      simpa [cleanElems] using h
  | cons e es ih =>
      rw [List.cons_append]
      unfold cleanElems
      by_cases hskip : e = [] ∨ e = ['.']
      · simp only [hskip, if_true]
        exact ih out
      · simp only [hskip, if_false]
        by_cases hdd : e = ['.', '.']
        · simp only [hdd, if_true]
          cases out with
          | nil =>
              cases rooted with
              | true => simpa using ih []
              | false => simpa using ih [['.', '.']]
          | cons top rest =>
              by_cases htop : top = ['.', '.']
              · simpa [htop] using ih (['.', '.'] :: ['.', '.'] :: rest)
              · simpa [htop] using ih rest
        · simp only [hdd, if_false]
          exact ih (e :: out)

theorem cleanElems_append_empty (rooted : Bool) (es out : List (List Char)) :
    cleanElems rooted out (es ++ [[]]) = cleanElems rooted out es := by
  induction es generalizing out with
  | nil => simp [cleanElems]
  | cons e es ih =>
      rw [List.cons_append]
      unfold cleanElems
      by_cases hskip : e = [] ∨ e = ['.']
      · simp only [hskip, if_true]
        exact ih out
      · simp only [hskip, if_false]
        by_cases hdd : e = ['.', '.']
        · simp only [hdd, if_true]
          cases out with
          | nil =>
              cases rooted with
              | true => simpa using ih []
              | false => simpa using ih [['.', '.']]
          | cons top rest =>
              by_cases htop : top = ['.', '.']
              · simpa [htop] using ih (['.', '.'] :: ['.', '.'] :: rest)
              · simpa [htop] using ih rest
        · simp only [hdd, if_false]
          exact ih (e :: out)

theorem dropWhile_all_append {α : Type} (p : α → Bool) (l r : List α) (h : ∀ x ∈ l, p x = true) :
    (l ++ r).dropWhile p = r.dropWhile p := by
  induction l with
  | nil => rfl
  | cons x xs ih =>
      rw [List.cons_append, List.dropWhile_cons, h x (List.mem_cons_self x xs)]
      exact ih (fun y hy => h y (List.mem_cons_of_mem x hy))

theorem dirPrefix_no_slash (n : List Char) (hn : '/' ∉ n) : dirPrefix n = [] := by
  have hall : ∀ x ∈ n.reverse, (x != '/') = true := by
    intro x hx
    have hx' : x ∈ n := by simpa using hx
    simpa using fun e : x = '/' => hn (e ▸ hx')
  have h := dropWhile_all_append (fun c => c != '/') n.reverse [] hall
  simp only [List.append_nil, List.dropWhile_nil] at h
  simp [dirPrefix, h]

theorem dirPrefix_append (x n : List Char) (hn : '/' ∉ n) :
    dirPrefix (x ++ '/' :: n) = x ++ ['/'] := by
  have hall : ∀ c ∈ n.reverse, (c != '/') = true := by
    intro c hc
    have hc' : c ∈ n := by simpa using hc
    simpa using fun e : c = '/' => hn (e ▸ hc')
  have h := dropWhile_all_append (fun c => c != '/') n.reverse ('/' :: x.reverse) hall
  simp only [dirPrefix, List.reverse_append, List.reverse_cons, List.append_assoc,
    List.singleton_append]
  rw [h]
  simp [List.dropWhile_cons]

theorem cleanChars_cons (c : Char) (cs : List Char) :
    cleanChars (c :: cs) =
      if c = '/' then '/' :: joinSlash (cleanElems true [] (splitSlash (c :: cs)))
      else if joinSlash (cleanElems false [] (splitSlash (c :: cs))) = [] then ['.']
      else joinSlash (cleanElems false [] (splitSlash (c :: cs))) := by
  by_cases h : c = '/' <;> simp [cleanChars, h]

theorem joinSlash_cons_head (e : List Char) (es : List (List Char)) :
    ∃ rest, joinSlash (e :: es) = e ++ rest := by
  cases es with
  | nil => exact ⟨[], by simp [joinSlash]⟩
  | cons x xs => exact ⟨'/' :: joinSlash (x :: xs), by simp [joinSlash]⟩

/-- A cleaned path that is not rooted starts with a character other than `/`. -/
theorem joinSlash_normal_head (ds rs : List (List Char)) (hds : ∀ x ∈ ds, x = ['.', '.'])
    (hrs : ∀ x ∈ rs, isRealElem x) (hne : ds ++ rs ≠ []) :
    ∃ c t, joinSlash (ds ++ rs) = c :: t ∧ c ≠ '/' := by
  obtain ⟨e, es, hE⟩ := List.exists_cons_of_ne_nil hne
  have he : e ≠ [] ∧ '/' ∉ e := by
    have hmem : e ∈ ds ++ rs := by rw [hE]; exact List.mem_cons_self e es
    rcases List.mem_append.mp hmem with h | h
    · rw [hds e h]
      decide
    · exact ⟨(hrs e h).1, (hrs e h).2.1⟩
  obtain ⟨rest, hrest⟩ := joinSlash_cons_head e es
  obtain ⟨c, t, hct⟩ := List.exists_cons_of_ne_nil he.1
  refine ⟨c, t ++ rest, by rw [hE, hrest, hct]; rfl, ?_⟩
  intro hc
  apply he.2
  rw [hct, hc]
  exact List.mem_cons_self _ _

end filepath

namespace filepath

/-- The directory part of a cleaned, rooted path with at least one element. -/
theorem cleanChars_slash_rooted (rs : List (List Char)) (hrs : ∀ x ∈ rs, isRealElem x) :
    cleanChars ('/' :: (joinSlash rs ++ ['/'])) = '/' :: joinSlash rs := by
  by_cases hne : rs = []
  · subst hne
    decide
  · have hsplit : splitSlash ('/' :: (joinSlash rs ++ ['/'])) = [] :: (rs ++ [[]]) := by
      have h1 := splitSlash_append [] (joinSlash rs ++ ['/'])
      have h2 := splitSlash_append (joinSlash rs) []
      simp only [List.nil_append] at h1
      have h3 : joinSlash rs ++ ['/'] = joinSlash rs ++ '/' :: [] := rfl
      rw [h1, h3, h2, splitSlash_joinSlash rs hne (fun e he => (hrs e he).2.1)]
      simp [splitSlash]
    rw [cleanChars_cons, if_pos rfl, hsplit]
    have hskip : cleanElems true [] ([] :: (rs ++ [[]])) = cleanElems true [] (rs ++ [[]]) := by
      rw [cleanElems]
      simp
    rw [hskip, cleanElems_append_empty, cleanElems_real true rs hrs []]
    simp

/-- The directory part of a cleaned path that is not rooted and has at least
one element. -/
theorem cleanChars_slash_unrooted (ds rs : List (List Char)) (hds : ∀ x ∈ ds, x = ['.', '.'])
    (hrs : ∀ x ∈ rs, isRealElem x) (hne : ds ++ rs ≠ []) :
    cleanChars (joinSlash (ds ++ rs) ++ ['/']) = joinSlash (ds ++ rs) := by
  obtain ⟨c, t, hJ, hc⟩ := joinSlash_normal_head ds rs hds hrs hne
  have hslash : ∀ e ∈ ds ++ rs, '/' ∉ e := by
    intro e he
    rcases List.mem_append.mp he with h | h
    · rw [hds e h]
      decide
    · exact (hrs e h).2.1
  have hsplit : splitSlash (joinSlash (ds ++ rs) ++ ['/']) = (ds ++ rs) ++ [[]] := by
    have h2 := splitSlash_append (joinSlash (ds ++ rs)) []
    have h3 : joinSlash (ds ++ rs) ++ ['/'] = joinSlash (ds ++ rs) ++ '/' :: [] := rfl
    rw [h3, h2, splitSlash_joinSlash _ hne hslash]
    simp [splitSlash]
  have hcons : joinSlash (ds ++ rs) ++ ['/'] = c :: (t ++ ['/']) := by
    rw [hJ]
    rfl
  rw [hcons, cleanChars_cons, if_neg hc, ← hcons, hsplit, cleanElems_append_empty,
    cleanElems_dots ds rs hds hrs [] (by simp)]
  simp only [List.reverse_nil, List.nil_append]
  rw [hJ]
  simp


/-- The directory part of a cleaned path `a/n`, cleaned again, is the cleaned
`a`, for a real element `n`. -/
theorem cleanChars_dir_entry (A N : List Char) (hA : A ≠ []) (hN : isRealElem N) :
    cleanChars (dirPrefix (cleanChars (A ++ '/' :: N))) = cleanChars A := by
  obtain ⟨c, cs, hA'⟩ := List.exists_cons_of_ne_nil hA
  obtain ⟨rs, ds, hE, hrs, hds, hroot⟩ := cleanElems_normal (decide (c = '/')) (splitSlash A)
    (splitSlash_elems A) [] [] (by simp) (by simp) (by simp)
  simp only [List.append_nil] at hE
  have hEn : cleanElems (decide (c = '/')) [] (splitSlash (A ++ '/' :: N)) =
      (ds ++ rs) ++ [N] := by
    rw [splitSlash_append, splitSlash_no_slash N hN.2.1, cleanElems_append_real _ N hN, hE]
  have hbody : joinSlash ((ds ++ rs) ++ [N]) ≠ [] := by
    rw [joinSlash_append_last]
    split
    · exact hN.1
    · simp
  by_cases hc : c = '/'
  · have hds0 : ds = [] := hroot (by simp [hc])
    subst hds0
    simp only [hc, decide_True, List.nil_append] at hE hEn
    have h1 : cleanChars A = '/' :: joinSlash rs := by
      rw [hA', cleanChars_cons, if_pos hc, ← hA', hE]
    have h2 : cleanChars (A ++ '/' :: N) = '/' :: joinSlash (rs ++ [N]) := by
      rw [hA', List.cons_append, cleanChars_cons, if_pos hc, ← List.cons_append, ← hA', hEn]
    rw [h1, h2, joinSlash_append_last]
    by_cases hr : rs = []
    · subst hr
      simp only [if_true]
      have hp : dirPrefix ('/' :: N) = ['/'] := by
        simpa using dirPrefix_append [] N hN.2.1
      rw [hp]
      decide
    · simp only [hr, if_false]
      have hp : dirPrefix ('/' :: (joinSlash rs ++ '/' :: N)) =
          '/' :: (joinSlash rs ++ ['/']) := by
        simpa using dirPrefix_append ('/' :: joinSlash rs) N hN.2.1
      rw [hp, cleanChars_slash_rooted rs hrs]
  · simp only [hc, decide_False] at hE hEn
    have h1 : cleanChars A =
        if joinSlash (ds ++ rs) = [] then ['.'] else joinSlash (ds ++ rs) := by
      rw [hA', cleanChars_cons, if_neg hc, ← hA', hE]
    have h2 : cleanChars (A ++ '/' :: N) = joinSlash ((ds ++ rs) ++ [N]) := by
      rw [hA', List.cons_append, cleanChars_cons, if_neg hc, ← List.cons_append, ← hA', hEn,
        if_neg hbody]
    rw [h1, h2, joinSlash_append_last]
    by_cases hr : ds ++ rs = []
    · simp only [hr, if_true, joinSlash]
      rw [dirPrefix_no_slash N hN.2.1]
      rfl
    · obtain ⟨c0, t, hJ, -⟩ := joinSlash_normal_head ds rs hds hrs hr
      have hJne : joinSlash (ds ++ rs) ≠ [] := by
        rw [hJ]
        simp
      simp only [hr, if_false, hJne]
      rw [dirPrefix_append (joinSlash (ds ++ rs)) N hN.2.1,
        cleanChars_slash_unrooted ds rs hds hrs hr]

/-- For every directory and entry name, the directory of the joined path is
the cleaned directory. -/
theorem Dir_Join_entry (a n : String) (hn : isEntryName n = true) :
    Dir (Join a n) = Clean a := by
  obtain ⟨h0, hs, h1, h2⟩ := (isEntryName_iff n).mp hn
  have hreal : isRealElem n.data := ⟨h0, hs, h1, h2⟩
  have hn' : n ≠ "" := by
    intro e
    apply h0
    rw [e]
  by_cases ha : a = ""
  · have hj : Join a n = String.mk n.data := by
      simp [Join, ha, hn', Clean, cleanChars_entry n.data h0 hs h1 h2]
    rw [hj, ha]
    simp only [Dir, Clean]
    rw [dirPrefix_no_slash n.data hs]
  · have hdata : (a ++ "/" ++ n).data = a.data ++ '/' :: n.data := by
      simp [String.data_append]
    have hA : a.data ≠ [] := by
      intro e
      apply ha
      cases a
      simp_all
    have hj : Join a n = String.mk (cleanChars (a.data ++ '/' :: n.data)) := by
      simp [Join, ha, Clean, hdata]
    rw [hj]
    simp only [Dir, Clean]
    rw [cleanChars_dir_entry a.data n.data hA hreal]

/-- The file name of a report is an entry name when the unit identifier has no
`/`. -/
theorem isEntryName_pdf (guid : String) (hg : '/' ∉ guid.data) :
    isEntryName (guid ++ ".pdf") = true := by
  rw [isEntryName_iff]
  have hdata : (guid ++ ".pdf").data = guid.data ++ ['.', 'p', 'd', 'f'] := by
    simp [String.data_append]
  rw [hdata]
  refine ⟨by simp, ?_, ?_, ?_⟩
  · intro h
    rcases List.mem_append.mp h with h' | h'
    · exact hg h'
    · revert h'
      decide
  · intro h
    have := congrArg List.length h
    simp at this
  · intro h
    have := congrArg List.length h
    simp at this

end filepath

namespace pipeline
open domain

/-- Every call of the generator made by `processResult` is for a key that
`range` visited, with the path joined from the output directory and the key. -/
theorem Reporter.processResult_paths (env : Env) (outputDir : String) (w : World)
    (result : ParseResult) (p g f : String) (ds : List Device) (err : Option GoError)
    (hmem : Event.GenerateReport p g f ds err ∈
      (Reporter.processResult env (app.reporter env outputDir) result w).2.since w) :
    p = filepath.Join outputDir (g ++ ".pdf") ∧
    g ∈ env.rangeOrder w.trace
      ((Reporter.processResult.group result.Devices []).map Prod.fst) := by
  have hcases := (Reporter.processResult.loop_cases env outputDir result
    (Reporter.processResult.group result.Devices [])
    (env.rangeOrder w.trace ((Reporter.processResult.group result.Devices []).map Prod.fst))
    w).2
  unfold Reporter.processResult at hmem
  simp only at hmem
  rcases hcases with ⟨-, htr⟩ | ⟨pre, g', post, e, horder, -, htr⟩
  · rw [World.since_of_trace _ w _ htr] at hmem
    obtain ⟨k, hk, hev⟩ := List.mem_map.mp hmem
    simp only [Event.GenerateReport.injEq] at hev
    obtain ⟨hp, hg, -⟩ := hev
    subst hg
    exact ⟨hp.symm, hk⟩
  · rw [List.append_assoc] at htr
    rw [World.since_of_trace _ w _ htr] at hmem
    rcases List.mem_append.mp hmem with h | h
    · obtain ⟨k, hk, hev⟩ := List.mem_map.mp h
      simp only [Event.GenerateReport.injEq] at hev
      obtain ⟨hp, hg, -⟩ := hev
      subst hg
      refine ⟨hp.symm, ?_⟩
      rw [horder]
      exact List.mem_append_left _ hk
    · simp only [List.mem_singleton, Event.GenerateReport.injEq] at h
      obtain ⟨hp, hg, -⟩ := h
      subst hg
      refine ⟨hp, ?_⟩
      rw [horder]
      simp

/-- Counterexample for C28: the unit identifier `../U1` passes `Validate`, and
the report path the reporter hands to the generator for the output directory
`out` is `U1.pdf`: its parent directory is `.`, not `out`, and its file name
is not `../U1.pdf`. -/
theorem Reporter.report_path_escapes :
    sample.deviceEscaping.Validate = none ∧
    (Reporter.processResult sample.env (app.reporter sample.env "out") sample.resultEscaping
        sample.world).2.trace =
      [Event.GenerateReport "U1.pdf" "../U1" "watch/a.tsv" [sample.deviceEscaping] none] ∧
    filepath.Dir "U1.pdf" = "." ∧
    filepath.Clean "out" = "out" ∧
    filepath.Base "U1.pdf" ≠ "../U1" ++ ".pdf" := by
  refine ⟨by decide, by decide, by decide, by decide, by decide⟩

/-- C28 (amended): for every output directory and every outcome whose devices
have unit identifiers without `/`, each report path the reporter hands to the
generator lies directly inside the output directory: the call is for the unit
identifier of one of the devices, the parent directory of its path is the
cleaned output directory and its file name is `<unit identifier>.pdf`. -/
theorem Reporter.report_path_in_output_dir (env : Env) (outputDir : String) (w : World)
    (result : ParseResult) (hrange : env.rangeOk)
    (hguid : ∀ d ∈ result.Devices, '/' ∉ d.UnitGUID.data)
    (p g f : String) (ds : List Device) (err : Option GoError)
    (hmem : Event.GenerateReport p g f ds err ∈
      (Reporter.processResult env (app.reporter env outputDir) result w).2.since w) :
    (∃ d ∈ result.Devices, d.UnitGUID = g) ∧
    filepath.Dir p = filepath.Clean outputDir ∧ filepath.Base p = g ++ ".pdf" := by
  obtain ⟨hp, hg⟩ := Reporter.processResult_paths env outputDir w result p g f ds err hmem
  have hkey : g ∈ (Reporter.processResult.group result.Devices []).map Prod.fst :=
    (hrange w.trace _).mem_iff.mp hg
  have hdev : ∃ d ∈ result.Devices, d.UnitGUID = g := by
    rcases ((Reporter.processResult.group_keys result.Devices [] (by simp)).2 g).mp hkey with
      h | h
    · simp at h
    · exact h
  obtain ⟨d, hd, hdg⟩ := hdev
  have hentry : filepath.isEntryName (g ++ ".pdf") = true := by
    rw [← hdg]
    exact filepath.isEntryName_pdf d.UnitGUID (hguid d hd)
  refine ⟨⟨d, hd, hdg⟩, ?_, ?_⟩
  · rw [hp]
    exact filepath.Dir_Join_entry outputDir _ hentry
  · rw [hp]
    exact filepath.Base_Join_entry outputDir _ hentry

/-- Witness for C28 (amended): for the outcome with the units of `device1` and
`U1` and the output directory `out`, the report of `U1` is `out/U1.pdf`,
directly inside `out`. -/
theorem Reporter.report_path_in_output_dir_witness :
    filepath.Dir "out/U1.pdf" = filepath.Clean "out" ∧
    filepath.Base "out/U1.pdf" = "U1" ++ ".pdf" :=
  (Reporter.report_path_in_output_dir sample.env "out" sample.world sample.resultOk
    (fun _ _ => List.Perm.refl _) (by decide) "out/U1.pdf" "U1" "watch/a.tsv"
    [sample.device2] none (by decide)).2

end pipeline

/-! ## The steps between blocking points and the `Run` loops -/

namespace pipeline
open domain postgresql

theorem Parser.Run_recv_parser (env : Env) (ctx : Ctx) (filename : String)
    (rest : List (Select String)) (w : World) :
    Parser.Run env ctx (Select.recv filename :: rest) w =
      Parser.Run env ctx rest (Parser.handled env w filename) := by
  simp only [Parser.Run, Parser.Run.loop, Parser.handled]

theorem Writer.Run_recv_writer (env : Env) (wr : Writer) (ctx : Ctx) (result : ParseResult)
    (rest : List (Select ParseResult)) (w : World) :
    Writer.Run env wr ctx (Select.recv result :: rest) w =
      Writer.Run env wr ctx rest (Writer.handled env wr ctx w result) := by
  simp only [Writer.Run, Writer.Run.loop, Writer.handled]
  generalize wr.processParseResult env ctx result w = out
  obtain ⟨err, w1⟩ := out
  cases err <;> simp

/-- With every send going through at once, the steps of the parser between its
blocking points add up to `Parser.Run` over the schedule. -/
theorem Parser.Run.step_refines_parser (env : Env) (ctx : Ctx) (sched : List (Select String))
    (w : World) :
    runMoments (Parser.Run.step env) (sched.flatMap Select.moments) At.select w =
      (RunResult.position (Parser.Run env ctx sched w).1, (Parser.Run env ctx sched w).2) := by
  induction sched generalizing w with
  | nil => rfl
  | cons x xs ih =>
      cases x with
      | closed =>
          simp only [List.flatMap_cons, Select.moments, List.singleton_append, runMoments,
            Parser.Run.step, Moment.select]
          rw [runMoments_blocked]
          · rfl
          · intro m _
            rfl
      | done err =>
          simp only [List.flatMap_cons, Select.moments, List.singleton_append, runMoments,
            Parser.Run.step, Moment.select]
          rw [runMoments_blocked]
          · rfl
          · intro m _
            rfl
      | recv filename =>
          rw [Parser.Run_recv_parser, ← ih]
          simp [List.flatMap_cons, Select.moments, runMoments, Parser.Run.step, Moment.select,
            Parser.handled]
          rfl

/-- With every send going through at once, the steps of the writer between its
blocking points add up to `Writer.Run` over the schedule. -/
theorem Writer.Run.step_refines_writer (env : Env) (wr : Writer) (ctx : Ctx)
    (sched : List (Select ParseResult)) (w : World) :
    runMoments (Writer.Run.step env wr ctx) (sched.flatMap Select.moments) At.select w =
      (RunResult.position (Writer.Run env wr ctx sched w).1,
        (Writer.Run env wr ctx sched w).2) := by
  induction sched generalizing w with
  | nil => rfl
  | cons x xs ih =>
      cases x with
      | closed =>
          simp only [List.flatMap_cons, Select.moments, List.singleton_append, runMoments,
            Writer.Run.step, Moment.select]
          rw [runMoments_blocked]
          · rfl
          · intro m _
            rfl
      | done err =>
          simp only [List.flatMap_cons, Select.moments, List.singleton_append, runMoments,
            Writer.Run.step, Moment.select]
          rw [runMoments_blocked]
          · rfl
          · intro m _
            rfl
      | recv result =>
          rw [Writer.Run_recv_writer, ← ih]
          simp only [List.flatMap_cons, Select.moments, List.cons_append, List.nil_append,
            runMoments, Writer.Run.step, Moment.select, Writer.handled]
          generalize wr.processParseResult env ctx result w = out
          obtain ⟨err, w1⟩ := out
          cases err <;> simp [runMoments, Writer.Run.step, Moment.select] <;> rfl

/-- The steps of the reporter between its blocking points add up to
`Reporter.Run` over the schedule. -/
theorem Reporter.Run.step_refines_reporter (env : Env) (r : Reporter)
    (sched : List (Select ParseResult)) (w : World) :
    runMoments (Reporter.Run.step env r) (sched.flatMap Select.moments) At.select w =
      (RunResult.position (Reporter.Run env r sched w).1, (Reporter.Run env r sched w).2) := by
  induction sched generalizing w with
  | nil => rfl
  | cons x xs ih =>
      cases x with
      | closed =>
          simp only [List.flatMap_cons, Select.moments, List.singleton_append, runMoments,
            Reporter.Run.step, Moment.select]
          rw [runMoments_blocked]
          · rfl
          · intro m _
            rfl
      | done err =>
          simp only [List.flatMap_cons, Select.moments, List.singleton_append, runMoments,
            Reporter.Run.step, Moment.select]
          rw [runMoments_blocked]
          · rfl
          · intro m _
            rfl
      | recv result =>
          have hrecv : Reporter.Run env r (Select.recv result :: xs) w =
              Reporter.Run env r xs (r.processResult env result w).2 := by
            simp only [Reporter.Run, Reporter.Run.loop]
          rw [hrecv, ← ih]
          simp [List.flatMap_cons, Select.moments, runMoments, Reporter.Run.step, Moment.select]
          rfl

/-- The loop of `scanFiles` taken up to its next send is the loop itself: when
no send is reached the worlds agree, and otherwise the loop is what remains
after the send. -/
theorem Scanner.scanFiles.upToSend_loop (s : Scanner) (ctx : Ctx) (filesMap : StatusMap)
    (entries : List DirEntry) (w : World) :
    match Scanner.scanFiles.upToSend s ctx filesMap entries w with
    | (Scanner.At.select, w1) => Scanner.scanFiles.loop s ctx filesMap entries w = w1
    | (Scanner.At.send path rest fm, w1) =>
        fm = filesMap ∧
        Scanner.scanFiles.loop s ctx filesMap entries w =
          Scanner.scanFiles.loop s ctx filesMap rest (w1.log (Event.SendFile path))
    | (Scanner.At.returned _, _) => False := by
  induction entries generalizing w with
  | nil => simp [Scanner.scanFiles.upToSend, Scanner.scanFiles.loop]
  | cons e es ih =>
      rw [Scanner.scanFiles.loop]
      unfold Scanner.scanFiles.upToSend
      simp only [Scanner.processEntry]
      by_cases hdir : e.IsDir = true
      · simp only [hdir, if_true]
        exact ih w
      · simp only [hdir, if_false]
        by_cases hst :
            ((filesMap.get e.Name).2 && (filesMap.get e.Name).1 != StatusPending) = true
        · simp only [hst, if_true]
          exact ih w
        · simp only [hst, if_false]
          generalize s.fileUpdater ctx _ w = out
          obtain ⟨r, w1⟩ := out
          cases r with
          | some err => exact ih w1
          | none => exact ⟨rfl, rfl⟩

/-- A tick taken by the step of the scanner starts a scan cycle: the cycle is
done when the scanner is back in its `select`, and otherwise `scanFiles` is
what remains to be done after the send the scanner stands in. -/
theorem Scanner.Run.step_tick (env : Env) (s : Scanner) (ctx : Ctx) (m : Moment Unit)
    (w : World) (hsel : m.select = some (Select.recv ())) :
    match Scanner.Run.step env s ctx m Scanner.At.select w with
    | some (Scanner.At.select, w1) => (Scanner.scanFiles env s ctx w).2 = w1
    | some (Scanner.At.send path rest filesMap, w1) =>
        (Scanner.scanFiles env s ctx w).2 =
          Scanner.scanFiles.loop s ctx filesMap rest (w1.log (Event.SendFile path))
    | _ => False := by
  simp only [Scanner.Run.step, hsel, Scanner.scanFiles]
  generalize s.extractFilesFromDB ctx w = fetched
  obtain ⟨r, w1⟩ := fetched
  cases r with
  | error err => simp
  | ok filesMap =>
      simp only
      generalize ReadDir env s.watchDir w1 = listed
      obtain ⟨l, w2⟩ := listed
      cases l with
      | error err => simp
      | ok entries =>
          simp only
          have h := Scanner.scanFiles.upToSend_loop s ctx filesMap entries w2
          generalize Scanner.scanFiles.upToSend s ctx filesMap entries w2 = out at h
          obtain ⟨pos, w3⟩ := out
          cases pos with
          | select => simpa using h
          | send path rest fm =>
              obtain ⟨hfm, hloop⟩ := h
              subst hfm
              simpa using hloop
          | returned err => exact h

end pipeline
